import Mathlib

/-!
Verification of the red-black tree component of the cdsa library
(src/rbtree.c, src/rbtree.h).

The C code is embedded shallowly:
* a pointer is `Ptr`: NULL, a node address (abstracted to a `Nat` id), or one of
  the three poison markers `RBTREE_POISON_PARENT` / `RBTREE_POISON_LEFT_CHILD` /
  `RBTREE_POISON_RIGHT_CHILD` from rbtree.h;
* node memory is a total map `Heap : Nat → RBTreeNode`; reading or writing a
  struct through a NULL/poison pointer is undefined behaviour in C and is
  modelled by a default read / no-op write (such accesses never occur in the
  runs covered by the theorems below);
* each C loop becomes a fuel-indexed recursion returning `Option` — `none`
  models fuel exhaustion (or reaching an `assert(0)`), and every theorem either
  uses concrete fuel or supplies enough fuel for the loops of the function;
* the `compare` callback is a function `K → Nat → Int` (key, node id) whose
  sign is read exactly like the C `int` result; the optional `collide` callback
  is modelled by a flag plus an event record `CollideEv` describing the single
  call site in `rbtree_insert` (arguments passed and heap at the moment of the
  call);
* `size_t` arithmetic appears only as `rbtree->size - 1` and the reverse-scan
  counter of `rbtree_at`; both are modelled with natural subtraction, which
  agrees with `size_t` on every run reachable under the function contracts
  (the C value would wrap only on contract-violating inputs).
-/

namespace CDSA

/-- Color of a red-black tree node (`RBTREE_NODE_RED` / `RBTREE_NODE_BLACK`). -/
inductive RBTreeNodeColor where
  | red
  | black
deriving DecidableEq, Repr, Inhabited

/-- A pointer value: NULL, the address of a node (abstracted to an id), or one
of the three poison markers used to invalidate links of removed nodes. -/
inductive Ptr where
  | null
  | node (id : Nat)
  | poisonParent
  | poisonLeftChild
  | poisonRightChild
deriving DecidableEq, Repr, Inhabited

/-- `struct RBTreeNode`: parent / left_child / right_child links and a color. -/
structure RBTreeNode where
  parent : Ptr
  left_child : Ptr
  right_child : Ptr
  color : RBTreeNodeColor
deriving DecidableEq, Repr, Inhabited

/-- Node memory: the contents of every node address, as a history of writes
(most recent first); addresses never written hold the default struct.  A
first-order representation is used so that concrete states evaluate without
building closures. -/
abbrev Heap := List (Nat × RBTreeNode)

/-- Read the struct at address `i`. -/
def hget (h : Heap) (i : Nat) : RBTreeNode :=
  match h with
  | [] => default
  | (j, v) :: rest => if i = j then v else hget rest i

/-- Write the struct at address `i`. -/
def hset (h : Heap) (i : Nat) (v : RBTreeNode) : Heap :=
  (i, v) :: h

/-- Read a node struct through a pointer.  Dereferencing NULL or a poison
pointer is UB in C; it is modelled by the default struct (never reached in the
runs the theorems talk about). -/
def pget (h : Heap) (p : Ptr) : RBTreeNode :=
  match p with
  | Ptr.node i => hget h i
  | _ => default

/-- Write a node struct through a pointer (no-op on NULL/poison, UB in C). -/
def pset (h : Heap) (p : Ptr) (v : RBTreeNode) : Heap :=
  match p with
  | Ptr.node i => hset h i v
  | _ => h

/-- `p->parent = q` -/
def psetParent (h : Heap) (p q : Ptr) : Heap :=
  pset h p { pget h p with parent := q }

/-- `p->left_child = q` -/
def psetLeft (h : Heap) (p q : Ptr) : Heap :=
  pset h p { pget h p with left_child := q }

/-- `p->right_child = q` -/
def psetRight (h : Heap) (p q : Ptr) : Heap :=
  pset h p { pget h p with right_child := q }

/-- `p->color = c` -/
def psetColor (h : Heap) (p : Ptr) (c : RBTreeNodeColor) : Heap :=
  pset h p { pget h p with color := c }

/-- Overwrite the three link fields of a struct with the poison markers
(`node->parent = RBTREE_POISON_PARENT;` etc.), keeping the color. -/
def poisonLinks (v : RBTreeNode) : RBTreeNode :=
  { v with parent := Ptr.poisonParent, left_child := Ptr.poisonLeftChild,
           right_child := Ptr.poisonRightChild }

/-- The machine state: the node memory together with the fields of
`struct RBTree` (compare, collide, auxiliary_data, root, size).  The collide
callback pointer is abstracted to the flag "is it non-NULL". -/
structure St (K A : Type) where
  heap : Heap
  compare : K → Nat → Int
  collide : Bool
  auxiliary_data : A
  root : Ptr
  size : Nat

variable {K A : Type}

/-- `color(node)`: NULL counts as black (rbtree.c, static `color`). -/
def color (h : Heap) (p : Ptr) : RBTreeNodeColor :=
  match p with
  | Ptr.node i => (hget h i).color
  | _ => RBTreeNodeColor.black

/-- static `sibling` from rbtree.c. -/
def sibling (h : Heap) (node : Ptr) : Ptr :=
  if node = (pget h (pget h node).parent).left_child then
    (pget h (pget h node).parent).right_child
  else
    (pget h (pget h node).parent).left_child

/-- static `grandparent` from rbtree.c. -/
def grandparent (h : Heap) (node : Ptr) : Ptr :=
  (pget h (pget h node).parent).parent

/-- static `uncle` from rbtree.c. -/
def uncle (h : Heap) (node : Ptr) : Ptr :=
  sibling h (pget h node).parent

/-- static `replace` from rbtree.c: put `new_node` in `old_node`'s place
(collision replacement), poisoning `old_node`'s links.  Statements are
sequenced exactly as in the C source. -/
def replace (st : St K A) (old_node new_node : Ptr) : St K A :=
  let st1 :=
    if st.root = old_node then { st with root := new_node }
    else if old_node = (pget st.heap (pget st.heap old_node).parent).left_child then
      { st with heap := psetLeft st.heap (pget st.heap old_node).parent new_node }
    else
      { st with heap := psetRight st.heap (pget st.heap old_node).parent new_node }
  let st2 :=
    if (pget st1.heap old_node).left_child ≠ Ptr.null then
      { st1 with heap := psetParent st1.heap (pget st1.heap old_node).left_child new_node }
    else st1
  let st3 :=
    if (pget st2.heap old_node).right_child ≠ Ptr.null then
      { st2 with heap := psetParent st2.heap (pget st2.heap old_node).right_child new_node }
    else st2
  let st4 := { st3 with heap := pset st3.heap new_node (pget st3.heap old_node) }
  { st4 with heap := pset st4.heap old_node (poisonLinks (pget st4.heap old_node)) }

/-- static `transplant` from rbtree.c. -/
def transplant (st : St K A) (old_node new_node : Ptr) : St K A :=
  let st1 :=
    if (pget st.heap old_node).parent = Ptr.null then { st with root := new_node }
    else if old_node = (pget st.heap (pget st.heap old_node).parent).left_child then
      { st with heap := psetLeft st.heap (pget st.heap old_node).parent new_node }
    else
      { st with heap := psetRight st.heap (pget st.heap old_node).parent new_node }
  if new_node ≠ Ptr.null then
    { st1 with heap := psetParent st1.heap new_node (pget st1.heap old_node).parent }
  else st1

/-- static `swap_places` from rbtree.c: exchange the tree positions of
`high_node` (an ancestor) and `low_node`, ending with the C struct-content
swap `high_cpy = *high; *high = *low; *low = high_cpy`. -/
def swap_places (st : St K A) (high_node low_node : Ptr) : St K A :=
  let st1 :=
    if (pget st.heap high_node).parent = Ptr.null then { st with root := low_node }
    else if (pget st.heap (pget st.heap high_node).parent).left_child = high_node then
      { st with heap := psetLeft st.heap (pget st.heap high_node).parent low_node }
    else
      { st with heap := psetRight st.heap (pget st.heap high_node).parent low_node }
  let st2 :=
    if (pget st1.heap low_node).left_child ≠ Ptr.null then
      { st1 with heap := psetParent st1.heap (pget st1.heap low_node).left_child high_node }
    else st1
  let st3 :=
    if (pget st2.heap low_node).right_child ≠ Ptr.null then
      { st2 with heap := psetParent st2.heap (pget st2.heap low_node).right_child high_node }
    else st2
  let st4 :=
    if (pget st3.heap high_node).left_child = low_node then
      let s :=
        if (pget st3.heap high_node).right_child ≠ Ptr.null then
          { st3 with heap := psetParent st3.heap (pget st3.heap high_node).right_child low_node }
        else st3
      let s := { s with heap := psetLeft s.heap high_node high_node }
      { s with heap := psetParent s.heap low_node low_node }
    else if (pget st3.heap high_node).right_child = low_node then
      let s :=
        if (pget st3.heap high_node).left_child ≠ Ptr.null then
          { st3 with heap := psetParent st3.heap (pget st3.heap high_node).left_child low_node }
        else st3
      let s := { s with heap := psetRight s.heap high_node high_node }
      { s with heap := psetParent s.heap low_node low_node }
    else
      let s :=
        if (pget st3.heap high_node).left_child ≠ Ptr.null then
          { st3 with heap := psetParent st3.heap (pget st3.heap high_node).left_child low_node }
        else st3
      let s :=
        if (pget s.heap high_node).right_child ≠ Ptr.null then
          { s with heap := psetParent s.heap (pget s.heap high_node).right_child low_node }
        else s
      if (pget s.heap (pget s.heap low_node).parent).left_child = low_node then
        { s with heap := psetLeft s.heap (pget s.heap low_node).parent high_node }
      else
        { s with heap := psetRight s.heap (pget s.heap low_node).parent high_node }
  let hc := pget st4.heap high_node
  let lc := pget st4.heap low_node
  let st5 := { st4 with heap := pset st4.heap high_node lc }
  { st5 with heap := pset st5.heap low_node hc }

/-- static `rotate_left` from rbtree.c. -/
def rotate_left (st : St K A) (node : Ptr) : St K A :=
  let n := (pget st.heap node).right_child
  let st := transplant st node n
  let st := { st with heap := psetRight st.heap node (pget st.heap n).left_child }
  let st :=
    if (pget st.heap n).left_child ≠ Ptr.null then
      { st with heap := psetParent st.heap (pget st.heap n).left_child node }
    else st
  let st := { st with heap := psetLeft st.heap n node }
  { st with heap := psetParent st.heap node n }

/-- static `rotate_right` from rbtree.c. -/
def rotate_right (st : St K A) (node : Ptr) : St K A :=
  let n := (pget st.heap node).left_child
  let st := transplant st node n
  let st := { st with heap := psetLeft st.heap node (pget st.heap n).right_child }
  let st :=
    if (pget st.heap n).right_child ≠ Ptr.null then
      { st with heap := psetParent st.heap (pget st.heap n).right_child node }
    else st
  let st := { st with heap := psetRight st.heap n node }
  { st with heap := psetParent st.heap node n }

/-- The loop of static `repair_after_insert` from rbtree.c.  One fuel unit per
iteration; `none` on fuel exhaustion. -/
def rai_go : Nat → St K A → Ptr → Option (St K A)
  | 0, _, _ => none
  | fuel+1, st, node =>
    if (pget st.heap node).parent = Ptr.null then
      some { st with heap := psetColor st.heap node RBTreeNodeColor.black }
    else if color st.heap (pget st.heap node).parent = RBTreeNodeColor.black then
      some st
    else if color st.heap (uncle st.heap node) = RBTreeNodeColor.red then
      let st := { st with heap := psetColor st.heap (pget st.heap node).parent RBTreeNodeColor.black }
      let st := { st with heap := psetColor st.heap (uncle st.heap node) RBTreeNodeColor.black }
      let st := { st with heap := psetColor st.heap (grandparent st.heap node) RBTreeNodeColor.red }
      rai_go fuel st (grandparent st.heap node)
    else
      let p :=
        if node = (pget st.heap (pget st.heap node).parent).right_child ∧
            (pget st.heap node).parent = (pget st.heap (grandparent st.heap node)).left_child then
          let st := rotate_left st (pget st.heap node).parent
          (st, (pget st.heap node).left_child)
        else if node = (pget st.heap (pget st.heap node).parent).left_child ∧
            (pget st.heap node).parent = (pget st.heap (grandparent st.heap node)).right_child then
          let st := rotate_right st (pget st.heap node).parent
          (st, (pget st.heap node).right_child)
        else (st, node)
      let st := p.1
      let node := p.2
      let st := { st with heap := psetColor st.heap (pget st.heap node).parent RBTreeNodeColor.black }
      let st := { st with heap := psetColor st.heap (grandparent st.heap node) RBTreeNodeColor.red }
      let st :=
        if node = (pget st.heap (pget st.heap node).parent).left_child ∧
            (pget st.heap node).parent = (pget st.heap (grandparent st.heap node)).left_child then
          rotate_right st (grandparent st.heap node)
        else
          rotate_left st (grandparent st.heap node)
      some st

/-- static `repair_after_insert`. -/
def repair_after_insert (st : St K A) (node : Ptr) (fuel : Nat) : Option (St K A) :=
  rai_go fuel st node

/-- The loop of static `repair_after_remove` from rbtree.c.  One fuel unit per
iteration; `none` on fuel exhaustion. -/
def rar_go : Nat → St K A → Ptr → Option (St K A)
  | 0, _, _ => none
  | fuel+1, st, node =>
    if (pget st.heap node).parent = Ptr.null then
      some st
    else
      let st :=
        if color st.heap (sibling st.heap node) = RBTreeNodeColor.red then
          let st := { st with heap := psetColor st.heap (pget st.heap node).parent RBTreeNodeColor.red }
          let st := { st with heap := psetColor st.heap (sibling st.heap node) RBTreeNodeColor.black }
          if node = (pget st.heap (pget st.heap node).parent).left_child then
            rotate_left st (pget st.heap node).parent
          else
            rotate_right st (pget st.heap node).parent
        else st
      if color st.heap (pget st.heap node).parent = RBTreeNodeColor.black ∧
          color st.heap (sibling st.heap node) = RBTreeNodeColor.black ∧
          color st.heap (pget st.heap (sibling st.heap node)).left_child = RBTreeNodeColor.black ∧
          color st.heap (pget st.heap (sibling st.heap node)).right_child = RBTreeNodeColor.black then
        let st := { st with heap := psetColor st.heap (sibling st.heap node) RBTreeNodeColor.red }
        rar_go fuel st (pget st.heap node).parent
      else if color st.heap (pget st.heap node).parent = RBTreeNodeColor.red ∧
          color st.heap (sibling st.heap node) = RBTreeNodeColor.black ∧
          color st.heap (pget st.heap (sibling st.heap node)).left_child = RBTreeNodeColor.black ∧
          color st.heap (pget st.heap (sibling st.heap node)).right_child = RBTreeNodeColor.black then
        let st := { st with heap := psetColor st.heap (sibling st.heap node) RBTreeNodeColor.red }
        let st := { st with heap := psetColor st.heap (pget st.heap node).parent RBTreeNodeColor.black }
        some st
      else
        let st :=
          if node = (pget st.heap (pget st.heap node).parent).left_child ∧
              color st.heap (sibling st.heap node) = RBTreeNodeColor.black ∧
              color st.heap (pget st.heap (sibling st.heap node)).left_child = RBTreeNodeColor.red ∧
              color st.heap (pget st.heap (sibling st.heap node)).right_child = RBTreeNodeColor.black then
            let st := { st with heap := psetColor st.heap (sibling st.heap node) RBTreeNodeColor.red }
            let st := { st with heap := (psetColor st.heap
                (pget st.heap (sibling st.heap node)).left_child RBTreeNodeColor.black) }
            rotate_right st (sibling st.heap node)
          else if node = (pget st.heap (pget st.heap node).parent).right_child ∧
              color st.heap (sibling st.heap node) = RBTreeNodeColor.black ∧
              color st.heap (pget st.heap (sibling st.heap node)).left_child = RBTreeNodeColor.black ∧
              color st.heap (pget st.heap (sibling st.heap node)).right_child = RBTreeNodeColor.red then
            let st := { st with heap := psetColor st.heap (sibling st.heap node) RBTreeNodeColor.red }
            let st := { st with heap := (psetColor st.heap
                (pget st.heap (sibling st.heap node)).right_child RBTreeNodeColor.black) }
            rotate_left st (sibling st.heap node)
          else st
        let st := { st with heap := (psetColor st.heap (sibling st.heap node)
            (color st.heap (pget st.heap node).parent)) }
        let st := { st with heap := psetColor st.heap (pget st.heap node).parent RBTreeNodeColor.black }
        if node = (pget st.heap (pget st.heap node).parent).left_child then
          let st := { st with heap := (psetColor st.heap
              (pget st.heap (sibling st.heap node)).right_child RBTreeNodeColor.black) }
          some (rotate_left st (pget st.heap node).parent)
        else
          let st := { st with heap := (psetColor st.heap
              (pget st.heap (sibling st.heap node)).left_child RBTreeNodeColor.black) }
          some (rotate_right st (pget st.heap node).parent)

/-- static `repair_after_remove`. -/
def repair_after_remove (st : St K A) (node : Ptr) (fuel : Nat) : Option (St K A) :=
  rar_go fuel st node

/-- `rbtree_init`: reset the tree handle over a given node memory. -/
def rbtree_init (heap : Heap) (compare : K → Nat → Int) (collide : Bool)
    (auxiliary_data : A) : St K A :=
  { heap := heap
    compare := compare
    collide := collide
    auxiliary_data := auxiliary_data
    root := Ptr.null
    size := 0 }

/-- The `while (n->left_child) n = n->left_child;` loop. -/
def leftmostF (h : Heap) : Nat → Ptr → Option Ptr
  | 0, _ => none
  | fuel+1, n =>
    if (pget h n).left_child = Ptr.null then some n
    else leftmostF h fuel (pget h n).left_child

/-- The `while (n->right_child) n = n->right_child;` loop. -/
def rightmostF (h : Heap) : Nat → Ptr → Option Ptr
  | 0, _ => none
  | fuel+1, n =>
    if (pget h n).right_child = Ptr.null then some n
    else rightmostF h fuel (pget h n).right_child

/-- `rbtree_first`. -/
def rbtree_first (st : St K A) (fuel : Nat) : Option Ptr :=
  if st.root = Ptr.null then some Ptr.null
  else leftmostF st.heap fuel st.root

/-- `rbtree_last`. -/
def rbtree_last (st : St K A) (fuel : Nat) : Option Ptr :=
  if st.root = Ptr.null then some Ptr.null
  else rightmostF st.heap fuel st.root

/-- The `while ((n = node->parent) && node == n->right_child) node = n;` loop
of `rbtree_next`, returning the final `n`. -/
def upRightF (h : Heap) : Nat → Ptr → Option Ptr
  | 0, _ => none
  | fuel+1, node =>
    let n := (pget h node).parent
    if n ≠ Ptr.null ∧ node = (pget h n).right_child then upRightF h fuel n
    else some n

/-- The `while ((n = node->parent) && node == n->left_child) node = n;` loop
of `rbtree_prev`, returning the final `n`. -/
def upLeftF (h : Heap) : Nat → Ptr → Option Ptr
  | 0, _ => none
  | fuel+1, node =>
    let n := (pget h node).parent
    if n ≠ Ptr.null ∧ node = (pget h n).left_child then upLeftF h fuel n
    else some n

/-- `rbtree_next`: in-order successor via child/parent links. -/
def rbtree_next (h : Heap) (node : Ptr) (fuel : Nat) : Option Ptr :=
  if node = Ptr.null then some Ptr.null
  else if (pget h node).right_child ≠ Ptr.null then
    leftmostF h fuel (pget h node).right_child
  else upRightF h fuel node

/-- `rbtree_prev`: in-order predecessor via child/parent links. -/
def rbtree_prev (h : Heap) (node : Ptr) (fuel : Nat) : Option Ptr :=
  if node = Ptr.null then some Ptr.null
  else if (pget h node).left_child ≠ Ptr.null then
    rightmostF h fuel (pget h node).left_child
  else upLeftF h fuel node

/-- `rbtree_size`. -/
def rbtree_size (st : St K A) : Nat := st.size

/-- `rbtree_empty`. -/
def rbtree_empty (st : St K A) : Bool := st.size = 0

/-- The descent loop of `rbtree_lookup_key`. -/
def lookup_go (st : St K A) (key : K) : Nat → Ptr → Option Ptr
  | 0, _ => none
  | fuel+1, n =>
    match n with
    | Ptr.null => some Ptr.null
    | Ptr.node i =>
      if st.compare key i < 0 then lookup_go st key fuel (pget st.heap n).left_child
      else if 0 < st.compare key i then lookup_go st key fuel (pget st.heap n).right_child
      else some n
    | _ => none

/-- `rbtree_lookup_key`. -/
def rbtree_lookup_key (st : St K A) (key : K) (fuel : Nat) : Option Ptr :=
  lookup_go st key fuel st.root

/-- `rbtree_contains_key`. -/
def rbtree_contains_key (st : St K A) (key : K) (fuel : Nat) : Option Bool :=
  (rbtree_lookup_key st key fuel).map (fun p => p ≠ Ptr.null)

/-- The `rbtree_for_each` scan of `rbtree_index_of` (cursor, counter); `none`
models both fuel exhaustion and running off the end into `assert(0)`. -/
def index_scan (h : Heap) (target : Ptr) (nf : Nat) : Nat → Nat → Ptr → Option Nat
  | 0, _, _ => none
  | fuel+1, i, cur =>
    if cur = Ptr.null then none
    else if cur = target then some i
    else (rbtree_next h cur nf).bind (fun nxt => index_scan h target nf fuel (i+1) nxt)

/-- `rbtree_index_of`: O(1) fast path when the node is the last one, otherwise
a linear in-order scan comparing node identity. -/
def rbtree_index_of (st : St K A) (node : Ptr) (fuel : Nat) : Option Nat :=
  (rbtree_last st fuel).bind (fun lst =>
    if lst = node then some (st.size - 1)
    else
      (rbtree_first st fuel).bind (fun fst =>
        index_scan st.heap node fuel fuel 0 fst))

/-- The forward scan of `rbtree_at`. -/
def at_scan_fwd (h : Heap) (index : Nat) (nf : Nat) : Nat → Nat → Ptr → Option Ptr
  | 0, _, _ => none
  | fuel+1, i, cur =>
    if cur = Ptr.null then none
    else if i = index then some cur
    else (rbtree_next h cur nf).bind (fun nxt => at_scan_fwd h index nf fuel (i+1) nxt)

/-- The reverse scan of `rbtree_at` (the `size_t` counter `--i` is modelled by
natural subtraction; the scan returns before any wrap on every in-contract
run). -/
def at_scan_rev (h : Heap) (index : Nat) (nf : Nat) : Nat → Nat → Ptr → Option Ptr
  | 0, _, _ => none
  | fuel+1, i, cur =>
    if cur = Ptr.null then none
    else if i = index then some cur
    else (rbtree_prev h cur nf).bind (fun nxt => at_scan_rev h index nf fuel (i-1) nxt)

/-- `rbtree_at`: forward or backward linear scan depending on which half of the
tree `index` lies in. -/
def rbtree_at (st : St K A) (index : Nat) (fuel : Nat) : Option Ptr :=
  if index < st.size / 2 then
    (rbtree_first st fuel).bind (fun fst => at_scan_fwd st.heap index fuel fuel 0 fst)
  else
    (rbtree_last st fuel).bind (fun lst => at_scan_rev st.heap index fuel fuel (st.size - 1) lst)

/-- The single `rbtree->collide(n, node, rbtree->auxiliary_data)` call site of
`rbtree_insert`: argument values and the heap at the moment of the call. -/
structure CollideEv (A : Type) where
  old_node : Ptr
  new_node : Ptr
  auxiliary_data : A
  heapAtCall : Heap

/-- Outcome of the descent loop of `rbtree_insert`: either the new node was
linked below leaf parent `n` (the `break` paths), or an Equal key was hit and
`replace` ran (the `return` path), with the collide event if the callback is
set. -/
inductive InsStep (K A : Type) where
  | linked (st : St K A) (n : Ptr)
  | collided (st : St K A) (ev : Option (CollideEv A))

/-- The descent loop of `rbtree_insert` (entered only when the root is
non-NULL). -/
def insert_go (key : K) (node : Ptr) : Nat → St K A → Ptr → Option (InsStep K A)
  | 0, _, _ => none
  | fuel+1, st, n =>
    match n with
    | Ptr.node i =>
      if st.compare key i < 0 then
        if (pget st.heap n).left_child ≠ Ptr.null then
          insert_go key node fuel st (pget st.heap n).left_child
        else
          some (InsStep.linked { st with heap := psetLeft st.heap n node } n)
      else if 0 < st.compare key i then
        if (pget st.heap n).right_child ≠ Ptr.null then
          insert_go key node fuel st (pget st.heap n).right_child
        else
          some (InsStep.linked { st with heap := psetRight st.heap n node } n)
      else
        let st1 := replace st n node
        some (InsStep.collided st1
          (if st1.collide then some ⟨n, node, st1.auxiliary_data, st1.heap⟩ else none))
    | _ => none

/-- `rbtree_insert`: returns the final state and the collide event (if the
collide callback was invoked). -/
def rbtree_insert (st : St K A) (key : K) (node : Ptr) (fuel : Nat) :
    Option (St K A × Option (CollideEv A)) :=
  if st.root = Ptr.null then
    let st := { st with heap := (pset st.heap node
        ⟨Ptr.null, Ptr.null, Ptr.null, RBTreeNodeColor.red⟩) }
    let st := { st with root := node }
    (rai_go fuel st node).map (fun st2 => ({ st2 with size := st2.size + 1 }, none))
  else
    match insert_go key node fuel st st.root with
    | none => none
    | some (InsStep.collided st1 ev) => some (st1, ev)
    | some (InsStep.linked st1 n) =>
      let st2 := { st1 with heap := (pset st1.heap node
          ⟨n, Ptr.null, Ptr.null, RBTreeNodeColor.red⟩) }
      (rai_go fuel st2 node).map (fun st3 => ({ st3 with size := st3.size + 1 }, none))

/-- `rbtree_remove`: NULL is a no-op; a two-child node is first swapped with
its in-order predecessor; a black splice runs `repair_after_remove` before the
final `transplant`; the removed node's links are poisoned and size drops. -/
def rbtree_remove (st : St K A) (node : Ptr) (fuel : Nat) : Option (St K A) :=
  if node = Ptr.null then some st
  else
    (if (pget st.heap node).left_child ≠ Ptr.null ∧
        (pget st.heap node).right_child ≠ Ptr.null then
      (rightmostF st.heap fuel (pget st.heap node).left_child).map
        (fun k => swap_places st node k)
    else some st).bind (fun st =>
      let n :=
        if (pget st.heap node).right_child ≠ Ptr.null then (pget st.heap node).right_child
        else (pget st.heap node).left_child
      (if color st.heap node = RBTreeNodeColor.black then
        let st := { st with heap := psetColor st.heap node (color st.heap n) }
        rar_go fuel st node
      else some st).bind (fun st =>
        let st := transplant st node n
        let st :=
          if (pget st.heap node).parent = Ptr.null ∧ n ≠ Ptr.null then
            { st with heap := psetColor st.heap n RBTreeNodeColor.black }
          else st
        let st := { st with heap := pset st.heap node (poisonLinks (pget st.heap node)) }
        some { st with size := st.size - 1 }))

/-- `rbtree_remove_key`. -/
def rbtree_remove_key (st : St K A) (key : K) (fuel : Nat) : Option (St K A) :=
  (rbtree_lookup_key st key fuel).bind (fun p => rbtree_remove st p fuel)

/-- `rbtree_remove_first`. -/
def rbtree_remove_first (st : St K A) (fuel : Nat) : Option (St K A) :=
  (rbtree_first st fuel).bind (fun p => rbtree_remove st p fuel)

/-- `rbtree_remove_last`. -/
def rbtree_remove_last (st : St K A) (fuel : Nat) : Option (St K A) :=
  (rbtree_last st fuel).bind (fun p => rbtree_remove st p fuel)

/-- `rbtree_remove_all`: O(1) reset, poisoning only the old root's links. -/
def rbtree_remove_all (st : St K A) : St K A :=
  let st :=
    if st.root ≠ Ptr.null then
      { st with heap := pset st.heap st.root (poisonLinks (pget st.heap st.root)) }
    else st
  { st with root := Ptr.null, size := 0 }

/-! ### Abstraction: the binary tree a heap region represents -/

/-- Inductive view of a red-black tree stored in the heap: node ids with
colors. -/
inductive CT where
  | nil
  | node (l : CT) (id : Nat) (c : RBTreeNodeColor) (r : CT)
deriving DecidableEq, Repr

/-- Pointer to the root of a subtree view. -/
def CT.rootPtr : CT → Ptr
  | CT.nil => Ptr.null
  | CT.node _ i _ _ => Ptr.node i

/-- In-order list of node ids. -/
def CT.ids : CT → List Nat
  | CT.nil => []
  | CT.node l i _ r => CT.ids l ++ i :: CT.ids r

/-- Number of nodes. -/
def CT.count : CT → Nat
  | CT.nil => 0
  | CT.node l _ _ r => CT.count l + CT.count r + 1

/-- `IsTree h pp t`: the heap `h` realizes the tree view `t`, whose root node
(if any) has parent pointer `pp`. -/
inductive IsTree (h : Heap) : Ptr → CT → Prop where
  | nil (pp : Ptr) : IsTree h pp CT.nil
  | node (pp : Ptr) (l : CT) (i : Nat) (c : RBTreeNodeColor) (r : CT)
      (hp : (hget h i).parent = pp)
      (hl : (hget h i).left_child = CT.rootPtr l)
      (hr : (hget h i).right_child = CT.rootPtr r)
      (hc : (hget h i).color = c)
      (tl : IsTree h (Ptr.node i) l)
      (tr : IsTree h (Ptr.node i) r) :
      IsTree h pp (CT.node l i c r)

/-- Executable check for `IsTree`. -/
def ctCheck (h : Heap) : Ptr → CT → Bool
  | _, CT.nil => true
  | pp, CT.node l i c r =>
    decide ((hget h i).parent = pp) && decide ((hget h i).left_child = CT.rootPtr l) &&
    decide ((hget h i).right_child = CT.rootPtr r) && decide ((hget h i).color = c) &&
    ctCheck h (Ptr.node i) l && ctCheck h (Ptr.node i) r

/-- Well-formed state: the heap realizes `t` at the root pointer, ids are
distinct, and the size field counts the nodes. -/
def WF (st : St K A) (t : CT) : Prop :=
  IsTree st.heap Ptr.null t ∧ st.root = CT.rootPtr t ∧
    (CT.ids t).Nodup ∧ st.size = (CT.ids t).length

/-- Executable check for `WF`. -/
def wfCheck (st : St K A) (t : CT) : Bool :=
  ctCheck st.heap Ptr.null t && decide (st.root = CT.rootPtr t) &&
    decide (CT.ids t).Nodup && decide (st.size = (CT.ids t).length)

/-- Color of the root of a view (NULL/empty counts as black, like `color`). -/
def CT.topColor : CT → RBTreeNodeColor
  | CT.nil => RBTreeNodeColor.black
  | CT.node _ _ c _ => c

/-- The root, if present, is black (red-black invariant 1). -/
def CT.rootBlack : CT → Bool
  | CT.nil => true
  | CT.node _ _ c _ => decide (c = RBTreeNodeColor.black)

/-- No red node has a red child — equivalently, no red node has a red parent
(red-black invariant 2). -/
def CT.redOk : CT → Bool
  | CT.nil => true
  | CT.node l _ c r =>
    CT.redOk l && CT.redOk r &&
      (decide (c = RBTreeNodeColor.black) ||
        (decide (CT.topColor l = RBTreeNodeColor.black) &&
         decide (CT.topColor r = RBTreeNodeColor.black)))

/-- Black height when every root-to-absent-child path has the same number of
black nodes, `none` otherwise (red-black invariant 3). -/
def CT.blackHeight : CT → Option Nat
  | CT.nil => some 1
  | CT.node l _ c r =>
    match CT.blackHeight l, CT.blackHeight r with
    | some m, some n =>
      if m = n then some (m + (if c = RBTreeNodeColor.black then 1 else 0)) else none
    | _, _ => none

/-- All red-black coloring invariants together. -/
def CT.rbOk (t : CT) : Bool :=
  CT.rootBlack t && CT.redOk t && (CT.blackHeight t).isSome

/-- Three-way integer comparison, the shape every `compare` callback of the
test-suite has (negative / zero / positive). -/
def cmpInt (a b : Int) : Int :=
  if a < b then -1 else if b < a then 1 else 0

/-- The `compare` callback of the state agrees, in sign, with comparing the
key argument against `keyOf id`. -/
def CmpKeyed (st : St K A) (key : K → Int) (keyOf : Nat → Int) : Prop :=
  ∀ k i, st.compare k i = cmpInt (key k) (keyOf i)

/-- BST ordering under a key assignment: in-order keys strictly increase. -/
def CT.ordered (keyOf : Nat → Int) (t : CT) : Bool :=
  decide (List.Chain' (fun a b => a < b) ((CT.ids t).map keyOf))

/-- `UpB h k p`: following `parent` fields from `p` reaches a non-node pointer
in at most `k` steps (the parent walk is finite). -/
def UpB (h : Heap) : Nat → Ptr → Prop
  | 0, p => ∀ x, p ≠ Ptr.node x
  | fuel+1, p => (∀ x, p ≠ Ptr.node x) ∨
      ∃ x, p = Ptr.node x ∧ UpB h fuel (hget h x).parent

/-! ### Derived definitions used by the theorems -/

/-- Extract the tree view rooted at a pointer (fuel-bounded). -/
def extractCT (h : Heap) : Nat → Ptr → CT
  | 0, _ => CT.nil
  | fuel+1, p =>
    match p with
    | Ptr.node i =>
      CT.node (extractCT h fuel (hget h i).left_child) i (hget h i).color
        (extractCT h fuel (hget h i).right_child)
    | _ => CT.nil

/-- Fold `rbtree_insert` over a list of (key, node id) pairs. -/
def insertKeys (st : St Int Unit) : List (Int × Nat) → Option (St Int Unit)
  | [] => some st
  | (k, v) :: rest => (rbtree_insert st k (Ptr.node v) 100).bind (fun p => insertKeys p.1 rest)

/-- Integer-keyed comparison callback where a node's key is its id. -/
def cmpById : Int → Nat → Int := fun k i => cmpInt k (Int.ofNat i)

/-- A freshly initialized tree over empty node memory with id-keyed
comparison. -/
def stEmpty : St Int Unit := rbtree_init [] cmpById false ()

/-- The exact tree of the ascending 1..7 insertion scenario: root 2 Black with
children 1 Black and 4 Red, 4's children 3 Black and 6 Black, 6's children
5 Red and 7 Red. -/
def c5tree : CT :=
  CT.node (CT.node CT.nil 1 RBTreeNodeColor.black CT.nil) 2 RBTreeNodeColor.black
    (CT.node (CT.node CT.nil 3 RBTreeNodeColor.black CT.nil) 4 RBTreeNodeColor.red
      (CT.node (CT.node CT.nil 5 RBTreeNodeColor.red CT.nil) 6 RBTreeNodeColor.black
        (CT.node CT.nil 7 RBTreeNodeColor.red CT.nil)))

/-- A concrete tree holding exactly one node (id 1, black root). -/
def stOne : St Int Unit :=
  { heap := [(1, ⟨Ptr.null, Ptr.null, Ptr.null, RBTreeNodeColor.black⟩)]
    compare := cmpById
    collide := false
    auxiliary_data := ()
    root := Ptr.node 1
    size := 1 }

/-- The view of `stOne`. -/
def ctOne : CT := CT.node CT.nil 1 RBTreeNodeColor.black CT.nil

/-- `stOne` with a collide callback installed (collide pointer non-NULL). -/
def stOneC : St Int Unit := { stOne with collide := true }

/-- Head of an id list as a pointer; `e` when the list is empty. -/
def headE (L : List Nat) (e : Ptr) : Ptr :=
  match L with
  | [] => e
  | a :: _ => Ptr.node a

/-- Last element of an id list as a pointer; `e` when the list is empty. -/
def lastE : List Nat → Ptr → Ptr
  | [], e => e
  | a :: L, _ => lastE L (Ptr.node a)

/-- Successor of `x` in an id list: the element after `x`, or the exit
pointer `e` when `x` is last (or absent). -/
def sAfter : List Nat → Nat → Ptr → Ptr
  | [], _, e => e
  | a :: L, x, e => if a = x then headE L e else sAfter L x e

/-- Predecessor of `x` in an id list: the element before `x`, or `e` when `x`
is first (or absent). -/
def sBefore : List Nat → Nat → Ptr → Ptr
  | [], _, e => e
  | a :: L, x, e => if a = x then e else sBefore L x (Ptr.node a)

/-- Forward in-order iteration: repeatedly `rbtree_next` from a node (fuel
`nf` per step), collecting visited ids until NULL. -/
def iterNextF (h : Heap) (nf : Nat) : Nat → Ptr → Option (List Nat)
  | 0, _ => none
  | fuel+1, p =>
    match p with
    | Ptr.null => some []
    | Ptr.node x =>
      (rbtree_next h (Ptr.node x) nf).bind (fun nxt =>
        (iterNextF h nf fuel nxt).map (fun L => x :: L))
    | _ => none

/-- Reverse in-order iteration via `rbtree_prev`. -/
def iterPrevF (h : Heap) (nf : Nat) : Nat → Ptr → Option (List Nat)
  | 0, _ => none
  | fuel+1, p =>
    match p with
    | Ptr.null => some []
    | Ptr.node x =>
      (rbtree_prev h (Ptr.node x) nf).bind (fun nxt =>
        (iterPrevF h nf fuel nxt).map (fun L => x :: L))
    | _ => none

/-- A concrete three-node tree: root 2 (black) with children 1 and 3 (red). -/
def stThree : St Int Unit :=
  { heap := [(2, ⟨Ptr.null, Ptr.node 1, Ptr.node 3, RBTreeNodeColor.black⟩),
             (1, ⟨Ptr.node 2, Ptr.null, Ptr.null, RBTreeNodeColor.red⟩),
             (3, ⟨Ptr.node 2, Ptr.null, Ptr.null, RBTreeNodeColor.red⟩)]
    compare := cmpById
    collide := false
    auxiliary_data := ()
    root := Ptr.node 2
    size := 3 }

/-- The view of `stThree`. -/
def ctThree : CT :=
  CT.node (CT.node CT.nil 1 RBTreeNodeColor.red CT.nil) 2 RBTreeNodeColor.black
    (CT.node CT.nil 3 RBTreeNodeColor.red CT.nil)

/-! ### Tree contexts (zippers) for the rebalancing loops -/

/-- Side on which a focus subtree hangs off its parent. -/
inductive Dir where
  | left
  | right
deriving DecidableEq, Repr

/-- One step of a tree context: the focus hangs on side `dir` of parent
`pid` (colored `pc`), whose other subtree is `sib`. -/
structure Frame where
  dir : Dir
  pid : Nat
  pc : RBTreeNodeColor
  sib : CT
deriving DecidableEq, Repr

/-- A context is a list of frames, innermost first. -/
abbrev Ctx := List Frame

/-- Rebuild one level around a focus subtree. -/
def plug1 (s : CT) : Frame → CT
  | ⟨Dir.left, pid, pc, sib⟩ => CT.node s pid pc sib
  | ⟨Dir.right, pid, pc, sib⟩ => CT.node sib pid pc s

/-- Rebuild the whole tree around a focus subtree. -/
def plug : Ctx → CT → CT
  | [], s => s
  | fr :: ctx, s => plug ctx (plug1 s fr)

/-- In-order ids of a context strictly left of the hole. -/
def ctxL : Ctx → List Nat
  | [] => []
  | ⟨Dir.left, _, _, _⟩ :: ctx => ctxL ctx
  | ⟨Dir.right, pid, _, sib⟩ :: ctx => ctxL ctx ++ (CT.ids sib ++ [pid])

/-- In-order ids of a context strictly right of the hole. -/
def ctxR : Ctx → List Nat
  | [] => []
  | ⟨Dir.left, pid, _, sib⟩ :: ctx => (pid :: CT.ids sib) ++ ctxR ctx
  | ⟨Dir.right, _, _, _⟩ :: ctx => ctxR ctx

/-- Recolor the root of a subtree. -/
def recolorRoot (c : RBTreeNodeColor) : CT → CT
  | CT.nil => CT.nil
  | CT.node l i _ r => CT.node l i c r

/-- `IsCtx h ctx sp pp`: heap `h` realizes context `ctx` around a hole whose
subtree root pointer is `sp`; `pp` is the hole's parent pointer. -/
inductive IsCtx (h : Heap) : Ctx → Ptr → Ptr → Prop where
  | nil (sp : Ptr) : IsCtx h [] sp Ptr.null
  | consL (ctx : Ctx) (pid : Nat) (pc : RBTreeNodeColor) (sib : CT) (sp pp' : Ptr)
      (hc : (hget h pid).color = pc)
      (hl : (hget h pid).left_child = sp)
      (hr : (hget h pid).right_child = CT.rootPtr sib)
      (hp : (hget h pid).parent = pp')
      (hsib : IsTree h (Ptr.node pid) sib)
      (hrest : IsCtx h ctx (Ptr.node pid) pp')
      : IsCtx h (⟨Dir.left, pid, pc, sib⟩ :: ctx) sp (Ptr.node pid)
  | consR (ctx : Ctx) (pid : Nat) (pc : RBTreeNodeColor) (sib : CT) (sp pp' : Ptr)
      (hc : (hget h pid).color = pc)
      (hl : (hget h pid).left_child = CT.rootPtr sib)
      (hr : (hget h pid).right_child = sp)
      (hp : (hget h pid).parent = pp')
      (hsib : IsTree h (Ptr.node pid) sib)
      (hrest : IsCtx h ctx (Ptr.node pid) pp')
      : IsCtx h (⟨Dir.right, pid, pc, sib⟩ :: ctx) sp (Ptr.node pid)

/-- Terminal rotation cases of the pure insert repair (uncle black): the four
side combinations of the focus and its parent. -/
def raiTerm (fr gfr : Frame) (ctx' : Ctx) (s : CT) : CT :=
  match fr.dir, gfr.dir with
  | Dir.left, Dir.left =>
    plug ctx' (CT.node s fr.pid RBTreeNodeColor.black
      (CT.node fr.sib gfr.pid RBTreeNodeColor.red gfr.sib))
  | Dir.right, Dir.right =>
    plug ctx' (CT.node (CT.node gfr.sib gfr.pid RBTreeNodeColor.red fr.sib)
      fr.pid RBTreeNodeColor.black s)
  | Dir.right, Dir.left =>
    match s with
    | CT.nil => plug (fr :: gfr :: ctx') s
    | CT.node sl x _ sr =>
      plug ctx' (CT.node (CT.node fr.sib fr.pid RBTreeNodeColor.red sl) x
        RBTreeNodeColor.black (CT.node sr gfr.pid RBTreeNodeColor.red gfr.sib))
  | Dir.left, Dir.right =>
    match s with
    | CT.nil => plug (fr :: gfr :: ctx') s
    | CT.node sl x _ sr =>
      plug ctx' (CT.node (CT.node gfr.sib gfr.pid RBTreeNodeColor.red sl) x
        RBTreeNodeColor.black (CT.node sr fr.pid RBTreeNodeColor.red fr.sib))

/-- The pure counterpart of the `repair_after_insert` loop: given the context
of the (red-rooted) focus subtree, produce the repaired whole tree.  The
cases exactly mirror the loop's pointer tests; the fall-through branches are
unreachable under the loop invariant. -/
def raiFix : Ctx → CT → CT
  | [], s => recolorRoot RBTreeNodeColor.black s
  | [fr], s => plug [fr] s
  | fr :: gfr :: ctx', s =>
    if fr.pc = RBTreeNodeColor.black then plug (fr :: gfr :: ctx') s
    else if CT.topColor gfr.sib = RBTreeNodeColor.red then
      raiFix ctx' (plug1 (plug1 s ⟨fr.dir, fr.pid, RBTreeNodeColor.black, fr.sib⟩)
        ⟨gfr.dir, gfr.pid, RBTreeNodeColor.red,
          recolorRoot RBTreeNodeColor.black gfr.sib⟩)
    else raiTerm fr gfr ctx' s

/-- Black-height contribution of a frame's parent node. -/
def Frame.bhInc (fr : Frame) : Nat :=
  if fr.pc = RBTreeNodeColor.black then 1 else 0

/-- Invariant of a context around a possibly-violating hole of black-height
`b`; `prev` is the top color of the part already plugged in below. -/
def ctxInv : RBTreeNodeColor → Ctx → Nat → Prop
  | _, [], _ => True
  | prev, fr :: ctx, b =>
      CT.blackHeight fr.sib = some b ∧ CT.redOk fr.sib = true ∧
      (fr.pc = RBTreeNodeColor.red → prev = RBTreeNodeColor.black ∧
        CT.topColor fr.sib = RBTreeNodeColor.black) ∧
      (ctx = [] → fr.pc = RBTreeNodeColor.black) ∧
      ctxInv fr.pc ctx (b + Frame.bhInc fr)

/-- All node ids mentioned by a context. -/
def ctxIds : Ctx → List Nat
  | [] => []
  | fr :: ctx => fr.pid :: CT.ids fr.sib ++ ctxIds ctx

/-! ### Basic lemmas -/

theorem hget_hset (h : Heap) (i : Nat) (v : RBTreeNode) (j : Nat) :
    hget (hset h i v) j = if j = i then v else hget h j := rfl

theorem hget_pset (h : Heap) (q : Ptr) (v : RBTreeNode) (j : Nat) :
    hget (pset h q v) j = if Ptr.node j = q then v else hget h j := by
  cases q <;> simp [pset, hset, hget]

theorem pget_node (h : Heap) (i : Nat) : pget h (Ptr.node i) = hget h i := rfl

theorem pset_null (h : Heap) (v : RBTreeNode) : pset h Ptr.null v = h := rfl

theorem isTree_of_ctCheck {h : Heap} {t : CT} :
    ∀ {pp : Ptr}, ctCheck h pp t = true → IsTree h pp t := by
  induction t with
  | nil => intro pp _; exact IsTree.nil pp
  | node l i c r ihl ihr =>
    intro pp hchk
    simp only [ctCheck, Bool.and_eq_true, decide_eq_true_eq] at hchk
    obtain ⟨⟨⟨⟨⟨h1, h2⟩, h3⟩, h4⟩, h5⟩, h6⟩ := hchk
    exact IsTree.node pp l i c r h1 h2 h3 h4 (ihl h5) (ihr h6)

theorem WF_of_wfCheck {K A : Type} {st : St K A} {t : CT} :
    wfCheck st t = true → WF st t := by
  intro hchk
  simp only [wfCheck, Bool.and_eq_true, decide_eq_true_eq] at hchk
  obtain ⟨⟨⟨h1, h2⟩, h3⟩, h4⟩ := hchk
  exact ⟨isTree_of_ctCheck h1, h2, h3, h4⟩

/-! ### Effect of the static `replace` (collision replacement) -/

theorem replace_effect_left {K A : Type} (st : St K A) (m v p : Nat)
    (hroot : st.root ≠ Ptr.node m)
    (hpar : (hget st.heap m).parent = Ptr.node p)
    (hslot : (hget st.heap p).left_child = Ptr.node m)
    (hpm : p ≠ m) (hpv : p ≠ v) (hvm : v ≠ m)
    (hLm : (hget st.heap m).left_child ≠ Ptr.node m)
    (hLp : (hget st.heap m).left_child ≠ Ptr.node p)
    (hLv : (hget st.heap m).left_child ≠ Ptr.node v)
    (hRm : (hget st.heap m).right_child ≠ Ptr.node m)
    (hRp : (hget st.heap m).right_child ≠ Ptr.node p)
    (hRv : (hget st.heap m).right_child ≠ Ptr.node v)
    (hLR : (hget st.heap m).left_child = Ptr.null ∨
      (hget st.heap m).left_child ≠ (hget st.heap m).right_child) :
    (replace st (Ptr.node m) (Ptr.node v)).root = st.root ∧
    (replace st (Ptr.node m) (Ptr.node v)).size = st.size ∧
    (replace st (Ptr.node m) (Ptr.node v)).compare = st.compare ∧
    (replace st (Ptr.node m) (Ptr.node v)).collide = st.collide ∧
    (replace st (Ptr.node m) (Ptr.node v)).auxiliary_data = st.auxiliary_data ∧
    (∀ j, hget (replace st (Ptr.node m) (Ptr.node v)).heap j =
      if j = m then poisonLinks (hget st.heap m)
      else if j = v then hget st.heap m
      else if j = p then { hget st.heap p with left_child := Ptr.node v }
      else if Ptr.node j = (hget st.heap m).left_child then
        { hget st.heap j with parent := Ptr.node v }
      else if Ptr.node j = (hget st.heap m).right_child then
        { hget st.heap j with parent := Ptr.node v }
      else hget st.heap j) := by
  have hmp : (Ptr.node m = Ptr.node p) = False := by simp [hpm, Ne.symm hpm]
  have hmv : (Ptr.node m = Ptr.node v) = False := by simp [Ne.symm hvm]
  have hst1 : replace st (Ptr.node m) (Ptr.node v) =
      { st with heap :=
          (pset (pset (pset (pset (pset st.heap (Ptr.node p)
              { hget st.heap p with left_child := Ptr.node v })
            (hget st.heap m).left_child
              { pget (pset st.heap (Ptr.node p)
                  { hget st.heap p with left_child := Ptr.node v })
                  (hget st.heap m).left_child with parent := Ptr.node v })
            (hget st.heap m).right_child
              { pget (pset (pset st.heap (Ptr.node p)
                    { hget st.heap p with left_child := Ptr.node v })
                  (hget st.heap m).left_child
                    { pget (pset st.heap (Ptr.node p)
                        { hget st.heap p with left_child := Ptr.node v })
                        (hget st.heap m).left_child with parent := Ptr.node v })
                  (hget st.heap m).right_child with parent := Ptr.node v })
            (Ptr.node v) (hget st.heap m))
            (Ptr.node m) (poisonLinks (hget st.heap m))) } := by
    unfold replace
    simp only [pget_node, hpar, hslot, psetLeft, psetParent]
    simp only [pget_node, hget_pset, hmp, hroot, if_false, ite_true, ite_false,
      eq_self_iff_true, if_true, ne_eq, not_false_iff]
    by_cases cL : (hget st.heap m).left_child = Ptr.null <;>
      by_cases cR : (hget st.heap m).right_child = Ptr.null <;>
      simp [cL, cR, hget_pset, hmp, hmv, pset_null, Ne.symm hLm, Ne.symm hLp,
        Ne.symm hLv, Ne.symm hRm, Ne.symm hRp, Ne.symm hRv]
  rw [hst1]
  refine ⟨rfl, rfl, rfl, rfl, rfl, ?_⟩
  intro j
  by_cases hjm : j = m
  · simp [hjm, hget_pset]
  · by_cases hjv : j = v
    · simp [hjv, hget_pset, hvm]
    · by_cases hjp : j = p
      · simp [hjp, hget_pset, hpm, hpv, Ne.symm hRp, Ne.symm hLp]
      · by_cases hjL : Ptr.node j = (hget st.heap m).left_child
        · have hjR : Ptr.node j ≠ (hget st.heap m).right_child := by
            rcases hLR with h0 | h0
            · rw [h0] at hjL; exact absurd hjL (by simp)
            · intro hh; exact h0 (hjL ▸ (hjL.symm.trans hh))
          simp [hget_pset, pget_node, hjm, hjv, hjp, hjR, ← hjL]
        · by_cases hjR : Ptr.node j = (hget st.heap m).right_child
          · simp [hget_pset, pget_node, hjm, hjv, hjp, hjL, ← hjR]
          · simp [hget_pset, pget_node, hjm, hjv, hjp, hjL, hjR]

theorem replace_effect_right {K A : Type} (st : St K A) (m v p : Nat)
    (hroot : st.root ≠ Ptr.node m)
    (hpar : (hget st.heap m).parent = Ptr.node p)
    (hslotL : (hget st.heap p).left_child ≠ Ptr.node m)
    (hslotR : (hget st.heap p).right_child = Ptr.node m)
    (hpm : p ≠ m) (hpv : p ≠ v) (hvm : v ≠ m)
    (hLm : (hget st.heap m).left_child ≠ Ptr.node m)
    (hLp : (hget st.heap m).left_child ≠ Ptr.node p)
    (hLv : (hget st.heap m).left_child ≠ Ptr.node v)
    (hRm : (hget st.heap m).right_child ≠ Ptr.node m)
    (hRp : (hget st.heap m).right_child ≠ Ptr.node p)
    (hRv : (hget st.heap m).right_child ≠ Ptr.node v)
    (hLR : (hget st.heap m).left_child = Ptr.null ∨
      (hget st.heap m).left_child ≠ (hget st.heap m).right_child) :
    (replace st (Ptr.node m) (Ptr.node v)).root = st.root ∧
    (replace st (Ptr.node m) (Ptr.node v)).size = st.size ∧
    (replace st (Ptr.node m) (Ptr.node v)).compare = st.compare ∧
    (replace st (Ptr.node m) (Ptr.node v)).collide = st.collide ∧
    (replace st (Ptr.node m) (Ptr.node v)).auxiliary_data = st.auxiliary_data ∧
    (∀ j, hget (replace st (Ptr.node m) (Ptr.node v)).heap j =
      if j = m then poisonLinks (hget st.heap m)
      else if j = v then hget st.heap m
      else if j = p then { hget st.heap p with right_child := Ptr.node v }
      else if Ptr.node j = (hget st.heap m).left_child then
        { hget st.heap j with parent := Ptr.node v }
      else if Ptr.node j = (hget st.heap m).right_child then
        { hget st.heap j with parent := Ptr.node v }
      else hget st.heap j) := by
  have hmp : (Ptr.node m = Ptr.node p) = False := by simp [hpm, Ne.symm hpm]
  have hmv : (Ptr.node m = Ptr.node v) = False := by simp [Ne.symm hvm]
  have hslotL2 : (Ptr.node m = (hget st.heap p).left_child) = False := by
    simp [Ne.symm hslotL]
  have hst1 : replace st (Ptr.node m) (Ptr.node v) =
      { st with heap :=
          (pset (pset (pset (pset (pset st.heap (Ptr.node p)
              { hget st.heap p with right_child := Ptr.node v })
            (hget st.heap m).left_child
              { pget (pset st.heap (Ptr.node p)
                  { hget st.heap p with right_child := Ptr.node v })
                  (hget st.heap m).left_child with parent := Ptr.node v })
            (hget st.heap m).right_child
              { pget (pset (pset st.heap (Ptr.node p)
                    { hget st.heap p with right_child := Ptr.node v })
                  (hget st.heap m).left_child
                    { pget (pset st.heap (Ptr.node p)
                        { hget st.heap p with right_child := Ptr.node v })
                        (hget st.heap m).left_child with parent := Ptr.node v })
                  (hget st.heap m).right_child with parent := Ptr.node v })
            (Ptr.node v) (hget st.heap m))
            (Ptr.node m) (poisonLinks (hget st.heap m))) } := by
    unfold replace
    simp only [pget_node, hpar, psetLeft, psetRight, psetParent]
    simp only [pget_node, hget_pset, hmp, hroot, hslotL2, if_false, ite_true, ite_false,
      eq_self_iff_true, if_true, ne_eq, not_false_iff]
    by_cases cL : (hget st.heap m).left_child = Ptr.null <;>
      by_cases cR : (hget st.heap m).right_child = Ptr.null <;>
      simp [cL, cR, hget_pset, hmp, hmv, pset_null, Ne.symm hLm, Ne.symm hLp,
        Ne.symm hLv, Ne.symm hRm, Ne.symm hRp, Ne.symm hRv]
  rw [hst1]
  refine ⟨rfl, rfl, rfl, rfl, rfl, ?_⟩
  intro j
  by_cases hjm : j = m
  · simp [hjm, hget_pset]
  · by_cases hjv : j = v
    · simp [hjv, hget_pset, hvm]
    · by_cases hjp : j = p
      · simp [hjp, hget_pset, hpm, hpv, Ne.symm hRp, Ne.symm hLp]
      · by_cases hjL : Ptr.node j = (hget st.heap m).left_child
        · have hjR : Ptr.node j ≠ (hget st.heap m).right_child := by
            rcases hLR with h0 | h0
            · rw [h0] at hjL; exact absurd hjL (by simp)
            · intro hh; exact h0 (hjL ▸ (hjL.symm.trans hh))
          simp [hget_pset, pget_node, hjm, hjv, hjp, hjR, ← hjL]
        · by_cases hjR : Ptr.node j = (hget st.heap m).right_child
          · simp [hget_pset, pget_node, hjm, hjv, hjp, hjL, ← hjR]
          · simp [hget_pset, pget_node, hjm, hjv, hjp, hjL, hjR]

theorem replace_effect_root {K A : Type} (st : St K A) (m v : Nat)
    (hroot : st.root = Ptr.node m)
    (hvm : v ≠ m)
    (hLm : (hget st.heap m).left_child ≠ Ptr.node m)
    (hLv : (hget st.heap m).left_child ≠ Ptr.node v)
    (hRm : (hget st.heap m).right_child ≠ Ptr.node m)
    (hRv : (hget st.heap m).right_child ≠ Ptr.node v)
    (hLR : (hget st.heap m).left_child = Ptr.null ∨
      (hget st.heap m).left_child ≠ (hget st.heap m).right_child) :
    (replace st (Ptr.node m) (Ptr.node v)).root = Ptr.node v ∧
    (replace st (Ptr.node m) (Ptr.node v)).size = st.size ∧
    (replace st (Ptr.node m) (Ptr.node v)).compare = st.compare ∧
    (replace st (Ptr.node m) (Ptr.node v)).collide = st.collide ∧
    (replace st (Ptr.node m) (Ptr.node v)).auxiliary_data = st.auxiliary_data ∧
    (∀ j, hget (replace st (Ptr.node m) (Ptr.node v)).heap j =
      if j = m then poisonLinks (hget st.heap m)
      else if j = v then hget st.heap m
      else if Ptr.node j = (hget st.heap m).left_child then
        { hget st.heap j with parent := Ptr.node v }
      else if Ptr.node j = (hget st.heap m).right_child then
        { hget st.heap j with parent := Ptr.node v }
      else hget st.heap j) := by
  have hmv : (Ptr.node m = Ptr.node v) = False := by simp [Ne.symm hvm]
  have hst1 : replace st (Ptr.node m) (Ptr.node v) =
      { st with
          root := Ptr.node v
          heap :=
          (pset (pset (pset (pset st.heap
            (hget st.heap m).left_child
              { pget st.heap (hget st.heap m).left_child with parent := Ptr.node v })
            (hget st.heap m).right_child
              { pget (pset st.heap
                  (hget st.heap m).left_child
                    { pget st.heap (hget st.heap m).left_child with parent := Ptr.node v })
                  (hget st.heap m).right_child with parent := Ptr.node v })
            (Ptr.node v) (hget st.heap m))
            (Ptr.node m) (poisonLinks (hget st.heap m))) } := by
    unfold replace
    simp only [pget_node, hroot, psetLeft, psetRight, psetParent]
    simp only [pget_node, hget_pset, if_false, ite_true, ite_false,
      eq_self_iff_true, if_true, ne_eq, not_false_iff]
    by_cases cL : (hget st.heap m).left_child = Ptr.null <;>
      by_cases cR : (hget st.heap m).right_child = Ptr.null <;>
      simp [cL, cR, hget_pset, hmv, pset_null, Ne.symm hLm,
        Ne.symm hLv, Ne.symm hRm, Ne.symm hRv]
  rw [hst1]
  refine ⟨rfl, rfl, rfl, rfl, rfl, ?_⟩
  intro j
  by_cases hjm : j = m
  · simp [hjm, hget_pset]
  · by_cases hjv : j = v
    · simp [hjv, hget_pset, hvm]
    · by_cases hjL : Ptr.node j = (hget st.heap m).left_child
      · have hjR : Ptr.node j ≠ (hget st.heap m).right_child := by
          rcases hLR with h0 | h0
          · rw [h0] at hjL; exact absurd hjL (by simp)
          · intro hh; exact h0 (hjL ▸ (hjL.symm.trans hh))
        simp [hget_pset, pget_node, hjm, hjv, hjR, ← hjL]
      · by_cases hjR : Ptr.node j = (hget st.heap m).right_child
        · simp [hget_pset, pget_node, hjm, hjv, hjL, ← hjR]
        · simp [hget_pset, pget_node, hjm, hjv, hjL, hjR]

/-! ### Ordered trees and the insert descent -/

theorem replace_proj {K A : Type} (st : St K A) (o n : Ptr) :
    (replace st o n).collide = st.collide ∧
    (replace st o n).auxiliary_data = st.auxiliary_data := by
  unfold replace
  constructor <;>
    simp [apply_ite St.collide, apply_ite St.auxiliary_data]

theorem ordered_iff_pairwise (keyOf : Nat → Int) (t : CT) :
    CT.ordered keyOf t = true ↔
      List.Pairwise (fun a b => a < b) ((CT.ids t).map keyOf) := by
  simp [CT.ordered, List.chain'_iff_pairwise]

theorem pairwise_node {keyOf : Nat → Int} {l : CT} {i : Nat} {c : RBTreeNodeColor} {r : CT}
    (h : List.Pairwise (fun a b => a < b) ((CT.ids (CT.node l i c r)).map keyOf)) :
    List.Pairwise (fun a b => a < b) ((CT.ids l).map keyOf) ∧
    List.Pairwise (fun a b => a < b) ((CT.ids r).map keyOf) ∧
    (∀ a ∈ CT.ids l, keyOf a < keyOf i) ∧
    (∀ b ∈ CT.ids r, keyOf i < keyOf b) := by
  simp only [CT.ids, List.map_append, List.map_cons, List.pairwise_append,
    List.pairwise_cons] at h
  obtain ⟨hl, ⟨hir, hr⟩, hcross⟩ := h
  refine ⟨hl, hr, ?_, ?_⟩
  · intro a ha
    exact hcross (keyOf a) (List.mem_map_of_mem keyOf ha) (keyOf i) (by simp)
  · intro b hb
    exact hir (keyOf b) (List.mem_map_of_mem keyOf hb)

theorem cmpInt_lt {a b : Int} (h : a < b) : cmpInt a b = -1 := by
  simp [cmpInt, h]

theorem cmpInt_eq (a : Int) : cmpInt a a = 0 := by
  simp [cmpInt, lt_irrefl]

theorem cmpInt_gt {a b : Int} (h : b < a) : cmpInt a b = 1 := by
  have : ¬ a < b := not_lt_of_gt h
  simp [cmpInt, this, h]

theorem insert_go_collides {K A : Type} {st : St K A} {keyf : K → Int} {keyOf : Nat → Int}
    (hcmp : CmpKeyed st keyf keyOf) {k : K} {v : Nat} {t : CT} :
    ∀ {pp : Ptr} {fuel : Nat} {m : Nat},
      IsTree st.heap pp t → m ∈ CT.ids t → keyOf m = keyf k →
      List.Pairwise (fun a b => a < b) ((CT.ids t).map keyOf) →
      CT.count t < fuel →
      insert_go k (Ptr.node v) fuel st (CT.rootPtr t) =
        some (InsStep.collided (replace st (Ptr.node m) (Ptr.node v))
          (if st.collide then
            some ⟨Ptr.node m, Ptr.node v, st.auxiliary_data,
              (replace st (Ptr.node m) (Ptr.node v)).heap⟩
           else none)) := by
  induction t with
  | nil => intro pp fuel m hT hm; exact absurd hm (by simp [CT.ids])
  | node l i c r ihl ihr =>
    intro pp fuel m hT hm hkey hord hfuel
    cases hT with
    | node _ _ _ _ _ hp hl hr hc tl tr =>
      obtain ⟨f, rfl⟩ : ∃ f, fuel = f + 1 :=
        ⟨fuel - 1, (Nat.succ_pred_eq_of_pos (Nat.lt_of_le_of_lt (Nat.zero_le _) hfuel)).symm⟩
      obtain ⟨hordl, hordr, hlt, hgt⟩ := pairwise_node hord
      have hcl : CT.count l < f := by simp only [CT.count] at hfuel; omega
      have hcr : CT.count r < f := by simp only [CT.count] at hfuel; omega
      rcases lt_trichotomy (keyf k) (keyOf i) with hki | hki | hki
      · -- descend left
        have hmi : m ≠ i := by
          intro hEq; rw [hEq] at hkey; rw [hkey] at hki; exact lt_irrefl _ hki
        have hml : m ∈ CT.ids l := by
          have : m ∈ CT.ids l ∨ m = i ∨ m ∈ CT.ids r := by
            simpa [CT.ids] using hm
          rcases this with h0 | h0 | h0
          · exact h0
          · exact absurd h0 hmi
          · exact absurd (hgt m h0) (by rw [hkey]; exact not_lt_of_gt hki)
        have hlnil : l ≠ CT.nil := by
          intro hEq; rw [hEq] at hml; exact absurd hml (by simp [CT.ids])
        have hlne : CT.rootPtr l ≠ Ptr.null := by
          cases l with
          | nil => exact absurd rfl hlnil
          | node _ _ _ _ => simp [CT.rootPtr]
        have hcmpi : st.compare k i < 0 := by
          rw [hcmp k i, cmpInt_lt hki]; decide
        have : insert_go k (Ptr.node v) (f + 1) st (Ptr.node i)
            = insert_go k (Ptr.node v) f st (pget st.heap (Ptr.node i)).left_child := by
          simp [insert_go, hcmpi, pget_node, hl, hlne]
        rw [show CT.rootPtr (CT.node l i c r) = Ptr.node i from rfl, this, pget_node, hl]
        exact ihl tl hml hkey hordl hcl
      · -- equal key: m must be the root of this subtree
        have hmi : m = i := by
          have : m ∈ CT.ids l ∨ m = i ∨ m ∈ CT.ids r := by
            simpa [CT.ids] using hm
          rcases this with h0 | h0 | h0
          · exact absurd (hlt m h0) (by rw [hkey, hki]; exact lt_irrefl _)
          · exact h0
          · exact absurd (hgt m h0) (by rw [hkey, hki]; exact lt_irrefl _)
        have hcmpi : st.compare k i = 0 := by
          rw [hcmp k i, ← hki, ← hkey, hmi, cmpInt_eq]
        subst hmi
        have hco := replace_proj st (Ptr.node m) (Ptr.node v)
        have : insert_go k (Ptr.node v) (f + 1) st (Ptr.node m)
            = some (InsStep.collided (replace st (Ptr.node m) (Ptr.node v))
                (if (replace st (Ptr.node m) (Ptr.node v)).collide then
                  some ⟨Ptr.node m, Ptr.node v,
                    (replace st (Ptr.node m) (Ptr.node v)).auxiliary_data,
                    (replace st (Ptr.node m) (Ptr.node v)).heap⟩
                 else none)) := by
          simp [insert_go, hcmpi]
        rw [show CT.rootPtr (CT.node l m c r) = Ptr.node m from rfl, this, hco.1, hco.2]
      · -- descend right
        have hmi : m ≠ i := by
          intro hEq; rw [hEq] at hkey; rw [hkey] at hki; exact lt_irrefl _ hki
        have hmr : m ∈ CT.ids r := by
          have : m ∈ CT.ids l ∨ m = i ∨ m ∈ CT.ids r := by
            simpa [CT.ids] using hm
          rcases this with h0 | h0 | h0
          · exact absurd (hlt m h0) (by rw [hkey]; exact not_lt_of_gt hki)
          · exact absurd h0 hmi
          · exact h0
        have hrnil : r ≠ CT.nil := by
          intro hEq; rw [hEq] at hmr; exact absurd hmr (by simp [CT.ids])
        have hrne : CT.rootPtr r ≠ Ptr.null := by
          cases r with
          | nil => exact absurd rfl hrnil
          | node _ _ _ _ => simp [CT.rootPtr]
        have hcmpi : 0 < st.compare k i := by
          rw [hcmp k i, cmpInt_gt hki]; decide
        have hcmpi2 : ¬ st.compare k i < 0 := by
          rw [hcmp k i, cmpInt_gt hki]; decide
        have : insert_go k (Ptr.node v) (f + 1) st (Ptr.node i)
            = insert_go k (Ptr.node v) f st (pget st.heap (Ptr.node i)).right_child := by
          simp [insert_go, hcmpi, hcmpi2, pget_node, hr, hrne]
        rw [show CT.rootPtr (CT.node l i c r) = Ptr.node i from rfl, this, pget_node, hr]
        exact ihr tr hmr hkey hordr hcr

/-! ### Locating a member node: children, parent and parent slot -/

theorem rootPtr_mem {t : CT} {x : Nat} (h : CT.rootPtr t = Ptr.node x) :
    x ∈ CT.ids t := by
  cases t with
  | nil => exact absurd h (by simp [CT.rootPtr])
  | node l i c r =>
    simp only [CT.rootPtr, Ptr.node.injEq] at h
    simp [CT.ids, h]

theorem nodup_node {l : CT} {i : Nat} {c : RBTreeNodeColor} {r : CT}
    (h : (CT.ids (CT.node l i c r)).Nodup) :
    (CT.ids l).Nodup ∧ (CT.ids r).Nodup ∧ i ∉ CT.ids l ∧ i ∉ CT.ids r ∧
      ∀ x ∈ CT.ids l, x ∉ CT.ids r := by
  simp only [CT.ids, List.nodup_append, List.nodup_cons, List.disjoint_cons_right] at h
  obtain ⟨hl, ⟨hir, hr⟩, hil, hdisj⟩ := h
  refine ⟨hl, hr, hil, hir, ?_⟩
  intro x hx hxr
  exact hdisj hx (by simp [hxr])

theorem mem_decomp {h : Heap} {t : CT} :
    ∀ {pp : Ptr}, IsTree h pp t → (CT.ids t).Nodup → ∀ m, m ∈ CT.ids t →
    ∃ sl mc sr,
      (hget h m).left_child = CT.rootPtr sl ∧
      (hget h m).right_child = CT.rootPtr sr ∧
      (hget h m).color = mc ∧
      (∀ x ∈ CT.ids sl, x ∈ CT.ids t) ∧ (∀ x ∈ CT.ids sr, x ∈ CT.ids t) ∧
      m ∉ CT.ids sl ∧ m ∉ CT.ids sr ∧
      (∀ x ∈ CT.ids sl, x ∉ CT.ids sr) ∧
      ((t = CT.node sl m mc sr ∧ (hget h m).parent = pp) ∨
       (CT.rootPtr t ≠ Ptr.node m ∧
        ∃ p, p ∈ CT.ids t ∧ p ≠ m ∧ p ∉ CT.ids sl ∧ p ∉ CT.ids sr ∧
          (hget h m).parent = Ptr.node p ∧
          ((hget h p).left_child = Ptr.node m ∨
           ((hget h p).left_child ≠ Ptr.node m ∧
            (hget h p).right_child = Ptr.node m)))) := by
  induction t with
  | nil => intro pp _ _ m hm; exact absurd hm (by simp [CT.ids])
  | node l i c r ihl ihr =>
    intro pp hT hnd m hm
    obtain ⟨hndl, hndr, hil, hir, hdisj⟩ := nodup_node hnd
    cases hT with
    | node _ _ _ _ _ hp hl hr hc tl tr =>
      have hmem : m ∈ CT.ids l ∨ m = i ∨ m ∈ CT.ids r := by simpa [CT.ids] using hm
      have hsubl : ∀ x ∈ CT.ids l, x ∈ CT.ids (CT.node l i c r) := by
        intro x hx; simp [CT.ids, hx]
      have hsubr : ∀ x ∈ CT.ids r, x ∈ CT.ids (CT.node l i c r) := by
        intro x hx; simp [CT.ids, hx]
      rcases hmem with hml | rfl | hmr
      · -- m is in the left subtree
        obtain ⟨sl, mc, sr, e1, e2, e3, s1, s2, n1, n2, dj, hloc⟩ := ihl tl hndl m hml
        refine ⟨sl, mc, sr, e1, e2, e3,
          fun x hx => hsubl _ (s1 x hx), fun x hx => hsubl _ (s2 x hx), n1, n2, dj, ?_⟩
        right
        have hrootne : CT.rootPtr (CT.node l i c r) ≠ Ptr.node m := by
          simp only [CT.rootPtr, ne_eq, Ptr.node.injEq]
          intro hEq; exact hil (hEq ▸ hml)
        rcases hloc with ⟨hLeq, hpar⟩ | ⟨_, p, hpmem, hpm, hps1, hps2, hpar, hslot⟩
        · -- m is the root of l, so its parent is i and it sits in i's left slot
          refine ⟨hrootne, i, by simp [CT.ids], ?_, ?_, ?_, hpar, Or.inl ?_⟩
          · intro hEq; exact hil (hEq ▸ hml)
          · intro hmem2; exact hil (s1 i hmem2)
          · intro hmem2; exact hil (s2 i hmem2)
          · rw [hl, hLeq]; rfl
        · exact ⟨hrootne, p, hsubl p hpmem, hpm, hps1, hps2, hpar, hslot⟩
      · -- m is the root
        refine ⟨l, c, r, hl, hr, hc, hsubl, hsubr, hil, hir, hdisj, Or.inl ⟨rfl, hp⟩⟩
      · -- m is in the right subtree
        obtain ⟨sl, mc, sr, e1, e2, e3, s1, s2, n1, n2, dj, hloc⟩ := ihr tr hndr m hmr
        refine ⟨sl, mc, sr, e1, e2, e3,
          fun x hx => hsubr _ (s1 x hx), fun x hx => hsubr _ (s2 x hx), n1, n2, dj, ?_⟩
        right
        have hrootne : CT.rootPtr (CT.node l i c r) ≠ Ptr.node m := by
          simp only [CT.rootPtr, ne_eq, Ptr.node.injEq]
          intro hEq; exact hir (hEq ▸ hmr)
        rcases hloc with ⟨hReq, hpar⟩ | ⟨_, p, hpmem, hpm, hps1, hps2, hpar, hslot⟩
        · -- m is the root of r, so its parent is i and it sits in i's right slot
          refine ⟨hrootne, i, by simp [CT.ids], ?_, ?_, ?_, hpar, Or.inr ⟨?_, ?_⟩⟩
          · intro hEq; exact hir (hEq ▸ hmr)
          · intro hmem2; exact hir (s1 i hmem2)
          · intro hmem2; exact hir (s2 i hmem2)
          · rw [hl]
            intro hEq
            exact hdisj m (rootPtr_mem hEq) hmr
          · rw [hr, hReq]; rfl
        · exact ⟨hrootne, p, hsubr p hpmem, hpm, hps1, hps2, hpar, hslot⟩

/-! ### Termination and field preservation of repair_after_insert -/

theorem UpB_mono {h : Heap} : ∀ {k k' : Nat} {p : Ptr}, UpB h k p → k ≤ k' → UpB h k' p := by
  intro k
  induction k with
  | zero =>
    intro k' p hU hle
    cases k' with
    | zero => exact hU
    | succ n => exact Or.inl hU
  | succ n ih =>
    intro k' p hU hle
    obtain ⟨k'', rfl⟩ : ∃ k'', k' = k'' + 1 :=
      ⟨k' - 1, (Nat.succ_pred_eq_of_pos (Nat.lt_of_lt_of_le (Nat.succ_pos n) hle)).symm⟩
    rcases hU with h0 | ⟨x, rfl, hx⟩
    · exact Or.inl h0
    · exact Or.inr ⟨x, rfl, ih hx (Nat.succ_le_succ_iff.mp hle)⟩

theorem parent_psetColor (h : Heap) (q : Ptr) (c : RBTreeNodeColor) (j : Nat) :
    (hget (psetColor h q c) j).parent = (hget h j).parent := by
  unfold psetColor
  rw [hget_pset]
  split
  · rename_i hq
    rw [← hq]; rfl
  · rfl

theorem UpB_psetColor {h : Heap} (q : Ptr) (c : RBTreeNodeColor) :
    ∀ {k : Nat} {p : Ptr}, UpB h k p → UpB (psetColor h q c) k p := by
  intro k
  induction k with
  | zero => intro p hU; exact hU
  | succ n ih =>
    intro p hU
    rcases hU with h0 | ⟨x, rfl, hx⟩
    · exact Or.inl h0
    · exact Or.inr ⟨x, rfl, by rw [parent_psetColor]; exact ih hx⟩

theorem transplant_size {K A : Type} (st : St K A) (o n : Ptr) :
    (transplant st o n).size = st.size := by
  unfold transplant; simp [apply_ite St.size]

theorem transplant_compare {K A : Type} (st : St K A) (o n : Ptr) :
    (transplant st o n).compare = st.compare := by
  unfold transplant; simp [apply_ite St.compare]

theorem transplant_collide {K A : Type} (st : St K A) (o n : Ptr) :
    (transplant st o n).collide = st.collide := by
  unfold transplant; simp [apply_ite St.collide]

theorem transplant_aux {K A : Type} (st : St K A) (o n : Ptr) :
    (transplant st o n).auxiliary_data = st.auxiliary_data := by
  unfold transplant; simp [apply_ite St.auxiliary_data]

theorem rotate_left_size {K A : Type} (st : St K A) (p : Ptr) :
    (rotate_left st p).size = st.size := by
  unfold rotate_left; simp [apply_ite St.size, transplant_size]

theorem rotate_left_compare {K A : Type} (st : St K A) (p : Ptr) :
    (rotate_left st p).compare = st.compare := by
  unfold rotate_left; simp [apply_ite St.compare, transplant_compare]

theorem rotate_left_collide {K A : Type} (st : St K A) (p : Ptr) :
    (rotate_left st p).collide = st.collide := by
  unfold rotate_left; simp [apply_ite St.collide, transplant_collide]

theorem rotate_left_aux {K A : Type} (st : St K A) (p : Ptr) :
    (rotate_left st p).auxiliary_data = st.auxiliary_data := by
  unfold rotate_left; simp [apply_ite St.auxiliary_data, transplant_aux]

theorem rotate_right_size {K A : Type} (st : St K A) (p : Ptr) :
    (rotate_right st p).size = st.size := by
  unfold rotate_right; simp [apply_ite St.size, transplant_size]

theorem rotate_right_compare {K A : Type} (st : St K A) (p : Ptr) :
    (rotate_right st p).compare = st.compare := by
  unfold rotate_right; simp [apply_ite St.compare, transplant_compare]

theorem rotate_right_collide {K A : Type} (st : St K A) (p : Ptr) :
    (rotate_right st p).collide = st.collide := by
  unfold rotate_right; simp [apply_ite St.collide, transplant_collide]

theorem rotate_right_aux {K A : Type} (st : St K A) (p : Ptr) :
    (rotate_right st p).auxiliary_data = st.auxiliary_data := by
  unfold rotate_right; simp [apply_ite St.auxiliary_data, transplant_aux]

theorem rai_go_fields {K A : Type} :
    ∀ {fuel : Nat} {st st' : St K A} {p : Ptr}, rai_go fuel st p = some st' →
      st'.size = st.size ∧ st'.compare = st.compare ∧
      st'.collide = st.collide ∧ st'.auxiliary_data = st.auxiliary_data := by
  intro fuel
  induction fuel with
  | zero => intro st st' p h; exact absurd h (by simp [rai_go])
  | succ n ih =>
    intro st st' p h
    rw [rai_go] at h
    split at h
    · injection h with h'
      subst h'
      exact ⟨rfl, rfl, rfl, rfl⟩
    · split at h
      · injection h with h'
        subst h'
        exact ⟨rfl, rfl, rfl, rfl⟩
      · split at h
        · simp only [pget_node] at h
          have hf := ih h
          exact ⟨hf.1, hf.2.1, hf.2.2.1, hf.2.2.2⟩
        · simp only [pget_node] at h
          injection h with h'
          subst h'
          refine ⟨?_, ?_, ?_, ?_⟩ <;>
            simp [apply_ite (Prod.fst : St K A × Ptr → St K A),
              apply_ite St.size, apply_ite St.compare, apply_ite St.collide,
              apply_ite St.auxiliary_data, rotate_left_size, rotate_left_compare,
              rotate_left_collide, rotate_left_aux, rotate_right_size,
              rotate_right_compare, rotate_right_collide, rotate_right_aux]

theorem rai_go_mono {K A : Type} : ∀ {f : Nat} {st st' : St K A} {p : Ptr} {f' : Nat},
    rai_go f st p = some st' → f ≤ f' → rai_go f' st p = some st' := by
  intro f
  induction f with
  | zero => intro st st' p f' h _; exact absurd h (by simp [rai_go])
  | succ n ih =>
    intro st st' p f' h hle
    obtain ⟨n', rfl⟩ : ∃ n'', f' = n'' + 1 :=
      ⟨f' - 1, (Nat.succ_pred_eq_of_pos (Nat.lt_of_lt_of_le (Nat.succ_pos n) hle)).symm⟩
    rw [rai_go] at h ⊢
    by_cases c1 : (pget st.heap p).parent = Ptr.null
    · rw [if_pos c1] at h ⊢; exact h
    · rw [if_neg c1] at h ⊢
      by_cases c2 : color st.heap (pget st.heap p).parent = RBTreeNodeColor.black
      · rw [if_pos c2] at h ⊢; exact h
      · rw [if_neg c2] at h ⊢
        by_cases c3 : color st.heap (uncle st.heap p) = RBTreeNodeColor.red
        · rw [if_pos c3] at h ⊢
          exact ih h (Nat.succ_le_succ_iff.mp hle)
        · rw [if_neg c3] at h ⊢; exact h

theorem pget_parent_of_not_node {h : Heap} {p : Ptr} (hp : ∀ x, p ≠ Ptr.node x) :
    (pget h p).parent = Ptr.null := by
  cases p with
  | node i => exact absurd rfl (hp i)
  | null => rfl
  | poisonParent => rfl
  | poisonLeftChild => rfl
  | poisonRightChild => rfl

theorem UpB_step {h : Heap} {k : Nat} {p : Ptr} {x : Nat}
    (hp : p = Ptr.node x) (hU : UpB h k (hget h x).parent) : UpB h (k + 1) p :=
  Or.inr ⟨x, hp, hU⟩

theorem UpB_zero_elim {h : Heap} {x : Nat} (hU : UpB h 0 (Ptr.node x)) : False :=
  absurd rfl (hU x)

theorem UpB_succ_elim {h : Heap} {k : Nat} {x : Nat}
    (hU : UpB h (k + 1) (Ptr.node x)) : UpB h k (hget h x).parent := by
  rcases hU with h0 | ⟨y, hy, hUy⟩
  · exact absurd rfl (h0 x)
  · have hyx : y = x := by injection hy with hh; exact hh.symm
    exact hyx ▸ hUy

theorem rai_go_some {K A : Type} : ∀ {k : Nat} {st : St K A} {p : Ptr},
    UpB st.heap k p → ∃ st', rai_go (k + 1) st p = some st' := by
  intro k
  induction k using Nat.strong_induction_on with
  | _ k ih =>
    intro st p hU
    by_cases hpn : ∃ x, p = Ptr.node x
    case neg =>
      have h0 : ∀ x, p ≠ Ptr.node x := by
        intro x hx; exact hpn ⟨x, hx⟩
      exact ⟨_, by rw [rai_go, if_pos (pget_parent_of_not_node h0)]⟩
    case pos =>
      obtain ⟨x, rfl⟩ := hpn
      by_cases c1 : (pget st.heap (Ptr.node x)).parent = Ptr.null
      · exact ⟨_, by rw [rai_go, if_pos c1]⟩
      · by_cases c2 : color st.heap (pget st.heap (Ptr.node x)).parent = RBTreeNodeColor.black
        · exact ⟨_, by rw [rai_go, if_neg c1, if_pos c2]⟩
        · by_cases c3 : color st.heap (uncle st.heap (Ptr.node x)) = RBTreeNodeColor.red
          · -- uncle red: recursion two levels up
            obtain ⟨q, hq⟩ : ∃ q, (hget st.heap x).parent = Ptr.node q := by
              rcases hpp : (hget st.heap x).parent with _ | q | _ | _ | _
              · exact absurd (by rw [pget_node, hpp]) c1
              · exact ⟨q, rfl⟩
              · exact absurd (by rw [pget_node, hpp]; rfl) c2
              · exact absurd (by rw [pget_node, hpp]; rfl) c2
              · exact absurd (by rw [pget_node, hpp]; rfl) c2
            obtain ⟨k1, rfl⟩ : ∃ k1, k = k1 + 1 := by
              cases k with
              | zero => exact absurd rfl (hU x)
              | succ k1 => exact ⟨k1, rfl⟩
            have hUq : UpB st.heap k1 (hget st.heap x).parent := UpB_succ_elim hU
            rw [hq] at hUq
            obtain ⟨k2, rfl⟩ : ∃ k2, k1 = k2 + 1 := by
              cases k1 with
              | zero => exact absurd (UpB_zero_elim hUq) not_false
              | succ k2 => exact ⟨k2, rfl⟩
            have hUgp : UpB st.heap k2 (hget st.heap q).parent := UpB_succ_elim hUq
            set stR : St K A :=
              { st with heap :=
                  (psetColor
                    (psetColor (psetColor st.heap (pget st.heap (Ptr.node x)).parent
                        RBTreeNodeColor.black)
                      (uncle (psetColor st.heap (pget st.heap (Ptr.node x)).parent
                          RBTreeNodeColor.black) (Ptr.node x)) RBTreeNodeColor.black)
                    (grandparent
                      (psetColor (psetColor st.heap (pget st.heap (Ptr.node x)).parent
                          RBTreeNodeColor.black)
                        (uncle (psetColor st.heap (pget st.heap (Ptr.node x)).parent
                            RBTreeNodeColor.black) (Ptr.node x)) RBTreeNodeColor.black)
                      (Ptr.node x)) RBTreeNodeColor.red) } with hstR
            have hheapR : stR.heap =
                psetColor
                  (psetColor (psetColor st.heap (pget st.heap (Ptr.node x)).parent
                      RBTreeNodeColor.black)
                    (uncle (psetColor st.heap (pget st.heap (Ptr.node x)).parent
                        RBTreeNodeColor.black) (Ptr.node x)) RBTreeNodeColor.black)
                  (grandparent
                    (psetColor (psetColor st.heap (pget st.heap (Ptr.node x)).parent
                        RBTreeNodeColor.black)
                      (uncle (psetColor st.heap (pget st.heap (Ptr.node x)).parent
                          RBTreeNodeColor.black) (Ptr.node x)) RBTreeNodeColor.black)
                    (Ptr.node x)) RBTreeNodeColor.red := by
              rw [hstR]
            have hparx : (hget stR.heap x).parent = Ptr.node q := by
              rw [hheapR, parent_psetColor, parent_psetColor, parent_psetColor]
              exact hq
            have hgp : grandparent stR.heap (Ptr.node x) = (hget st.heap q).parent := by
              unfold grandparent
              rw [pget_node, hparx, pget_node, hheapR,
                parent_psetColor, parent_psetColor, parent_psetColor]
            have hUR : UpB stR.heap k2 (hget st.heap q).parent := by
              rw [hheapR]
              exact UpB_psetColor _ _ (UpB_psetColor _ _ (UpB_psetColor _ _ hUgp))
            obtain ⟨s, hs⟩ := ih k2 (by omega) hUR
            refine ⟨s, ?_⟩
            rw [rai_go, if_neg c1, if_neg c2, if_pos c3]
            show rai_go (k2 + 1 + 1) stR (grandparent stR.heap (Ptr.node x)) = some s
            rw [hgp]
            exact rai_go_mono hs (by omega)
          · exact ⟨_, by rw [rai_go, if_neg c1, if_neg c2, if_neg c3]⟩

theorem UpB_of_parents {h h' : Heap} {t : CT} :
    ∀ {pp : Ptr} {k : Nat}, IsTree h pp t →
      (∀ j, j ∈ CT.ids t → (hget h' j).parent = (hget h j).parent) →
      UpB h' k pp → ∀ x ∈ CT.ids t, UpB h' (CT.count t + k) (Ptr.node x) := by
  induction t with
  | nil => intro pp k _ _ _ x hx; exact absurd hx (by simp [CT.ids])
  | node l i c r ihl ihr =>
    intro pp k hT hagree hU x hx
    have hcnt : 1 ≤ CT.count (CT.node l i c r) := by simp [CT.count]
    cases hT with
    | node _ _ _ _ _ hp hl hr hc tl tr =>
      have hmem : x ∈ CT.ids l ∨ x = i ∨ x ∈ CT.ids r := by simpa [CT.ids] using hx
      rcases hmem with hxl | rfl | hxr
      · have hUi : UpB h' (k + 1) (Ptr.node i) := by
          refine UpB_step rfl ?_
          rw [hagree i (by simp [CT.ids]), hp]
          exact hU
        have := ihl tl (fun j hj => hagree j (by simp [CT.ids, hj])) hUi x hxl
        exact UpB_mono this (by simp [CT.count]; omega)
      · obtain ⟨k', hk'⟩ : ∃ k', CT.count (CT.node l x c r) + k = k' + 1 :=
          ⟨CT.count (CT.node l x c r) + k - 1, by omega⟩
        rw [hk']
        refine UpB_step rfl ?_
        rw [hagree x (by simp [CT.ids]), hp]
        exact UpB_mono hU (by omega)
      · have hUi : UpB h' (k + 1) (Ptr.node i) := by
          refine UpB_step rfl ?_
          rw [hagree i (by simp [CT.ids]), hp]
          exact hU
        have := ihr tr (fun j hj => hagree j (by simp [CT.ids, hj])) hUi x hxr
        exact UpB_mono this (by simp [CT.count]; omega)

theorem insert_go_links {K A : Type} {st : St K A} {k : K} {v : Nat} {t : CT} :
    ∀ {pp : Ptr} {fuel : Nat}, IsTree st.heap pp t →
      (∀ i ∈ CT.ids t, st.compare k i ≠ 0) → CT.count t < fuel → t ≠ CT.nil →
      ∃ nid, nid ∈ CT.ids t ∧
        (insert_go k (Ptr.node v) fuel st (CT.rootPtr t) =
            some (InsStep.linked
              { st with heap := psetLeft st.heap (Ptr.node nid) (Ptr.node v) }
              (Ptr.node nid)) ∨
         insert_go k (Ptr.node v) fuel st (CT.rootPtr t) =
            some (InsStep.linked
              { st with heap := psetRight st.heap (Ptr.node nid) (Ptr.node v) }
              (Ptr.node nid))) := by
  induction t with
  | nil => intro pp fuel _ _ _ hne; exact absurd rfl hne
  | node l i c r ihl ihr =>
    intro pp fuel hT hne hfuel _
    cases hT with
    | node _ _ _ _ _ hp hl hr hc tl tr =>
      obtain ⟨f, rfl⟩ : ∃ f, fuel = f + 1 :=
        ⟨fuel - 1, (Nat.succ_pred_eq_of_pos (Nat.lt_of_le_of_lt (Nat.zero_le _) hfuel)).symm⟩
      have hi : st.compare k i ≠ 0 := hne i (by simp [CT.ids])
      have hneL : ∀ j ∈ CT.ids l, st.compare k j ≠ 0 := by
        intro j hj; exact hne j (by simp [CT.ids, hj])
      have hneR : ∀ j ∈ CT.ids r, st.compare k j ≠ 0 := by
        intro j hj; exact hne j (by simp [CT.ids, hj])
      have hcl : CT.count l < f := by simp only [CT.count] at hfuel; omega
      have hcr : CT.count r < f := by simp only [CT.count] at hfuel; omega
      rcases lt_trichotomy (st.compare k i) 0 with hlt | heq | hgt
      · cases l with
        | nil =>
          refine ⟨i, by simp [CT.ids], Or.inl ?_⟩
          have hlnull : (pget st.heap (Ptr.node i)).left_child = Ptr.null := by
            rw [pget_node, hl]; rfl
          simp [insert_go, hlt, hlnull, CT.rootPtr]
        | node ll li lc lr =>
          obtain ⟨nid, hmem, hres⟩ := ihl tl hneL hcl (fun hh => CT.noConfusion hh)
          refine ⟨nid, by simp [CT.ids] at hmem ⊢; tauto, ?_⟩
          have hlne : (pget st.heap (Ptr.node i)).left_child ≠ Ptr.null := by
            rw [pget_node, hl]; simp [CT.rootPtr]
          have hstep : insert_go k (Ptr.node v) (f + 1) st (CT.rootPtr (CT.node (CT.node ll li lc lr) i c r))
              = insert_go k (Ptr.node v) f st (CT.rootPtr (CT.node ll li lc lr)) := by
            show insert_go k (Ptr.node v) (f + 1) st (Ptr.node i) = _
            rw [show insert_go k (Ptr.node v) (f + 1) st (Ptr.node i)
                = if st.compare k i < 0 then
                    (if (pget st.heap (Ptr.node i)).left_child ≠ Ptr.null then
                      insert_go k (Ptr.node v) f st (pget st.heap (Ptr.node i)).left_child
                    else some (InsStep.linked
                      { st with heap := psetLeft st.heap (Ptr.node i) (Ptr.node v) }
                      (Ptr.node i)))
                  else if 0 < st.compare k i then
                    (if (pget st.heap (Ptr.node i)).right_child ≠ Ptr.null then
                      insert_go k (Ptr.node v) f st (pget st.heap (Ptr.node i)).right_child
                    else some (InsStep.linked
                      { st with heap := psetRight st.heap (Ptr.node i) (Ptr.node v) }
                      (Ptr.node i)))
                  else some (InsStep.collided (replace st (Ptr.node i) (Ptr.node v))
                    (if (replace st (Ptr.node i) (Ptr.node v)).collide then
                      some ⟨Ptr.node i, Ptr.node v,
                        (replace st (Ptr.node i) (Ptr.node v)).auxiliary_data,
                        (replace st (Ptr.node i) (Ptr.node v)).heap⟩
                     else none)) from rfl]
            rw [if_pos hlt, if_pos hlne, pget_node, hl]
          rw [hstep]
          exact hres
      · exact absurd heq hi
      · cases r with
        | nil =>
          refine ⟨i, by simp [CT.ids], Or.inr ?_⟩
          have hrnul : (pget st.heap (Ptr.node i)).right_child = Ptr.null := by
            rw [pget_node, hr]; rfl
          simp [insert_go, hgt, Int.not_lt.mpr (Int.le_of_lt hgt), hrnul, CT.rootPtr]
        | node rl ri rc rr =>
          obtain ⟨nid, hmem, hres⟩ := ihr tr hneR hcr (fun hh => CT.noConfusion hh)
          refine ⟨nid, by simp [CT.ids] at hmem ⊢; tauto, ?_⟩
          have hrne : (pget st.heap (Ptr.node i)).right_child ≠ Ptr.null := by
            rw [pget_node, hr]; simp [CT.rootPtr]
          have hstep : insert_go k (Ptr.node v) (f + 1) st (CT.rootPtr (CT.node l i c (CT.node rl ri rc rr)))
              = insert_go k (Ptr.node v) f st (CT.rootPtr (CT.node rl ri rc rr)) := by
            show insert_go k (Ptr.node v) (f + 1) st (Ptr.node i) = _
            simp only [insert_go, if_neg (by omega : ¬ st.compare k i < 0), if_pos hgt,
              if_pos hrne, pget_node, hr]
            simp [CT.rootPtr]
          rw [hstep]
          exact hres

/-! ### Full specification of a collision insert and of a fresh insert -/

theorem insert_collision_spec {K A : Type} (st : St K A) (t : CT) (keyf : K → Int)
    (keyOf : Nat → Int) (key : K) (m v : Nat) (fuel : Nat)
    (hwf : WF st t) (hcmp : CmpKeyed st keyf keyOf)
    (hordB : CT.ordered keyOf t = true)
    (hm : m ∈ CT.ids t) (hkey : keyOf m = keyf key)
    (hv : v ∉ CT.ids t) (hfuel : CT.count t < fuel) :
    ∃ st₁, rbtree_insert st key (Ptr.node v) fuel =
        some (st₁, if st.collide then
          some ⟨Ptr.node m, Ptr.node v, st.auxiliary_data, st₁.heap⟩ else none) ∧
      st₁.size = st.size ∧
      st₁.compare = st.compare ∧ st₁.collide = st.collide ∧
      st₁.auxiliary_data = st.auxiliary_data ∧
      hget st₁.heap v = hget st.heap m ∧
      hget st₁.heap m = poisonLinks (hget st.heap m) ∧
      (st.root = Ptr.node m → st₁.root = Ptr.node v) ∧
      (st.root ≠ Ptr.node m → st₁.root = st.root) ∧
      (∀ a, (hget st.heap m).left_child = Ptr.node a →
        hget st₁.heap a = { hget st.heap a with parent := Ptr.node v }) ∧
      (∀ b, (hget st.heap m).right_child = Ptr.node b →
        hget st₁.heap b = { hget st.heap b with parent := Ptr.node v }) ∧
      (∀ q, (hget st.heap m).parent = Ptr.node q →
        hget st₁.heap q =
          (if (hget st.heap q).left_child = Ptr.node m then
            { hget st.heap q with left_child := Ptr.node v }
           else { hget st.heap q with right_child := Ptr.node v })) ∧
      (∀ j, j ≠ m → j ≠ v → Ptr.node j ≠ (hget st.heap m).parent →
        Ptr.node j ≠ (hget st.heap m).left_child →
        Ptr.node j ≠ (hget st.heap m).right_child →
        hget st₁.heap j = hget st.heap j) := by
  obtain ⟨hT, hroot, hnd, hsize⟩ := hwf
  have hord := (ordered_iff_pairwise keyOf t).mp hordB
  have hvm : v ≠ m := fun hEq => hv (hEq ▸ hm)
  have hrootsome : ∃ ri, CT.rootPtr t = Ptr.node ri := by
    cases t with
    | nil => exact absurd hm (by simp [CT.ids])
    | node L i c R => exact ⟨i, rfl⟩
  obtain ⟨ri, hri⟩ := hrootsome
  have hrootne : st.root ≠ Ptr.null := by rw [hroot, hri]; simp
  have hdesc := insert_go_collides hcmp (v := v) hT hm hkey hord hfuel
  have hins : rbtree_insert st key (Ptr.node v) fuel =
      some (replace st (Ptr.node m) (Ptr.node v),
        if st.collide then
          some ⟨Ptr.node m, Ptr.node v, st.auxiliary_data,
            (replace st (Ptr.node m) (Ptr.node v)).heap⟩
        else none) := by
    unfold rbtree_insert
    rw [if_neg hrootne, hroot, hdesc]
  obtain ⟨sl, mc, sr, eL, eR, eC, s1, s2, n1, n2, dj, hloc⟩ := mem_decomp hT hnd m hm
  have hLm : (hget st.heap m).left_child ≠ Ptr.node m := by
    rw [eL]; intro hEq; exact n1 (rootPtr_mem hEq)
  have hLv : (hget st.heap m).left_child ≠ Ptr.node v := by
    rw [eL]; intro hEq; exact hv (s1 v (rootPtr_mem hEq))
  have hRm : (hget st.heap m).right_child ≠ Ptr.node m := by
    rw [eR]; intro hEq; exact n2 (rootPtr_mem hEq)
  have hRv : (hget st.heap m).right_child ≠ Ptr.node v := by
    rw [eR]; intro hEq; exact hv (s2 v (rootPtr_mem hEq))
  have hLR : (hget st.heap m).left_child = Ptr.null ∨
      (hget st.heap m).left_child ≠ (hget st.heap m).right_child := by
    cases sl with
    | nil => exact Or.inl (by rw [eL]; rfl)
    | node al ai ac ar =>
      refine Or.inr ?_
      rw [eL, eR]
      intro hEq
      have hai : ai ∈ CT.ids (CT.node al ai ac ar) := by simp [CT.ids]
      exact dj ai hai (rootPtr_mem hEq.symm)
  rcases hloc with ⟨hteq, hpar⟩ | ⟨hrne, p, hpmem, hpm, hps1, hps2, hpar, hslot⟩
  · -- m is the root of the tree
    have hrootm : st.root = Ptr.node m := by rw [hroot, hteq]; rfl
    obtain ⟨e1, e2, e3, e4, e5, hpt⟩ :=
      replace_effect_root st m v hrootm hvm hLm hLv hRm hRv hLR
    refine ⟨replace st (Ptr.node m) (Ptr.node v), hins, e2, e3, e4, e5, ?_, ?_, ?_, ?_, ?_, ?_, ?_, ?_⟩
    · rw [hpt v]; simp [hvm]
    · rw [hpt m]; simp
    · intro _; exact e1
    · intro hcon; exact absurd hrootm hcon
    · intro a ha
      have ham : a ≠ m := by intro hEq; exact hLm (hEq ▸ ha)
      have hav : a ≠ v := by intro hEq; exact hLv (hEq ▸ ha)
      rw [hpt a]; simp [ham, hav, ha]
    · intro b hb
      have hbm : b ≠ m := by intro hEq; exact hRm (hEq ▸ hb)
      have hbv : b ≠ v := by intro hEq; exact hRv (hEq ▸ hb)
      by_cases hbL : Ptr.node b = (hget st.heap m).left_child
      · rw [hpt b]; simp [hbm, hbv, hbL]
      · rw [hpt b]; simp [hbm, hbv, hbL, hb]
    · intro q hq
      rw [hpar] at hq
      -- the root has parent NULL, contradiction
      exact absurd hq (by simp)
    · intro j hjm hjv _ hjL hjR
      rw [hpt j]; simp [hjm, hjv, hjL, hjR]
  · -- m has a parent p
    have hrootm : st.root ≠ Ptr.node m := by rw [hroot]; exact hrne
    have hpv : p ≠ v := fun hEq => hv (hEq ▸ hpmem)
    have hLp : (hget st.heap m).left_child ≠ Ptr.node p := by
      rw [eL]; intro hEq; exact hps1 (rootPtr_mem hEq)
    have hRp : (hget st.heap m).right_child ≠ Ptr.node p := by
      rw [eR]; intro hEq; exact hps2 (rootPtr_mem hEq)
    have main : ∀ hpt : (∀ j, hget (replace st (Ptr.node m) (Ptr.node v)).heap j =
        if j = m then poisonLinks (hget st.heap m)
        else if j = v then hget st.heap m
        else if j = p then
          (if (hget st.heap p).left_child = Ptr.node m then
            { hget st.heap p with left_child := Ptr.node v }
           else { hget st.heap p with right_child := Ptr.node v })
        else if Ptr.node j = (hget st.heap m).left_child then
          { hget st.heap j with parent := Ptr.node v }
        else if Ptr.node j = (hget st.heap m).right_child then
          { hget st.heap j with parent := Ptr.node v }
        else hget st.heap j),
        (replace st (Ptr.node m) (Ptr.node v)).root = st.root →
        (replace st (Ptr.node m) (Ptr.node v)).size = st.size →
        (replace st (Ptr.node m) (Ptr.node v)).compare = st.compare →
        (replace st (Ptr.node m) (Ptr.node v)).collide = st.collide →
        (replace st (Ptr.node m) (Ptr.node v)).auxiliary_data = st.auxiliary_data →
        ∃ st₁, rbtree_insert st key (Ptr.node v) fuel =
          some (st₁, if st.collide then
            some ⟨Ptr.node m, Ptr.node v, st.auxiliary_data, st₁.heap⟩ else none) ∧
        st₁.size = st.size ∧
        st₁.compare = st.compare ∧ st₁.collide = st.collide ∧
        st₁.auxiliary_data = st.auxiliary_data ∧
        hget st₁.heap v = hget st.heap m ∧
        hget st₁.heap m = poisonLinks (hget st.heap m) ∧
        (st.root = Ptr.node m → st₁.root = Ptr.node v) ∧
        (st.root ≠ Ptr.node m → st₁.root = st.root) ∧
        (∀ a, (hget st.heap m).left_child = Ptr.node a →
          hget st₁.heap a = { hget st.heap a with parent := Ptr.node v }) ∧
        (∀ b, (hget st.heap m).right_child = Ptr.node b →
          hget st₁.heap b = { hget st.heap b with parent := Ptr.node v }) ∧
        (∀ q, (hget st.heap m).parent = Ptr.node q →
          hget st₁.heap q =
            (if (hget st.heap q).left_child = Ptr.node m then
              { hget st.heap q with left_child := Ptr.node v }
             else { hget st.heap q with right_child := Ptr.node v })) ∧
        (∀ j, j ≠ m → j ≠ v → Ptr.node j ≠ (hget st.heap m).parent →
          Ptr.node j ≠ (hget st.heap m).left_child →
          Ptr.node j ≠ (hget st.heap m).right_child →
          hget st₁.heap j = hget st.heap j) := by
      intro hpt e1 e2 e3 e4 e5
      refine ⟨replace st (Ptr.node m) (Ptr.node v), hins, e2, e3, e4, e5, ?_, ?_, ?_, ?_, ?_, ?_, ?_, ?_⟩
      · rw [hpt v]; simp [hvm, Ne.symm hpv]
      · rw [hpt m]; simp
      · intro hcon; exact absurd hcon hrootm
      · intro _; exact e1
      · intro a ha
        have ham : a ≠ m := by intro hEq; exact hLm (hEq ▸ ha)
        have hav : a ≠ v := by intro hEq; exact hLv (hEq ▸ ha)
        have hap : a ≠ p := by intro hEq; exact hLp (hEq ▸ ha)
        rw [hpt a]; simp [ham, hav, hap, ha]
      · intro b hb
        have hbm : b ≠ m := by intro hEq; exact hRm (hEq ▸ hb)
        have hbv : b ≠ v := by intro hEq; exact hRv (hEq ▸ hb)
        have hbp : b ≠ p := by intro hEq; exact hRp (hEq ▸ hb)
        by_cases hbL : Ptr.node b = (hget st.heap m).left_child
        · rw [hpt b]; simp [hbm, hbv, hbp, hbL]
        · rw [hpt b]; simp [hbm, hbv, hbp, hbL, hb]
      · intro q hq
        have hqp : q = p := by
          rw [hpar] at hq; injection hq with hh; exact hh.symm
        subst hqp
        rw [hpt q]; simp [hpm, hpv]
      · intro j hjm hjv hjp hjL hjR
        have hjp2 : j ≠ p := by
          intro hEq; rw [hpar] at hjp; exact hjp (by rw [hEq])
        rw [hpt j]; simp [hjm, hjv, hjp2, hjL, hjR]
    rcases hslot with hsl | ⟨hslL, hslR⟩
    · obtain ⟨e1, e2, e3, e4, e5, hpt⟩ :=
        replace_effect_left st m v p hrootm hpar hsl hpm hpv hvm hLm hLp hLv hRm hRp hRv hLR
      refine main (fun j => ?_) e1 e2 e3 e4 e5
      rw [hpt j]
      by_cases hjp : j = p
      · subst hjp; simp [hsl]
      · simp [hjp]
    · obtain ⟨e1, e2, e3, e4, e5, hpt⟩ :=
        replace_effect_right st m v p hrootm hpar hslL hslR hpm hpv hvm hLm hLp hLv hRm hRp hRv hLR
      refine main (fun j => ?_) e1 e2 e3 e4 e5
      rw [hpt j]
      by_cases hjp : j = p
      · subst hjp; simp [hslL]
      · simp [hjp]

theorem parent_psetLeft (h : Heap) (q r : Ptr) (j : Nat) :
    (hget (psetLeft h q r) j).parent = (hget h j).parent := by
  unfold psetLeft
  rw [hget_pset]
  split
  · rename_i hq; rw [← hq]; rfl
  · rfl

theorem parent_psetRight (h : Heap) (q r : Ptr) (j : Nat) :
    (hget (psetRight h q r) j).parent = (hget h j).parent := by
  unfold psetRight
  rw [hget_pset]
  split
  · rename_i hq; rw [← hq]; rfl
  · rfl

theorem insert_fresh_spec {K A : Type} (st : St K A) (t : CT) (key : K) (v : Nat)
    (fuel : Nat) (hwf : WF st t) (hne : ∀ i ∈ CT.ids t, st.compare key i ≠ 0)
    (hv : v ∉ CT.ids t) (hfuel : CT.count t + 2 ≤ fuel) :
    ∃ st₁, rbtree_insert st key (Ptr.node v) fuel = some (st₁, none) ∧
      st₁.size = st.size + 1 := by
  obtain ⟨hT, hroot, hnd, hsize⟩ := hwf
  cases t with
  | nil =>
    have hrootnull : st.root = Ptr.null := by rw [hroot]; rfl
    obtain ⟨f, rfl⟩ : ∃ f, fuel = f + 1 := ⟨fuel - 1, by omega⟩
    unfold rbtree_insert
    rw [if_pos hrootnull]
    simp [rai_go, pget_node, hget_pset]
  | node L i c R =>
    have hrootne : st.root ≠ Ptr.null := by rw [hroot]; simp [CT.rootPtr]
    have hcnt : CT.count (CT.node L i c R) < fuel := by omega
    obtain ⟨nid, hmem, hres⟩ :=
      insert_go_links (k := key) (v := v) hT hne hcnt (fun hh => CT.noConfusion hh)
    rcases hres with hcase | hcase
    · -- linked as a left child
      have hagree : ∀ j, j ∈ CT.ids (CT.node L i c R) →
          (hget (pset (psetLeft st.heap (Ptr.node nid) (Ptr.node v)) (Ptr.node v)
            ⟨Ptr.node nid, Ptr.null, Ptr.null, RBTreeNodeColor.red⟩) j).parent
            = (hget st.heap j).parent := by
        intro j hj
        have hjv : Ptr.node j ≠ Ptr.node v := by
          simp only [ne_eq, Ptr.node.injEq]
          intro hEq; exact hv (hEq ▸ hj)
        rw [hget_pset, if_neg hjv, parent_psetLeft]
      have hU0 : UpB (pset (psetLeft st.heap (Ptr.node nid) (Ptr.node v)) (Ptr.node v)
          ⟨Ptr.node nid, Ptr.null, Ptr.null, RBTreeNodeColor.red⟩) 0 Ptr.null :=
        fun x hx => Ptr.noConfusion hx
      have hUnid := UpB_of_parents hT hagree hU0 nid hmem
      have hUv : UpB (pset (psetLeft st.heap (Ptr.node nid) (Ptr.node v)) (Ptr.node v)
          ⟨Ptr.node nid, Ptr.null, Ptr.null, RBTreeNodeColor.red⟩)
          (CT.count (CT.node L i c R) + 0 + 1) (Ptr.node v) := by
        refine UpB_step rfl ?_
        rw [hget_pset, if_pos rfl]
        exact hUnid
      have hUv2 : UpB ({ st with heap :=
          (pset (psetLeft st.heap (Ptr.node nid) (Ptr.node v)) (Ptr.node v)
            ⟨Ptr.node nid, Ptr.null, Ptr.null, RBTreeNodeColor.red⟩) } : St K A).heap
          (CT.count (CT.node L i c R) + 0 + 1) (Ptr.node v) := hUv
      obtain ⟨st3, hst3⟩ := rai_go_some hUv2
      have hst4 : rai_go fuel
          { st with heap :=
              (pset (psetLeft st.heap (Ptr.node nid) (Ptr.node v)) (Ptr.node v)
                ⟨Ptr.node nid, Ptr.null, Ptr.null, RBTreeNodeColor.red⟩) }
          (Ptr.node v) = some st3 := rai_go_mono hst3 (by omega)
      refine ⟨{ st3 with size := st3.size + 1 }, ?_, ?_⟩
      · unfold rbtree_insert
        rw [if_neg hrootne, hroot, hcase]
        exact (by rw [hst4]; rfl :
          (rai_go fuel
            { st with heap :=
                (pset (psetLeft st.heap (Ptr.node nid) (Ptr.node v)) (Ptr.node v)
                  ⟨Ptr.node nid, Ptr.null, Ptr.null, RBTreeNodeColor.red⟩) }
            (Ptr.node v)).map
            (fun st2 => ({ st2 with size := st2.size + 1 }, (none : Option (CollideEv A))))
          = some ({ st3 with size := st3.size + 1 }, none))
      · have hf := rai_go_fields hst3
        simp only [hf.1]
    · -- linked as a right child
      have hagree : ∀ j, j ∈ CT.ids (CT.node L i c R) →
          (hget (pset (psetRight st.heap (Ptr.node nid) (Ptr.node v)) (Ptr.node v)
            ⟨Ptr.node nid, Ptr.null, Ptr.null, RBTreeNodeColor.red⟩) j).parent
            = (hget st.heap j).parent := by
        intro j hj
        have hjv : Ptr.node j ≠ Ptr.node v := by
          simp only [ne_eq, Ptr.node.injEq]
          intro hEq; exact hv (hEq ▸ hj)
        rw [hget_pset, if_neg hjv, parent_psetRight]
      have hU0 : UpB (pset (psetRight st.heap (Ptr.node nid) (Ptr.node v)) (Ptr.node v)
          ⟨Ptr.node nid, Ptr.null, Ptr.null, RBTreeNodeColor.red⟩) 0 Ptr.null :=
        fun x hx => Ptr.noConfusion hx
      have hUnid := UpB_of_parents hT hagree hU0 nid hmem
      have hUv : UpB (pset (psetRight st.heap (Ptr.node nid) (Ptr.node v)) (Ptr.node v)
          ⟨Ptr.node nid, Ptr.null, Ptr.null, RBTreeNodeColor.red⟩)
          (CT.count (CT.node L i c R) + 0 + 1) (Ptr.node v) := by
        refine UpB_step rfl ?_
        rw [hget_pset, if_pos rfl]
        exact hUnid
      have hUv2 : UpB ({ st with heap :=
          (pset (psetRight st.heap (Ptr.node nid) (Ptr.node v)) (Ptr.node v)
            ⟨Ptr.node nid, Ptr.null, Ptr.null, RBTreeNodeColor.red⟩) } : St K A).heap
          (CT.count (CT.node L i c R) + 0 + 1) (Ptr.node v) := hUv
      obtain ⟨st3, hst3⟩ := rai_go_some hUv2
      have hst4 : rai_go fuel
          { st with heap :=
              (pset (psetRight st.heap (Ptr.node nid) (Ptr.node v)) (Ptr.node v)
                ⟨Ptr.node nid, Ptr.null, Ptr.null, RBTreeNodeColor.red⟩) }
          (Ptr.node v) = some st3 := rai_go_mono hst3 (by omega)
      refine ⟨{ st3 with size := st3.size + 1 }, ?_, ?_⟩
      · unfold rbtree_insert
        rw [if_neg hrootne, hroot, hcase]
        exact (by rw [hst4]; rfl :
          (rai_go fuel
            { st with heap :=
                (pset (psetRight st.heap (Ptr.node nid) (Ptr.node v)) (Ptr.node v)
                  ⟨Ptr.node nid, Ptr.null, Ptr.null, RBTreeNodeColor.red⟩) }
            (Ptr.node v)).map
            (fun st2 => ({ st2 with size := st2.size + 1 }, (none : Option (CollideEv A))))
          = some ({ st3 with size := st3.size + 1 }, none))
      · have hf := rai_go_fields hst3
        simp only [hf.1]

/-! ### Claim C5: ascending insertion of 1..7 -/

/-- C5: inserting keys 1..7 in ascending order into an empty tree yields
exactly the tree with root 2 Black, 2's children 1 Black and 4 Red, 4's
children 3 Black and 6 Black, 6's children 5 Red and 7 Red, with size 7. -/
theorem C5_ascending_insert_shape :
    (insertKeys stEmpty [(1,1),(2,2),(3,3),(4,4),(5,5),(6,6),(7,7)]).map
      (fun st => (extractCT st.heap 8 st.root, st.size)) = some (c5tree, 7) := by
  decide

/-! ### Claim C4: first/last/next/prev on empty and single-node trees -/

/-- C4 fails as stated: on a single-node tree, `rbtree_prev` of the node is
NULL and `rbtree_next(NULL)` is NULL, so `rbtree_next(rbtree_prev(node))` is
empty and differs from `rbtree_first`, which returns the node itself. -/
theorem C4_counterexample :
    wfCheck stOne ctOne = true ∧
    rbtree_first stOne 2 = some (Ptr.node 1) ∧
    rbtree_last stOne 2 = some (Ptr.node 1) ∧
    (rbtree_prev stOne.heap (Ptr.node 1) 2).bind
      (fun p => rbtree_next stOne.heap p 2) = some Ptr.null ∧
    ¬ rbtree_first stOne 2 =
        (rbtree_prev stOne.heap (Ptr.node 1) 2).bind
          (fun p => rbtree_next stOne.heap p 2) := by
  decide

/-- C4 (amended): on an empty tree `rbtree_first`, `rbtree_last`,
`rbtree_next(NULL)` and `rbtree_prev(NULL)` all return empty; on a tree
containing exactly one node, `rbtree_first` and `rbtree_last` both return that
node, while `rbtree_next(rbtree_prev(that node))` is empty. -/
theorem C4_traversal_empty_and_single :
    (∀ (K A : Type) (st : St K A) (h : Heap) (fuel : Nat), st.root = Ptr.null →
      rbtree_first st fuel = some Ptr.null ∧ rbtree_last st fuel = some Ptr.null ∧
      rbtree_next h Ptr.null fuel = some Ptr.null ∧
      rbtree_prev h Ptr.null fuel = some Ptr.null) ∧
    (∀ (K A : Type) (st : St K A) (i : Nat) (c : RBTreeNodeColor) (fuel : Nat),
      WF st (CT.node CT.nil i c CT.nil) → 1 ≤ fuel →
      rbtree_first st fuel = some (Ptr.node i) ∧
      rbtree_last st fuel = some (Ptr.node i) ∧
      (rbtree_prev st.heap (Ptr.node i) fuel).bind
        (fun p => rbtree_next st.heap p fuel) = some Ptr.null) := by
  constructor
  · intro K A st h fuel hroot
    refine ⟨?_, ?_, rfl, rfl⟩ <;> simp [rbtree_first, rbtree_last, hroot]
  · intro K A st i c fuel hwf hfuel
    obtain ⟨htree, hroot, _, _⟩ := hwf
    cases htree with
    | node _ _ _ _ _ hp hl hr hc tl tr =>
      obtain ⟨f, rfl⟩ : ∃ f, fuel = f + 1 := ⟨fuel - 1, (Nat.succ_pred_eq_of_pos hfuel).symm⟩
      simp only [CT.rootPtr] at hroot
      have hfirst : rbtree_first st (f + 1) = some (Ptr.node i) := by
        simp [rbtree_first, hroot, leftmostF, pget, hl, CT.rootPtr]
      have hlast : rbtree_last st (f + 1) = some (Ptr.node i) := by
        simp [rbtree_last, hroot, rightmostF, pget, hr, CT.rootPtr]
      refine ⟨hfirst, hlast, ?_⟩
      have hprev : rbtree_prev st.heap (Ptr.node i) (f + 1) = some Ptr.null := by
        simp [rbtree_prev, pget, hl, CT.rootPtr, upLeftF, hp]
      rw [hprev]
      rfl

/-! ### Claim C7: remove_all resets in O(1), poisoning only the old root -/

/-- C7: on a non-empty tree, `rbtree_remove_all` empties root and size,
overwrites exactly the former root's three link fields with the poison
markers (keeping its color), leaves every other node's struct untouched, and
preserves the compare/collide/auxiliary_data fields. -/
theorem C7_remove_all_frame {K A : Type} (st : St K A) (r : Nat)
    (hr : st.root = Ptr.node r) :
    (rbtree_remove_all st).root = Ptr.null ∧
    (rbtree_remove_all st).size = 0 ∧
    hget (rbtree_remove_all st).heap r = poisonLinks (hget st.heap r) ∧
    (∀ j, j ≠ r → hget (rbtree_remove_all st).heap j = hget st.heap j) ∧
    (rbtree_remove_all st).compare = st.compare ∧
    (rbtree_remove_all st).collide = st.collide ∧
    (rbtree_remove_all st).auxiliary_data = st.auxiliary_data := by
  unfold rbtree_remove_all
  rw [hr]
  refine ⟨rfl, rfl, ?_, ?_, rfl, rfl, rfl⟩
  · simp [pset, pget, hset, hget]
  · intro j hj
    simp [pset, pget, hset, hget, hj]

/-- Witness for C7 at the concrete one-node tree. -/
theorem C7_remove_all_frame_witness :
    (rbtree_remove_all stOne).root = Ptr.null ∧
    hget (rbtree_remove_all stOne).heap 1 = poisonLinks (hget stOne.heap 1) ∧
    hget (rbtree_remove_all stOne).heap 2 = hget stOne.heap 2 := by
  have h := C7_remove_all_frame stOne 1 rfl
  exact ⟨h.1, h.2.2.1, h.2.2.2.1 2 (by decide)⟩

/-- Witness for the amended C4 at concrete empty and one-node trees. -/
theorem C4_traversal_empty_and_single_witness :
    rbtree_first stEmpty 3 = some Ptr.null ∧
    rbtree_first stOne 2 = some (Ptr.node 1) ∧
    rbtree_last stOne 2 = some (Ptr.node 1) ∧
    (rbtree_prev stOne.heap (Ptr.node 1) 2).bind
      (fun p => rbtree_next stOne.heap p 2) = some Ptr.null := by
  refine ⟨(C4_traversal_empty_and_single.1 Int Unit stEmpty [] 3 rfl).1, ?_⟩
  have h := C4_traversal_empty_and_single.2 Int Unit stOne 1 RBTreeNodeColor.black 2
    (WF_of_wfCheck (by decide)) (by decide)
  exact ⟨h.1, h.2.1, h.2.2⟩

/-! ### Claim C6: removing NULL or an absent key is a no-op -/

theorem lookup_go_none {K A : Type} {st : St K A} {key : K} {t : CT} :
    ∀ {pp : Ptr} {fuel : Nat}, IsTree st.heap pp t →
      (∀ i ∈ CT.ids t, st.compare key i ≠ 0) → CT.count t < fuel →
      lookup_go st key fuel (CT.rootPtr t) = some Ptr.null := by
  induction t with
  | nil =>
    intro pp fuel _ _ hfuel
    obtain ⟨f, rfl⟩ : ∃ f, fuel = f + 1 :=
      ⟨fuel - 1, (Nat.succ_pred_eq_of_pos hfuel).symm⟩
    rfl
  | node l i c r ihl ihr =>
    intro pp fuel htree hne hfuel
    cases htree with
    | node _ _ _ _ _ hp hl hr hc tl tr =>
      obtain ⟨f, rfl⟩ : ∃ f, fuel = f + 1 :=
        ⟨fuel - 1, (Nat.succ_pred_eq_of_pos (Nat.lt_of_le_of_lt (Nat.zero_le _) hfuel)).symm⟩
      have hi : st.compare key i ≠ 0 := hne i (by simp [CT.ids])
      have hneL : ∀ j ∈ CT.ids l, st.compare key j ≠ 0 := by
        intro j hj; exact hne j (by simp [CT.ids, hj])
      have hneR : ∀ j ∈ CT.ids r, st.compare key j ≠ 0 := by
        intro j hj; exact hne j (by simp [CT.ids, hj])
      have hcl : CT.count l < f := by
        simp only [CT.count] at hfuel; omega
      have hcr : CT.count r < f := by
        simp only [CT.count] at hfuel; omega
      show lookup_go st key (f + 1) (Ptr.node i) = some Ptr.null
      rcases lt_trichotomy (st.compare key i) 0 with hlt | heq | hgt
      · have : lookup_go st key (f + 1) (Ptr.node i)
            = lookup_go st key f (pget st.heap (Ptr.node i)).left_child := by
          simp [lookup_go, hlt]
        rw [this]
        have hlc : (pget st.heap (Ptr.node i)).left_child = CT.rootPtr l := hl
        rw [hlc]
        exact ihl tl hneL hcl
      · exact absurd heq hi
      · have : lookup_go st key (f + 1) (Ptr.node i)
            = lookup_go st key f (pget st.heap (Ptr.node i)).right_child := by
          simp [lookup_go, hgt, Int.not_lt.mpr (Int.le_of_lt hgt)]
        rw [this]
        have hrc : (pget st.heap (Ptr.node i)).right_child = CT.rootPtr r := hr
        rw [hrc]
        exact ihr tr hneR hcr

/-- C6: `rbtree_remove(tree, NULL)` leaves the state completely unchanged, and
`rbtree_remove_key` for a key that matches no node of the tree likewise leaves
the state unchanged; neither is an error. -/
theorem C6_remove_absent_noop :
    (∀ (K A : Type) (st : St K A) (fuel : Nat),
      rbtree_remove st Ptr.null fuel = some st) ∧
    (∀ (K A : Type) (st : St K A) (t : CT) (key : K) (fuel : Nat), WF st t →
      (∀ i ∈ CT.ids t, st.compare key i ≠ 0) → CT.count t < fuel →
      rbtree_remove_key st key fuel = some st) := by
  constructor
  · intro K A st fuel; rfl
  · intro K A st t key fuel hwf hne hfuel
    obtain ⟨htree, hroot, _, _⟩ := hwf
    have hlk : rbtree_lookup_key st key fuel = some Ptr.null := by
      unfold rbtree_lookup_key
      rw [hroot]
      exact lookup_go_none htree hne hfuel
    unfold rbtree_remove_key
    rw [hlk]
    rfl

/-- Witness for C6 at a concrete one-node tree and absent key 5. -/
theorem C6_remove_absent_noop_witness :
    rbtree_remove stOne Ptr.null 5 = some stOne ∧
    rbtree_remove_key stOne 5 2 = some stOne :=
  ⟨C6_remove_absent_noop.1 Int Unit stOne 5,
   C6_remove_absent_noop.2 Int Unit stOne ctOne 5 2
     (WF_of_wfCheck (by decide)) (by decide) (by decide)⟩

/-! ### Claim C2: collision replacement semantics, collide callback, size -/

/-- **C2.** Inserting a key that compares Equal to an existing node `m`
replaces `m` in place: the new node `v` inherits `m`'s parent link, children
and color, the children's parent back-references are retargeted to `v`, the
parent's (or root) slot now points to `v`, `m`'s links are overwritten with the
poison markers, every other node is untouched (no rebalancing), `size` is
unchanged, and the collide callback — when non-NULL — is invoked exactly once,
with the old node, the new node and the auxiliary data (`none` event when the
callback is NULL).  Inserting a key with no Equal match never invokes collide
and increments `size` by one. -/
theorem C2_insert_semantics {K A : Type} (st : St K A) (t : CT)
    (keyf : K → Int) (keyOf : Nat → Int) (key : K) (m v : Nat) (fuel : Nat)
    (hwf : WF st t) (hcmp : CmpKeyed st keyf keyOf)
    (hordB : CT.ordered keyOf t = true) (hv : v ∉ CT.ids t)
    (hfuel : CT.count t + 2 ≤ fuel) :
    (m ∈ CT.ids t → keyOf m = keyf key →
      ∃ st₁, rbtree_insert st key (Ptr.node v) fuel =
          some (st₁, if st.collide then
            some ⟨Ptr.node m, Ptr.node v, st.auxiliary_data, st₁.heap⟩ else none) ∧
        st₁.size = st.size ∧
        hget st₁.heap v = hget st.heap m ∧
        hget st₁.heap m = poisonLinks (hget st.heap m) ∧
        (st.root = Ptr.node m → st₁.root = Ptr.node v) ∧
        (st.root ≠ Ptr.node m → st₁.root = st.root) ∧
        (∀ a, (hget st.heap m).left_child = Ptr.node a →
          hget st₁.heap a = { hget st.heap a with parent := Ptr.node v }) ∧
        (∀ b, (hget st.heap m).right_child = Ptr.node b →
          hget st₁.heap b = { hget st.heap b with parent := Ptr.node v }) ∧
        (∀ q, (hget st.heap m).parent = Ptr.node q →
          hget st₁.heap q =
            (if (hget st.heap q).left_child = Ptr.node m then
              { hget st.heap q with left_child := Ptr.node v }
             else { hget st.heap q with right_child := Ptr.node v })) ∧
        (∀ j, j ≠ m → j ≠ v → Ptr.node j ≠ (hget st.heap m).parent →
          Ptr.node j ≠ (hget st.heap m).left_child →
          Ptr.node j ≠ (hget st.heap m).right_child →
          hget st₁.heap j = hget st.heap j)) ∧
    ((∀ i ∈ CT.ids t, st.compare key i ≠ 0) →
      ∃ st₁, rbtree_insert st key (Ptr.node v) fuel = some (st₁, none) ∧
        st₁.size = st.size + 1) := by
  constructor
  · intro hm hkey
    obtain ⟨st₁, h1, h2, _, _, _, h6, h7, h8, h9, h10, h11, h12, h13⟩ :=
      insert_collision_spec st t keyf keyOf key m v fuel hwf hcmp hordB hm hkey hv
        (by omega)
    exact ⟨st₁, h1, h2, h6, h7, h8, h9, h10, h11, h12, h13⟩
  · intro hne
    exact insert_fresh_spec st t key v fuel hwf hne hv hfuel

/-- Concrete run of the C2 statement: on the one-node tree `stOneC` (node 1,
collide callback set), inserting key 1 as node 2 replaces node 1 (event
reported, size 1 kept, node 1 poisoned), and inserting key 5 as node 3 reports
no event and sets size 2. -/
theorem C2_insert_semantics_witness :
    WF stOneC ctOne ∧ CmpKeyed stOneC id Int.ofNat ∧
    CT.ordered Int.ofNat ctOne = true ∧ 2 ∉ CT.ids ctOne ∧
    CT.count ctOne + 2 ≤ 10 ∧
    (∃ st₁, rbtree_insert stOneC (1 : Int) (Ptr.node 2) 10 =
        some (st₁, some ⟨Ptr.node 1, Ptr.node 2, stOneC.auxiliary_data, st₁.heap⟩) ∧
      st₁.size = stOneC.size ∧
      hget st₁.heap 2 = hget stOneC.heap 1 ∧
      hget st₁.heap 1 = poisonLinks (hget stOneC.heap 1)) ∧
    (∃ st₂, rbtree_insert stOneC (5 : Int) (Ptr.node 3) 10 = some (st₂, none) ∧
      st₂.size = stOneC.size + 1) := by
  have hwf : WF stOneC ctOne := WF_of_wfCheck (by decide)
  have hcmp : CmpKeyed stOneC id Int.ofNat := fun k i => rfl
  have hcol := (C2_insert_semantics stOneC ctOne id Int.ofNat 1 1 2 10 hwf hcmp
    (by simp [CT.ordered, ctOne, CT.ids]) (by decide) (by decide)).1 (by decide) rfl
  have hfr := (C2_insert_semantics stOneC ctOne id Int.ofNat 5 1 3 10 hwf hcmp
    (by simp [CT.ordered, ctOne, CT.ids]) (by decide) (by decide)).2
    (by intro i hi; simp [ctOne, CT.ids] at hi; subst hi; decide)
  obtain ⟨st₁, e1, e2, e3, e4, _⟩ := hcol
  refine ⟨hwf, hcmp, by simp [CT.ordered, ctOne, CT.ids], by decide, by decide,
    ⟨st₁, ?_, e2, e3, e4⟩, hfr⟩
  simpa using e1

/-! ### Claim C10: collide observes the poisoned old node -/

/-- **C10.** When an insert replaces an existing node `m` on an Equal key and
the collide callback is non-NULL, the callback is invoked with the old node,
the new node and the auxiliary data, and in the heap at the moment of the call
the old node's `parent`, `left_child` and `right_child` fields already hold the
three poison markers — collide never observes the old node still linked into
the tree. -/
theorem C10_collide_sees_poisoned_links {K A : Type} (st : St K A) (t : CT)
    (keyf : K → Int) (keyOf : Nat → Int) (key : K) (m v : Nat) (fuel : Nat)
    (hwf : WF st t) (hcmp : CmpKeyed st keyf keyOf)
    (hordB : CT.ordered keyOf t = true)
    (hm : m ∈ CT.ids t) (hkey : keyOf m = keyf key)
    (hv : v ∉ CT.ids t) (hfuel : CT.count t < fuel)
    (hcoll : st.collide = true) :
    ∃ st₁ ev, rbtree_insert st key (Ptr.node v) fuel = some (st₁, some ev) ∧
      ev.old_node = Ptr.node m ∧ ev.new_node = Ptr.node v ∧
      ev.auxiliary_data = st.auxiliary_data ∧
      (hget ev.heapAtCall m).parent = Ptr.poisonParent ∧
      (hget ev.heapAtCall m).left_child = Ptr.poisonLeftChild ∧
      (hget ev.heapAtCall m).right_child = Ptr.poisonRightChild := by
  obtain ⟨st₁, h1, _, _, _, _, _, hpois, _⟩ :=
    insert_collision_spec st t keyf keyOf key m v fuel hwf hcmp hordB hm hkey hv hfuel
  rw [hcoll, if_pos rfl] at h1
  refine ⟨st₁, ⟨Ptr.node m, Ptr.node v, st.auxiliary_data, st₁.heap⟩, h1,
    rfl, rfl, rfl, ?_, ?_, ?_⟩ <;> rw [hpois] <;> rfl

/-- Concrete run of the C10 statement: replacing node 1 by node 2 in the
one-node tree `stOneC` (collide callback set) yields an event whose recorded
heap shows node 1's three links poisoned. -/
theorem C10_collide_sees_poisoned_links_witness :
    WF stOneC ctOne ∧ CmpKeyed stOneC id Int.ofNat ∧
    CT.ordered Int.ofNat ctOne = true ∧ 1 ∈ CT.ids ctOne ∧
    Int.ofNat 1 = id (1 : Int) ∧ 2 ∉ CT.ids ctOne ∧ CT.count ctOne < 10 ∧
    stOneC.collide = true ∧
    (∃ st₁ ev, rbtree_insert stOneC (1 : Int) (Ptr.node 2) 10 = some (st₁, some ev) ∧
      ev.old_node = Ptr.node 1 ∧ ev.new_node = Ptr.node 2 ∧
      ev.auxiliary_data = stOneC.auxiliary_data ∧
      (hget ev.heapAtCall 1).parent = Ptr.poisonParent ∧
      (hget ev.heapAtCall 1).left_child = Ptr.poisonLeftChild ∧
      (hget ev.heapAtCall 1).right_child = Ptr.poisonRightChild) :=
  ⟨WF_of_wfCheck (by decide), fun k i => rfl, by simp [CT.ordered, ctOne, CT.ids],
   by decide, rfl, by decide, by decide, rfl,
   C10_collide_sees_poisoned_links stOneC ctOne id Int.ofNat 1 1 2 10
     (WF_of_wfCheck (by decide)) (fun k i => rfl)
     (by simp [CT.ordered, ctOne, CT.ids]) (by decide) rfl (by decide) (by decide) rfl⟩

/-! ### List lemmas for in-order successor/predecessor reasoning -/

theorem headE_append (A B : List Nat) (e : Ptr) :
    headE (A ++ B) e = headE A (headE B e) := by
  cases A <;> rfl

theorem headE_ne_nil {A : List Nat} (h : A ≠ []) (e e' : Ptr) :
    headE A e = headE A e' := by
  cases A with
  | nil => exact absurd rfl h
  | cons a A => rfl

theorem lastE_append (A B : List Nat) (e : Ptr) :
    lastE (A ++ B) e = lastE B (lastE A e) := by
  induction A generalizing e with
  | nil => rfl
  | cons a A ih => simp [lastE, ih]

theorem lastE_ne_nil {A : List Nat} (h : A ≠ []) (e e' : Ptr) :
    lastE A e = lastE A e' := by
  cases A with
  | nil => exact absurd rfl h
  | cons a A => rfl

theorem lastE_concat (A : List Nat) (y : Nat) (e : Ptr) :
    lastE (A ++ [y]) e = Ptr.node y := by
  rw [lastE_append]; rfl

theorem sAfter_append_left {A : List Nat} {x : Nat} (hx : x ∈ A) (L : List Nat) (e : Ptr) :
    sAfter (A ++ L) x e = sAfter A x (headE L e) := by
  induction A with
  | nil => exact absurd hx (List.not_mem_nil x)
  | cons a A ih =>
    by_cases hax : a = x
    · simp only [List.cons_append, sAfter, if_pos hax]
      exact headE_append A L e
    · have hx' : x ∈ A := by
        rcases List.mem_cons.mp hx with h | h
        · exact absurd h.symm hax
        · exact h
      simp only [List.cons_append, sAfter, if_neg hax]
      exact ih hx'

theorem sAfter_append_right {A : List Nat} {x : Nat} (hx : x ∉ A) (L : List Nat) (e : Ptr) :
    sAfter (A ++ L) x e = sAfter L x e := by
  induction A with
  | nil => rfl
  | cons a A ih =>
    have hax : a ≠ x := fun h => hx (h ▸ List.mem_cons_self a A)
    have hx' : x ∉ A := fun h => hx (List.mem_cons_of_mem a h)
    simp only [List.cons_append, sAfter, if_neg hax]
    exact ih hx'

theorem sBefore_append_left {A : List Nat} {x : Nat} (hx : x ∈ A) (L : List Nat) (e : Ptr) :
    sBefore (A ++ L) x e = sBefore A x e := by
  induction A generalizing e with
  | nil => exact absurd hx (List.not_mem_nil x)
  | cons a A ih =>
    by_cases hax : a = x
    · simp only [List.cons_append, sBefore, if_pos hax]
    · have hx' : x ∈ A := by
        rcases List.mem_cons.mp hx with h | h
        · exact absurd h.symm hax
        · exact h
      simp only [List.cons_append, sBefore, if_neg hax]
      exact ih hx' (Ptr.node a)

theorem sBefore_append_right {A : List Nat} {x : Nat} (hx : x ∉ A) (L : List Nat) (e : Ptr) :
    sBefore (A ++ L) x e = sBefore L x (lastE A e) := by
  induction A generalizing e with
  | nil => rfl
  | cons a A ih =>
    have hax : a ≠ x := fun h => hx (h ▸ List.mem_cons_self a A)
    have hx' : x ∉ A := fun h => hx (List.mem_cons_of_mem a h)
    simp only [List.cons_append, sBefore, if_neg hax, lastE]
    exact ih hx' (Ptr.node a)

theorem lastE_cases {y : Nat} : ∀ (A : List Nat) (e : Ptr), lastE A e = Ptr.node y →
    (A = [] ∧ e = Ptr.node y) ∨ ∃ A', A = A' ++ [y]
  | [], e, h => Or.inl ⟨rfl, h⟩
  | a :: A, e, h => by
    rcases lastE_cases A (Ptr.node a) h with ⟨h1, h2⟩ | ⟨A', h1⟩
    · have hay : a = y := by injection h2
      exact Or.inr ⟨[], by rw [h1, hay]; rfl⟩
    · exact Or.inr ⟨a :: A', by rw [h1]; rfl⟩

theorem mem_split_nodup {L : List Nat} {x : Nat} (hnd : L.Nodup) (hx : x ∈ L) :
    ∃ A R, L = A ++ x :: R ∧ x ∉ A ∧ x ∉ R := by
  obtain ⟨A, R, rfl⟩ := List.append_of_mem hx
  have hdis := List.disjoint_of_nodup_append hnd
  have hxA : x ∉ A := fun hmem => hdis hmem (List.mem_cons_self x R)
  have hxR : x ∉ R := by
    have := List.Nodup.of_append_right hnd
    exact (List.nodup_cons.mp this).1
  exact ⟨A, R, rfl, hxA, hxR⟩

theorem headE_drop {L : List Nat} {i : Nat} (hi : i < L.length) (e : Ptr) :
    ∃ z, headE (L.drop i) e = Ptr.node z ∧ L.get ⟨i, hi⟩ = z := by
  have hd : L.drop i = L.get ⟨i, hi⟩ :: L.drop (i + 1) := List.drop_eq_getElem_cons hi
  exact ⟨L.get ⟨i, hi⟩, by rw [hd]; rfl, rfl⟩

theorem ids_length (t : CT) : (CT.ids t).length = CT.count t := by
  induction t with
  | nil => rfl
  | node l i c r ihl ihr => simp [CT.ids, CT.count, ihl, ihr]; omega

theorem ids_ne_nil (l : CT) (i : Nat) (c : RBTreeNodeColor) (r : CT) :
    CT.ids (CT.node l i c r) ≠ [] := by
  simp [CT.ids]

/-! ### Leftmost / rightmost descent reaches the first / last in-order node -/

theorem leftmostF_head {h : Heap} (s : CT) : ∀ (p : Ptr), IsTree h p s → s ≠ CT.nil →
    ∀ f, CT.count s + 1 ≤ f →
      leftmostF h f (CT.rootPtr s) = some (headE (CT.ids s) Ptr.null) := by
  induction s with
  | nil => intro p _ hne; exact absurd rfl hne
  | node l i c r ihl ihr =>
    intro p hT _ f hf
    cases hT with
    | node _ _ _ _ _ hp hl hr hc tl tr =>
    obtain ⟨g, rfl⟩ : ∃ g, f = g + 1 := ⟨f - 1, by omega⟩
    show leftmostF h (g+1) (Ptr.node i) = _
    simp only [leftmostF, pget_node, hl]
    cases l with
    | nil =>
      rw [if_pos (show CT.rootPtr CT.nil = Ptr.null from rfl)]
      simp [CT.ids, headE]
    | node ll la lc lr =>
      rw [if_neg (by simp [CT.rootPtr])]
      have hstep := ihl (Ptr.node i) tl (fun hh => CT.noConfusion hh) g
        (by simp [CT.count] at hf ⊢; omega)
      rw [hstep]
      rw [show CT.ids (CT.node (CT.node ll la lc lr) i c r)
            = CT.ids (CT.node ll la lc lr) ++ (i :: CT.ids r) from rfl,
          headE_append]
      rw [headE_ne_nil (ids_ne_nil ll la lc lr)]

theorem rightmostF_last {h : Heap} (s : CT) : ∀ (p : Ptr), IsTree h p s → s ≠ CT.nil →
    ∀ f, CT.count s + 1 ≤ f →
      rightmostF h f (CT.rootPtr s) = some (lastE (CT.ids s) Ptr.null) := by
  induction s with
  | nil => intro p _ hne; exact absurd rfl hne
  | node l i c r ihl ihr =>
    intro p hT _ f hf
    cases hT with
    | node _ _ _ _ _ hp hl hr hc tl tr =>
    obtain ⟨g, rfl⟩ : ∃ g, f = g + 1 := ⟨f - 1, by omega⟩
    show rightmostF h (g+1) (Ptr.node i) = _
    simp only [rightmostF, pget_node, hr]
    cases r with
    | nil =>
      rw [if_pos (show CT.rootPtr CT.nil = Ptr.null from rfl)]
      rw [show CT.ids (CT.node l i c CT.nil) = CT.ids l ++ [i] from by simp [CT.ids],
          lastE_concat]
    | node rl ra rc rr =>
      rw [if_neg (by simp [CT.rootPtr])]
      have hstep := ihr (Ptr.node i) tr (fun hh => CT.noConfusion hh) g
        (by simp [CT.count] at hf ⊢; omega)
      rw [hstep]
      rw [show CT.ids (CT.node l i c (CT.node rl ra rc rr))
            = (CT.ids l ++ [i]) ++ CT.ids (CT.node rl ra rc rr) from by simp [CT.ids],
          lastE_append]
      rw [lastE_ne_nil (ids_ne_nil rl ra rc rr)]

/-! ### The successor walk of `rbtree_next` computes the in-order successor -/

theorem next_go {h : Heap} (s : CT) : ∀ (p e : Ptr) (B : Nat),
    IsTree h p s → (CT.ids s).Nodup → 1 ≤ B →
    (∀ f, B ≤ f → upRightF h f (CT.rootPtr s) = some e) →
    ∀ x, x ∈ CT.ids s → ∀ f, CT.count s + B ≤ f →
      rbtree_next h (Ptr.node x) f = some (sAfter (CT.ids s) x e) := by
  induction s with
  | nil => intro p e B _ _ _ _ x hx; simp [CT.ids] at hx
  | node l i c r ihl ihr =>
    intro p e B hT hnd hB hexit x hx f hf
    cases hT with
    | node _ _ _ _ _ hp hl hr hc tl tr =>
    have hnd' : (CT.ids l ++ (i :: CT.ids r)).Nodup := hnd
    have hndl : (CT.ids l).Nodup := hnd'.of_append_left
    have hndir : (i :: CT.ids r).Nodup := hnd'.of_append_right
    have hndr : (CT.ids r).Nodup := (List.nodup_cons.mp hndir).2
    have hir : i ∉ CT.ids r := (List.nodup_cons.mp hndir).1
    have hdisj := List.disjoint_of_nodup_append hnd'
    have hil : i ∉ CT.ids l := fun hmem => hdisj hmem (List.mem_cons_self i _)
    have hx' : x ∈ CT.ids l ∨ x = i ∨ x ∈ CT.ids r := by
      simpa [CT.ids] using hx
    rcases hx' with hxl | hxi | hxr
    · -- x lies in the left subtree; its walk exits at i
      have hlne : l ≠ CT.nil := by rintro rfl; simp [CT.ids] at hxl
      have hexitl : ∀ f, 1 ≤ f → upRightF h f (CT.rootPtr l) = some (Ptr.node i) := by
        intro f hf1
        obtain ⟨g, rfl⟩ : ∃ g, f = g + 1 := ⟨f - 1, by omega⟩
        cases l with
        | nil => exact absurd rfl hlne
        | node ll la lc lr =>
          cases tl with
          | node _ _ _ _ _ hp2 hl2 hr2 hc2 tll tlr =>
          show upRightF h (g+1) (Ptr.node la) = _
          simp only [upRightF, pget_node, hp2]
          rw [if_neg ?_]
          rintro ⟨-, h2⟩
          rw [hr] at h2
          cases r with
          | nil => exact Ptr.noConfusion h2
          | node rl rb rc rr =>
            have hla : la = rb := by simpa [CT.rootPtr] using h2
            have hmeml : la ∈ CT.ids (CT.node ll la lc lr) := by simp [CT.ids]
            have hmemr : la ∈ i :: CT.ids (CT.node rl rb rc rr) := by
              simp [CT.ids, hla]
            exact hdisj hmeml hmemr
      have happly := ihl (Ptr.node i) (Ptr.node i) 1 tl hndl le_rfl hexitl x hxl f
        (by simp [CT.count] at hf ⊢; omega)
      rw [happly]
      rw [show CT.ids (CT.node l i c r) = CT.ids l ++ (i :: CT.ids r) from rfl,
          sAfter_append_left hxl]
      rfl
    · -- x is the subtree root
      subst hxi
      unfold rbtree_next
      rw [if_neg (by simp), pget_node, hr]
      cases r with
      | nil =>
        rw [if_neg (by simp [CT.rootPtr])]
        have hu := hexit f (by omega)
        rw [show CT.rootPtr (CT.node l x c CT.nil) = Ptr.node x from rfl] at hu
        rw [hu]
        rw [show CT.ids (CT.node l x c CT.nil) = CT.ids l ++ (x :: []) from rfl,
            sAfter_append_right hil]
        simp [sAfter, headE]
      | node rl rb rc rr =>
        rw [if_pos (by simp [CT.rootPtr])]
        have hlf := leftmostF_head (CT.node rl rb rc rr) (Ptr.node x) tr
          (fun hh => CT.noConfusion hh) f (by simp [CT.count] at hf ⊢; omega)
        rw [hlf]
        rw [show CT.ids (CT.node l x c (CT.node rl rb rc rr))
              = CT.ids l ++ (x :: CT.ids (CT.node rl rb rc rr)) from rfl,
            sAfter_append_right hil]
        rw [show sAfter (x :: CT.ids (CT.node rl rb rc rr)) x e
              = headE (CT.ids (CT.node rl rb rc rr)) e from by simp [sAfter]]
        rw [headE_ne_nil (ids_ne_nil rl rb rc rr)]
    · -- x lies in the right subtree; its walk continues above this subtree
      have hrne : r ≠ CT.nil := by rintro rfl; simp [CT.ids] at hxr
      have hexitr : ∀ f, B + 1 ≤ f → upRightF h f (CT.rootPtr r) = some e := by
        intro f hf1
        obtain ⟨g, rfl⟩ : ∃ g, f = g + 1 := ⟨f - 1, by omega⟩
        cases r with
        | nil => exact absurd rfl hrne
        | node rl rb rc rr =>
          cases tr with
          | node _ _ _ _ _ hp2 hl2 hr2 hc2 trl trr =>
          show upRightF h (g+1) (Ptr.node rb) = _
          simp only [upRightF, pget_node, hp2]
          rw [if_pos ⟨by simp, by rw [hr]; rfl⟩]
          exact hexit g (by omega)
      have hxnl : x ∉ CT.ids l := fun hmem => hdisj hmem (List.mem_cons_of_mem i hxr)
      have hix : i ≠ x := fun hEq => hir (hEq ▸ hxr)
      have happly := ihr (Ptr.node i) e (B+1) tr hndr (by omega) hexitr x hxr f
        (by simp [CT.count] at hf ⊢; omega)
      rw [happly]
      rw [show CT.ids (CT.node l i c r) = CT.ids l ++ (i :: CT.ids r) from rfl,
          sAfter_append_right hxnl,
          show sAfter (i :: CT.ids r) x e = sAfter (CT.ids r) x e from by
            simp [sAfter, hix]]

theorem prev_go {h : Heap} (s : CT) : ∀ (p e : Ptr) (B : Nat),
    IsTree h p s → (CT.ids s).Nodup → 1 ≤ B →
    (∀ f, B ≤ f → upLeftF h f (CT.rootPtr s) = some e) →
    ∀ x, x ∈ CT.ids s → ∀ f, CT.count s + B ≤ f →
      rbtree_prev h (Ptr.node x) f = some (sBefore (CT.ids s) x e) := by
  induction s with
  | nil => intro p e B _ _ _ _ x hx; simp [CT.ids] at hx
  | node l i c r ihl ihr =>
    intro p e B hT hnd hB hexit x hx f hf
    cases hT with
    | node _ _ _ _ _ hp hl hr hc tl tr =>
    have hnd' : (CT.ids l ++ (i :: CT.ids r)).Nodup := hnd
    have hndl : (CT.ids l).Nodup := hnd'.of_append_left
    have hndir : (i :: CT.ids r).Nodup := hnd'.of_append_right
    have hndr : (CT.ids r).Nodup := (List.nodup_cons.mp hndir).2
    have hir : i ∉ CT.ids r := (List.nodup_cons.mp hndir).1
    have hdisj := List.disjoint_of_nodup_append hnd'
    have hil : i ∉ CT.ids l := fun hmem => hdisj hmem (List.mem_cons_self i _)
    have hx' : x ∈ CT.ids l ∨ x = i ∨ x ∈ CT.ids r := by
      simpa [CT.ids] using hx
    rcases hx' with hxl | hxi | hxr
    · -- x lies in the left subtree; its walk continues above this subtree
      have hlne : l ≠ CT.nil := by rintro rfl; simp [CT.ids] at hxl
      have hexitl : ∀ f, B + 1 ≤ f → upLeftF h f (CT.rootPtr l) = some e := by
        intro f hf1
        obtain ⟨g, rfl⟩ : ∃ g, f = g + 1 := ⟨f - 1, by omega⟩
        cases l with
        | nil => exact absurd rfl hlne
        | node ll la lc lr =>
          cases tl with
          | node _ _ _ _ _ hp2 hl2 hr2 hc2 tll tlr =>
          show upLeftF h (g+1) (Ptr.node la) = _
          simp only [upLeftF, pget_node, hp2]
          rw [if_pos ⟨by simp, by rw [hl]; rfl⟩]
          exact hexit g (by omega)
      have happly := ihl (Ptr.node i) e (B+1) tl hndl (by omega) hexitl x hxl f
        (by simp [CT.count] at hf ⊢; omega)
      rw [happly]
      rw [show CT.ids (CT.node l i c r) = CT.ids l ++ (i :: CT.ids r) from rfl,
          sBefore_append_left hxl]
    · -- x is the subtree root
      subst hxi
      unfold rbtree_prev
      rw [if_neg (by simp), pget_node, hl]
      cases l with
      | nil =>
        rw [if_neg (by simp [CT.rootPtr])]
        have hu := hexit f (by omega)
        rw [show CT.rootPtr (CT.node CT.nil x c r) = Ptr.node x from rfl] at hu
        rw [hu]
        rw [show CT.ids (CT.node CT.nil x c r) = CT.ids CT.nil ++ (x :: CT.ids r) from rfl,
            sBefore_append_right hil]
        simp [sBefore, lastE, CT.ids]
      | node ll la lc lr =>
        rw [if_pos (by simp [CT.rootPtr])]
        have hrf := rightmostF_last (CT.node ll la lc lr) (Ptr.node x) tl
          (fun hh => CT.noConfusion hh) f (by simp [CT.count] at hf ⊢; omega)
        rw [hrf]
        rw [show CT.ids (CT.node (CT.node ll la lc lr) x c r)
              = CT.ids (CT.node ll la lc lr) ++ (x :: CT.ids r) from rfl,
            sBefore_append_right hil]
        rw [show sBefore (x :: CT.ids r) x (lastE (CT.ids (CT.node ll la lc lr)) e)
              = lastE (CT.ids (CT.node ll la lc lr)) e from by simp [sBefore]]
        rw [lastE_ne_nil (ids_ne_nil ll la lc lr)]
    · -- x lies in the right subtree; its walk exits at i
      have hrne : r ≠ CT.nil := by rintro rfl; simp [CT.ids] at hxr
      have hexitr : ∀ f, 1 ≤ f → upLeftF h f (CT.rootPtr r) = some (Ptr.node i) := by
        intro f hf1
        obtain ⟨g, rfl⟩ : ∃ g, f = g + 1 := ⟨f - 1, by omega⟩
        cases r with
        | nil => exact absurd rfl hrne
        | node rl rb rc rr =>
          cases tr with
          | node _ _ _ _ _ hp2 hl2 hr2 hc2 trl trr =>
          show upLeftF h (g+1) (Ptr.node rb) = _
          simp only [upLeftF, pget_node, hp2]
          rw [if_neg ?_]
          rintro ⟨-, h2⟩
          rw [hl] at h2
          cases l with
          | nil => exact Ptr.noConfusion h2
          | node ll la lc lr =>
            have hrb : rb = la := by simpa [CT.rootPtr] using h2
            have hmeml : rb ∈ CT.ids (CT.node ll la lc lr) := by simp [CT.ids, hrb]
            have hmemr : rb ∈ i :: CT.ids (CT.node rl rb rc rr) := by simp [CT.ids]
            exact hdisj hmeml hmemr
      have hxnl : x ∉ CT.ids l := fun hmem => hdisj hmem (List.mem_cons_of_mem i hxr)
      have hix : i ≠ x := fun hEq => hir (hEq ▸ hxr)
      have happly := ihr (Ptr.node i) (Ptr.node i) 1 tr hndr le_rfl hexitr x hxr f
        (by simp [CT.count] at hf ⊢; omega)
      rw [happly]
      rw [show CT.ids (CT.node l i c r) = CT.ids l ++ (i :: CT.ids r) from rfl,
          sBefore_append_right hxnl,
          show sBefore (i :: CT.ids r) x (lastE (CT.ids l) e)
              = sBefore (CT.ids r) x (Ptr.node i) from by simp [sBefore, hix]]

/-! ### Top-level traversal specifications -/

theorem next_spec {h : Heap} {t : CT} (hT : IsTree h Ptr.null t)
    (hnd : (CT.ids t).Nodup) {x : Nat} (hx : x ∈ CT.ids t) :
    ∀ f, CT.count t + 1 ≤ f →
      rbtree_next h (Ptr.node x) f = some (sAfter (CT.ids t) x Ptr.null) := by
  intro f hf
  refine next_go t Ptr.null Ptr.null 1 hT hnd le_rfl ?_ x hx f hf
  intro f hf1
  obtain ⟨g, rfl⟩ : ∃ g, f = g + 1 := ⟨f - 1, by omega⟩
  cases t with
  | nil => simp [CT.ids] at hx
  | node l i c r =>
    cases hT with
    | node _ _ _ _ _ hp hl hr hc tl tr =>
    show upRightF h (g+1) (Ptr.node i) = _
    simp only [upRightF, pget_node, hp]
    rw [if_neg (by rintro ⟨h1, -⟩; exact h1 rfl)]

theorem prev_spec {h : Heap} {t : CT} (hT : IsTree h Ptr.null t)
    (hnd : (CT.ids t).Nodup) {x : Nat} (hx : x ∈ CT.ids t) :
    ∀ f, CT.count t + 1 ≤ f →
      rbtree_prev h (Ptr.node x) f = some (sBefore (CT.ids t) x Ptr.null) := by
  intro f hf
  refine prev_go t Ptr.null Ptr.null 1 hT hnd le_rfl ?_ x hx f hf
  intro f hf1
  obtain ⟨g, rfl⟩ : ∃ g, f = g + 1 := ⟨f - 1, by omega⟩
  cases t with
  | nil => simp [CT.ids] at hx
  | node l i c r =>
    cases hT with
    | node _ _ _ _ _ hp hl hr hc tl tr =>
    show upLeftF h (g+1) (Ptr.node i) = _
    simp only [upLeftF, pget_node, hp]
    rw [if_neg (by rintro ⟨h1, -⟩; exact h1 rfl)]

theorem first_spec {K A : Type} {st : St K A} {t : CT} (hwf : WF st t) :
    ∀ f, CT.count t + 1 ≤ f →
      rbtree_first st f = some (headE (CT.ids t) Ptr.null) := by
  intro f hf
  obtain ⟨hT, hroot, _, _⟩ := hwf
  cases t with
  | nil =>
    have : st.root = Ptr.null := by rw [hroot]; rfl
    simp [rbtree_first, this, CT.ids, headE]
  | node l i c r =>
    have hne : st.root ≠ Ptr.null := by rw [hroot]; simp [CT.rootPtr]
    rw [rbtree_first, if_neg hne, hroot]
    exact leftmostF_head _ Ptr.null hT (fun hh => CT.noConfusion hh) f hf

theorem last_spec {K A : Type} {st : St K A} {t : CT} (hwf : WF st t) :
    ∀ f, CT.count t + 1 ≤ f →
      rbtree_last st f = some (lastE (CT.ids t) Ptr.null) := by
  intro f hf
  obtain ⟨hT, hroot, _, _⟩ := hwf
  cases t with
  | nil =>
    have : st.root = Ptr.null := by rw [hroot]; rfl
    simp [rbtree_last, this, CT.ids, lastE]
  | node l i c r =>
    have hne : st.root ≠ Ptr.null := by rw [hroot]; simp [CT.rootPtr]
    rw [rbtree_last, if_neg hne, hroot]
    exact rightmostF_last _ Ptr.null hT (fun hh => CT.noConfusion hh) f hf

/-! ### Adjacency: successor and predecessor are mutually inverse -/

theorem sAfter_adj {L : List Nat} {x y : Nat} (hnd : L.Nodup) (hx : x ∈ L)
    (h : sAfter L x Ptr.null = Ptr.node y) :
    y ∈ L ∧ sBefore L y Ptr.null = Ptr.node x := by
  obtain ⟨A, R, rfl, hxA, hxR⟩ := mem_split_nodup hnd hx
  rw [sAfter_append_right hxA] at h
  have h' : headE R Ptr.null = Ptr.node y := by simpa [sAfter] using h
  cases R with
  | nil => exact Ptr.noConfusion h'
  | cons b R' =>
    have hby : b = y := by simpa [headE] using h'
    subst hby
    refine ⟨by simp, ?_⟩
    have hdis := List.disjoint_of_nodup_append hnd
    have hbA : b ∉ A := fun hmem => hdis hmem (by simp)
    have hxb : x ≠ b := by
      have h1 : (x :: b :: R').Nodup := hnd.of_append_right
      have h2 := (List.nodup_cons.mp h1).1
      exact fun hEq => h2 (hEq ▸ List.mem_cons_self b R')
    have hsplit : A ++ x :: b :: R' = (A ++ [x]) ++ (b :: R') := by simp
    rw [hsplit, sBefore_append_right (by
      intro hmem
      rcases List.mem_append.mp hmem with hm | hm
      · exact hbA hm
      · have hbx : b = x := by simpa using hm
        exact hxb hbx.symm)]
    rw [lastE_concat]
    simp [sBefore]

theorem sBefore_adj {L : List Nat} {x y : Nat} (hnd : L.Nodup) (hx : x ∈ L)
    (h : sBefore L x Ptr.null = Ptr.node y) :
    y ∈ L ∧ sAfter L y Ptr.null = Ptr.node x := by
  obtain ⟨A, R, rfl, hxA, hxR⟩ := mem_split_nodup hnd hx
  rw [sBefore_append_right hxA] at h
  have h' : lastE A Ptr.null = Ptr.node y := by simpa [sBefore] using h
  rcases lastE_cases A Ptr.null h' with ⟨-, h2⟩ | ⟨A', rfl⟩
  · exact Ptr.noConfusion h2
  · refine ⟨by simp, ?_⟩
    have hyA' : y ∉ A' := by
      have h1 : (A' ++ [y]).Nodup := hnd.of_append_left
      have hdis := List.disjoint_of_nodup_append h1
      exact fun hmem => hdis hmem (by simp)
    have hsplit : (A' ++ [y]) ++ x :: R = A' ++ (y :: x :: R) := by simp
    rw [hsplit, sAfter_append_right hyA']
    simp [sAfter, headE]

/-! ### Claim C8: next and prev are mutually inverse on member nodes -/

/-- **C8.** For every well-formed tree and node `x` in it: if `x` has an
in-order successor `y` then `rbtree_next(x) = y` and
`rbtree_prev(rbtree_next(x)) = x`; and if `x` has an in-order predecessor `y`
then `rbtree_prev(x) = y` and `rbtree_next(rbtree_prev(x)) = x`. -/
theorem C8_next_prev_inverse {K A : Type} (st : St K A) (t : CT) (x : Nat) (f : Nat)
    (hwf : WF st t) (hx : x ∈ CT.ids t) (hf : CT.count t + 1 ≤ f) :
    (∀ y, sAfter (CT.ids t) x Ptr.null = Ptr.node y →
      rbtree_next st.heap (Ptr.node x) f = some (Ptr.node y) ∧
      rbtree_prev st.heap (Ptr.node y) f = some (Ptr.node x)) ∧
    (∀ y, sBefore (CT.ids t) x Ptr.null = Ptr.node y →
      rbtree_prev st.heap (Ptr.node x) f = some (Ptr.node y) ∧
      rbtree_next st.heap (Ptr.node y) f = some (Ptr.node x)) := by
  obtain ⟨hT, hroot, hnd, hsize⟩ := hwf
  constructor
  · intro y hy
    obtain ⟨hymem, hprev⟩ := sAfter_adj hnd hx hy
    exact ⟨by rw [next_spec hT hnd hx f hf, hy],
           by rw [prev_spec hT hnd hymem f hf, hprev]⟩
  · intro y hy
    obtain ⟨hymem, hnext⟩ := sBefore_adj hnd hx hy
    exact ⟨by rw [prev_spec hT hnd hx f hf, hy],
           by rw [next_spec hT hnd hymem f hf, hnext]⟩

/-- Concrete run of the C8 statement on the three-node tree `stThree`: node
1's successor is 2, and prev(next(1)) = 1; node 3's predecessor is 2, and
next(prev(3)) = 3. -/
theorem C8_next_prev_inverse_witness :
    WF stThree ctThree ∧ 1 ∈ CT.ids ctThree ∧ 3 ∈ CT.ids ctThree ∧
    CT.count ctThree + 1 ≤ 4 ∧
    sAfter (CT.ids ctThree) 1 Ptr.null = Ptr.node 2 ∧
    sBefore (CT.ids ctThree) 3 Ptr.null = Ptr.node 2 ∧
    (rbtree_next stThree.heap (Ptr.node 1) 4 = some (Ptr.node 2) ∧
     rbtree_prev stThree.heap (Ptr.node 2) 4 = some (Ptr.node 1)) ∧
    (rbtree_prev stThree.heap (Ptr.node 3) 4 = some (Ptr.node 2) ∧
     rbtree_next stThree.heap (Ptr.node 2) 4 = some (Ptr.node 3)) :=
  ⟨WF_of_wfCheck (by decide), by decide, by decide, by decide, by decide, by decide,
   (C8_next_prev_inverse stThree ctThree 1 4 (WF_of_wfCheck (by decide))
     (by decide) (by decide)).1 2 (by decide),
   (C8_next_prev_inverse stThree ctThree 3 4 (WF_of_wfCheck (by decide))
     (by decide) (by decide)).2 2 (by decide)⟩

/-! ### Successor NULL exactly at the last node; iteration visits all nodes -/

theorem lastE_node : ∀ (A : List Nat) (a : Nat), ∃ z, lastE A (Ptr.node a) = Ptr.node z
  | [], a => ⟨a, rfl⟩
  | b :: A, a => lastE_node A b

theorem sAfter_null_iff_last {L : List Nat} {x : Nat} (hnd : L.Nodup) (hx : x ∈ L) :
    sAfter L x Ptr.null = Ptr.null ↔ lastE L Ptr.null = Ptr.node x := by
  obtain ⟨A, R, rfl, hxA, hxR⟩ := mem_split_nodup hnd hx
  rw [sAfter_append_right hxA,
      show sAfter (x :: R) x Ptr.null = headE R Ptr.null from by simp [sAfter],
      show A ++ x :: R = (A ++ [x]) ++ R from by simp, lastE_append, lastE_concat]
  cases R with
  | nil => simp [headE, lastE]
  | cons b R' =>
    constructor
    · intro hcon; exact absurd hcon (by simp [headE])
    · intro hlast
      exfalso
      rcases lastE_cases (b :: R') (Ptr.node x) hlast with ⟨h1, -⟩ | ⟨A', hA'⟩
      · exact List.noConfusion h1
      · exact hxR (by rw [hA']; simp)

theorem sBefore_null_iff_first {L : List Nat} {x : Nat} (hnd : L.Nodup) (hx : x ∈ L) :
    sBefore L x Ptr.null = Ptr.null ↔ headE L Ptr.null = Ptr.node x := by
  obtain ⟨A, R, rfl, hxA, hxR⟩ := mem_split_nodup hnd hx
  rw [sBefore_append_right hxA,
      show sBefore (x :: R) x (lastE A Ptr.null) = lastE A Ptr.null from by simp [sBefore],
      headE_append]
  cases A with
  | nil => simp [headE, lastE]
  | cons a A' =>
    constructor
    · intro hcon
      exfalso
      obtain ⟨z, hz⟩ := lastE_node A' a
      rw [show lastE (a :: A') Ptr.null = lastE A' (Ptr.node a) from rfl, hz] at hcon
      exact Ptr.noConfusion hcon
    · intro hhead
      exfalso
      have hax : a = x := by simpa [headE] using hhead
      exact hxA (hax ▸ List.mem_cons_self a A')

theorem iterNext_chunk {h : Heap} {t : CT} (hT : IsTree h Ptr.null t)
    (hnd : (CT.ids t).Nodup) {nf : Nat} (hnf : CT.count t + 1 ≤ nf) :
    ∀ (R A : List Nat), CT.ids t = A ++ R →
      iterNextF h nf (R.length + 1) (headE R Ptr.null) = some R := by
  intro R
  induction R with
  | nil => intro A hA; rfl
  | cons y R' ih =>
    intro A hA
    have hymem : y ∈ CT.ids t := by rw [hA]; simp
    have hyA : y ∉ A := by
      have hdis := List.disjoint_of_nodup_append (hA ▸ hnd)
      exact fun hmem => hdis hmem (by simp)
    have hnext := next_spec hT hnd hymem nf hnf
    rw [hA, sAfter_append_right hyA,
        show sAfter (y :: R') y Ptr.null = headE R' Ptr.null from by simp [sAfter]] at hnext
    show iterNextF h nf (R'.length + 1 + 1) (Ptr.node y) = some (y :: R')
    rw [show iterNextF h nf (R'.length + 1 + 1) (Ptr.node y)
        = (rbtree_next h (Ptr.node y) nf).bind (fun nxt =>
            (iterNextF h nf (R'.length + 1) nxt).map (fun L => y :: L)) from rfl,
        hnext]
    show (iterNextF h nf (R'.length + 1) (headE R' Ptr.null)).map (fun L => y :: L) = _
    rw [ih (A ++ [y]) (by rw [hA]; simp)]
    rfl

theorem iterPrev_chunk {h : Heap} {t : CT} (hT : IsTree h Ptr.null t)
    (hnd : (CT.ids t).Nodup) {nf : Nat} (hnf : CT.count t + 1 ≤ nf) :
    ∀ (n : Nat) (A R : List Nat), A.length = n → CT.ids t = A ++ R →
      iterPrevF h nf (n + 1) (lastE A Ptr.null) = some A.reverse := by
  intro n
  induction n with
  | zero =>
    intro A R hlen hA
    have hAnil : A = [] := List.length_eq_zero.mp hlen
    subst hAnil; rfl
  | succ m ih =>
    intro A R hlen hA
    rcases List.eq_nil_or_concat A with rfl | ⟨A', y, rfl⟩
    · simp at hlen
    · rw [List.concat_eq_append] at hA hlen ⊢
      have hymem : y ∈ CT.ids t := by rw [hA]; simp
      have hyA' : y ∉ A' := by
        have h1 : (A' ++ [y]).Nodup := (hA ▸ hnd).of_append_left
        exact fun hmem => (List.disjoint_of_nodup_append h1) hmem (by simp)
      have hA2 : CT.ids t = A' ++ (y :: R) := by rw [hA]; simp
      have hprev := prev_spec hT hnd hymem nf hnf
      rw [hA2, sBefore_append_right hyA',
          show sBefore (y :: R) y (lastE A' Ptr.null) = lastE A' Ptr.null from by
            simp [sBefore]] at hprev
      rw [lastE_concat]
      rw [show iterPrevF h nf (m + 1 + 1) (Ptr.node y)
          = (rbtree_prev h (Ptr.node y) nf).bind (fun nxt =>
              (iterPrevF h nf (m + 1) nxt).map (fun L => y :: L)) from rfl,
          hprev]
      show (iterPrevF h nf (m + 1) (lastE A' Ptr.null)).map (fun L => y :: L) = _
      have hlen' : A'.length = m := by simp at hlen; omega
      rw [ih A' (y :: R) hlen' hA2]
      simp

/-! ### Claim C9: NULL-successor characterizes the last node; full iteration -/

/-- **C9.** On a non-empty well-formed tree, for every member node `x`:
`rbtree_next(x)` is NULL exactly when `x` is `rbtree_last(tree)`, and
`rbtree_prev(x)` is NULL exactly when `x` is `rbtree_first(tree)`;
consequently forward iteration from `rbtree_first` via `rbtree_next` visits
exactly the in-order node sequence (each node once, terminating), and reverse
iteration from `rbtree_last` via `rbtree_prev` visits its reverse. -/
theorem C9_iteration_complete {K A : Type} (st : St K A) (t : CT) (x : Nat) (f : Nat)
    (hwf : WF st t) (hne : t ≠ CT.nil) (hx : x ∈ CT.ids t)
    (hf : CT.count t + 1 ≤ f) :
    (rbtree_next st.heap (Ptr.node x) f = some Ptr.null ↔
      rbtree_last st f = some (Ptr.node x)) ∧
    (rbtree_prev st.heap (Ptr.node x) f = some Ptr.null ↔
      rbtree_first st f = some (Ptr.node x)) ∧
    (rbtree_first st f).bind (fun p => iterNextF st.heap f (st.size + 1) p)
      = some (CT.ids t) ∧
    (rbtree_last st f).bind (fun p => iterPrevF st.heap f (st.size + 1) p)
      = some (CT.ids t).reverse ∧
    (CT.ids t).Nodup := by
  obtain ⟨hT, hroot, hnd, hsize⟩ := hwf
  have hwf' : WF st t := ⟨hT, hroot, hnd, hsize⟩
  refine ⟨?_, ?_, ?_, ?_, hnd⟩
  · rw [next_spec hT hnd hx f hf, last_spec hwf' f hf]
    simp only [Option.some.injEq]
    exact sAfter_null_iff_last hnd hx
  · rw [prev_spec hT hnd hx f hf, first_spec hwf' f hf]
    simp only [Option.some.injEq]
    exact sBefore_null_iff_first hnd hx
  · rw [first_spec hwf' f hf]
    show iterNextF st.heap f (st.size + 1) (headE (CT.ids t) Ptr.null) = some (CT.ids t)
    rw [hsize]
    exact iterNext_chunk hT hnd hf (CT.ids t) [] rfl
  · rw [last_spec hwf' f hf]
    show iterPrevF st.heap f (st.size + 1) (lastE (CT.ids t) Ptr.null)
      = some (CT.ids t).reverse
    rw [hsize]
    exact iterPrev_chunk hT hnd hf (CT.ids t).length (CT.ids t) [] rfl (by simp)

/-- Concrete run of the C9 statement on the three-node tree `stThree` at node
3 (the last node): next(3) is NULL and 3 is `last`; prev(3) is 2 so the
first-node equivalence is two-sided false; forward iteration yields [1,2,3]
and reverse iteration [3,2,1]. -/
theorem C9_iteration_complete_witness :
    WF stThree ctThree ∧ ctThree ≠ CT.nil ∧ 3 ∈ CT.ids ctThree ∧
    CT.count ctThree + 1 ≤ 4 ∧
    ((rbtree_next stThree.heap (Ptr.node 3) 4 = some Ptr.null ↔
       rbtree_last stThree 4 = some (Ptr.node 3)) ∧
     (rbtree_prev stThree.heap (Ptr.node 3) 4 = some Ptr.null ↔
       rbtree_first stThree 4 = some (Ptr.node 3)) ∧
     (rbtree_first stThree 4).bind
       (fun p => iterNextF stThree.heap 4 (stThree.size + 1) p)
       = some (CT.ids ctThree) ∧
     (rbtree_last stThree 4).bind
       (fun p => iterPrevF stThree.heap 4 (stThree.size + 1) p)
       = some (CT.ids ctThree).reverse ∧
     (CT.ids ctThree).Nodup) :=
  ⟨WF_of_wfCheck (by decide), fun hh => CT.noConfusion hh, by decide, by decide,
   C9_iteration_complete stThree ctThree 3 4 (WF_of_wfCheck (by decide))
     (fun hh => CT.noConfusion hh) (by decide) (by decide)⟩

/-! ### The linear scans of `rbtree_at` and `rbtree_index_of` -/

theorem headE_mem {M : List Nat} (h : M ≠ []) (e : Ptr) :
    ∃ z, headE M e = Ptr.node z ∧ z ∈ M := by
  cases M with
  | nil => exact absurd rfl h
  | cons a M => exact ⟨a, rfl, List.mem_cons_self a M⟩

theorem lastE_eq_headE_drop {L : List Nat} (h : L ≠ []) (e : Ptr) :
    lastE L e = headE (L.drop (L.length - 1)) e := by
  rcases List.eq_nil_or_concat L with rfl | ⟨L', y, rfl⟩
  · exact absurd rfl h
  · rw [List.concat_eq_append, lastE_concat]
    rw [show (L' ++ [y]).length - 1 = L'.length by simp]
    rw [List.drop_left L' [y]]
    rfl

theorem at_scan_fwd_go {h : Heap} {t : CT} (hT : IsTree h Ptr.null t)
    (hnd : (CT.ids t).Nodup) {nf : Nat} (hnf : CT.count t + 1 ≤ nf) (index : Nat)
    (hidx : index < (CT.ids t).length) :
    ∀ (k j : Nat) (A R : List Nat), CT.ids t = A ++ R → A.length = j → R ≠ [] →
      j + k = index → ∀ fuel, k + 1 ≤ fuel →
      at_scan_fwd h index nf fuel j (headE R Ptr.null)
        = some (headE ((CT.ids t).drop index) Ptr.null) := by
  intro k
  induction k with
  | zero =>
    intro j A R hA hlen hRne hj fuel hfuel
    obtain ⟨g, rfl⟩ : ∃ g, fuel = g + 1 := ⟨fuel - 1, by omega⟩
    cases R with
    | nil => exact absurd rfl hRne
    | cons y R' =>
      show at_scan_fwd h index nf (g+1) j (Ptr.node y) = _
      rw [show at_scan_fwd h index nf (g+1) j (Ptr.node y)
          = if Ptr.node y = Ptr.null then none
            else if j = index then some (Ptr.node y)
            else (rbtree_next h (Ptr.node y) nf).bind
              (fun nxt => at_scan_fwd h index nf g (j+1) nxt) from rfl]
      rw [if_neg (by simp), if_pos (by omega)]
      have hdrop : (CT.ids t).drop index = y :: R' := by
        rw [hA, show index = A.length from by omega]
        exact List.drop_left A (y :: R')
      rw [hdrop]
      rfl
  | succ m ih =>
    intro j A R hA hlen hRne hj fuel hfuel
    obtain ⟨g, rfl⟩ : ∃ g, fuel = g + 1 := ⟨fuel - 1, by omega⟩
    cases R with
    | nil => exact absurd rfl hRne
    | cons y R' =>
      have hymem : y ∈ CT.ids t := by rw [hA]; simp
      have hyA : y ∉ A := by
        have hdis := List.disjoint_of_nodup_append (hA ▸ hnd)
        exact fun hmem => hdis hmem (by simp)
      have hnext := next_spec hT hnd hymem nf hnf
      rw [hA, sAfter_append_right hyA,
          show sAfter (y :: R') y Ptr.null = headE R' Ptr.null from by simp [sAfter]] at hnext
      have hR'ne : R' ≠ [] := by
        intro hcon
        subst hcon
        rw [hA] at hidx
        simp at hidx
        omega
      show at_scan_fwd h index nf (g+1) j (Ptr.node y) = _
      rw [show at_scan_fwd h index nf (g+1) j (Ptr.node y)
          = if Ptr.node y = Ptr.null then none
            else if j = index then some (Ptr.node y)
            else (rbtree_next h (Ptr.node y) nf).bind
              (fun nxt => at_scan_fwd h index nf g (j+1) nxt) from rfl]
      rw [if_neg (by simp), if_neg (by omega), hnext]
      show at_scan_fwd h index nf g (j+1) (headE R' Ptr.null) = _
      exact ih (j+1) (A ++ [y]) R' (by rw [hA]; simp) (by simp [hlen]) hR'ne
        (by omega) g (by omega)

theorem at_scan_rev_go {h : Heap} {t : CT} (hT : IsTree h Ptr.null t)
    (hnd : (CT.ids t).Nodup) {nf : Nat} (hnf : CT.count t + 1 ≤ nf) (index : Nat) :
    ∀ (k : Nat) (A R : List Nat), CT.ids t = A ++ R → A ≠ [] →
      index + k + 1 = A.length → ∀ fuel, k + 1 ≤ fuel →
      at_scan_rev h index nf fuel (A.length - 1) (lastE A Ptr.null)
        = some (headE ((CT.ids t).drop index) Ptr.null) := by
  intro k
  induction k with
  | zero =>
    intro A R hA hAne hlen fuel hfuel
    obtain ⟨g, rfl⟩ : ∃ g, fuel = g + 1 := ⟨fuel - 1, by omega⟩
    rcases List.eq_nil_or_concat A with rfl | ⟨A', y, rfl⟩
    · exact absurd rfl hAne
    · rw [List.concat_eq_append] at hA hlen ⊢
      rw [lastE_concat]
      have hi : (A' ++ [y]).length - 1 = index := by simp at hlen ⊢; omega
      show at_scan_rev h index nf (g+1) ((A' ++ [y]).length - 1) (Ptr.node y) = _
      rw [show at_scan_rev h index nf (g+1) ((A' ++ [y]).length - 1) (Ptr.node y)
          = if Ptr.node y = Ptr.null then none
            else if (A' ++ [y]).length - 1 = index then some (Ptr.node y)
            else (rbtree_prev h (Ptr.node y) nf).bind
              (fun nxt => at_scan_rev h index nf g ((A' ++ [y]).length - 1 - 1) nxt)
          from rfl]
      rw [if_neg (by simp), if_pos hi]
      have hdrop : (CT.ids t).drop index = y :: R := by
        rw [hA, show index = A'.length from by simp at hlen; omega,
            List.append_assoc]
        exact List.drop_left A' ([y] ++ R)
      rw [hdrop]
      rfl
  | succ m ih =>
    intro A R hA hAne hlen fuel hfuel
    obtain ⟨g, rfl⟩ : ∃ g, fuel = g + 1 := ⟨fuel - 1, by omega⟩
    rcases List.eq_nil_or_concat A with rfl | ⟨A', y, rfl⟩
    · exact absurd rfl hAne
    · rw [List.concat_eq_append] at hA hlen ⊢
      have hymem : y ∈ CT.ids t := by rw [hA]; simp
      have hyA' : y ∉ A' := by
        have h1 : (A' ++ [y]).Nodup := (hA ▸ hnd).of_append_left
        exact fun hmem => (List.disjoint_of_nodup_append h1) hmem (by simp)
      have hA2 : CT.ids t = A' ++ (y :: R) := by rw [hA]; simp
      have hprev := prev_spec hT hnd hymem nf hnf
      rw [hA2, sBefore_append_right hyA',
          show sBefore (y :: R) y (lastE A' Ptr.null) = lastE A' Ptr.null from by
            simp [sBefore]] at hprev
      rw [lastE_concat]
      have hi : ¬((A' ++ [y]).length - 1 = index) := by simp at hlen ⊢; omega
      show at_scan_rev h index nf (g+1) ((A' ++ [y]).length - 1) (Ptr.node y) = _
      rw [show at_scan_rev h index nf (g+1) ((A' ++ [y]).length - 1) (Ptr.node y)
          = if Ptr.node y = Ptr.null then none
            else if (A' ++ [y]).length - 1 = index then some (Ptr.node y)
            else (rbtree_prev h (Ptr.node y) nf).bind
              (fun nxt => at_scan_rev h index nf g ((A' ++ [y]).length - 1 - 1) nxt)
          from rfl]
      rw [if_neg (by simp), if_neg hi, hprev]
      have hcur : (A' ++ [y]).length - 1 - 1 = A'.length - 1 := by simp
      rw [hcur]
      show at_scan_rev h index nf g (A'.length - 1) (lastE A' Ptr.null) = _
      exact ih A' (y :: R) hA2 (by intro hc; subst hc; simp at hlen)
        (by simp at hlen; omega) g (by omega)

theorem index_scan_go {h : Heap} {t : CT} (hT : IsTree h Ptr.null t)
    (hnd : (CT.ids t).Nodup) {nf : Nat} (hnf : CT.count t + 1 ≤ nf) (index : Nat)
    (hidx : index < (CT.ids t).length) :
    ∀ (k j : Nat) (A R : List Nat), CT.ids t = A ++ R → A.length = j → R ≠ [] →
      j + k = index → ∀ fuel, k + 1 ≤ fuel →
      index_scan h (headE ((CT.ids t).drop index) Ptr.null) nf fuel j (headE R Ptr.null)
        = some index := by
  intro k
  induction k with
  | zero =>
    intro j A R hA hlen hRne hj fuel hfuel
    obtain ⟨g, rfl⟩ : ∃ g, fuel = g + 1 := ⟨fuel - 1, by omega⟩
    cases R with
    | nil => exact absurd rfl hRne
    | cons y R' =>
      have hdrop : (CT.ids t).drop index = y :: R' := by
        rw [hA, show index = A.length from by omega]
        exact List.drop_left A (y :: R')
      rw [hdrop]
      show index_scan h (Ptr.node y) nf (g+1) j (Ptr.node y) = some index
      rw [show index_scan h (Ptr.node y) nf (g+1) j (Ptr.node y)
          = if Ptr.node y = Ptr.null then none
            else if Ptr.node y = Ptr.node y then some j
            else (rbtree_next h (Ptr.node y) nf).bind
              (fun nxt => index_scan h (Ptr.node y) nf g (j+1) nxt) from rfl]
      rw [if_neg (by simp), if_pos rfl]
      exact congrArg some (by omega)
  | succ m ih =>
    intro j A R hA hlen hRne hj fuel hfuel
    obtain ⟨g, rfl⟩ : ∃ g, fuel = g + 1 := ⟨fuel - 1, by omega⟩
    cases R with
    | nil => exact absurd rfl hRne
    | cons y R' =>
      have hymem : y ∈ CT.ids t := by rw [hA]; simp
      have hyA : y ∉ A := by
        have hdis := List.disjoint_of_nodup_append (hA ▸ hnd)
        exact fun hmem => hdis hmem (by simp)
      have hyR' : y ∉ R' := by
        have h1 : (y :: R').Nodup := (hA ▸ hnd).of_append_right
        exact (List.nodup_cons.mp h1).1
      have hnext := next_spec hT hnd hymem nf hnf
      rw [hA, sAfter_append_right hyA,
          show sAfter (y :: R') y Ptr.null = headE R' Ptr.null from by simp [sAfter]] at hnext
      have hlennz : index < A.length + (R'.length + 1) := by
        rw [hA] at hidx; simpa using hidx
      have hR'ne : R' ≠ [] := by
        intro hcon; subst hcon; simp at hlennz; omega
      have hdrop2 : (CT.ids t).drop index = R'.drop (index - (j + 1)) := by
        have h1 : ((A ++ [y]) ++ R').drop ((A ++ [y]).length + (index - (j + 1)))
            = R'.drop (index - (j + 1)) := List.drop_append (index - (j + 1))
        have h2 : (A ++ [y]).length + (index - (j + 1)) = index := by
          simp [hlen]; omega
        rw [h2] at h1
        rw [hA, show A ++ y :: R' = (A ++ [y]) ++ R' from by simp]
        exact h1
      have hdropne : R'.drop (index - (j + 1)) ≠ [] := by
        rw [ne_eq, List.drop_eq_nil_iff]
        omega
      obtain ⟨z, hz, hzmem⟩ := headE_mem hdropne Ptr.null
      have hzR' : z ∈ R' := List.drop_subset _ _ hzmem
      have hyz : Ptr.node y ≠ Ptr.node z := by
        simp only [ne_eq, Ptr.node.injEq]
        exact fun hEq => hyR' (hEq ▸ hzR')
      rw [hdrop2, hz]
      show index_scan h (Ptr.node z) nf (g+1) j (Ptr.node y) = some index
      rw [show index_scan h (Ptr.node z) nf (g+1) j (Ptr.node y)
          = if Ptr.node y = Ptr.null then none
            else if Ptr.node y = Ptr.node z then some j
            else (rbtree_next h (Ptr.node y) nf).bind
              (fun nxt => index_scan h (Ptr.node z) nf g (j+1) nxt) from rfl]
      rw [if_neg (by simp), if_neg hyz, hnext]
      show index_scan h (Ptr.node z) nf g (j+1) (headE R' Ptr.null) = some index
      have hih := ih (j+1) (A ++ [y]) R' (by rw [hA]; simp) (by simp [hlen]) hR'ne
        (by omega) g (by omega)
      rw [hdrop2, hz] at hih
      exact hih

/-! ### Claim C3: index_of and at are mutually inverse -/

/-- **C3.** For every well-formed tree and every index `i < size`,
`rbtree_at(tree, i)` returns the node at in-order position `i`, and
`rbtree_index_of(tree, rbtree_at(tree, i)) = i` (including the O(1) fast path
when the node is the last one). -/
theorem C3_index_of_at {K A : Type} (st : St K A) (t : CT) (i f : Nat)
    (hwf : WF st t) (hi : i < st.size) (hf : CT.count t + 2 ≤ f) :
    ∃ p, rbtree_at st i f = some p ∧ rbtree_index_of st p f = some i := by
  obtain ⟨hT, hroot, hnd, hsize⟩ := hwf
  have hwf' : WF st t := ⟨hT, hroot, hnd, hsize⟩
  have hlenc : (CT.ids t).length = CT.count t := ids_length t
  have hlen : i < (CT.ids t).length := hsize ▸ hi
  have hidsne : CT.ids t ≠ [] := by
    intro hc; rw [hc] at hlen; simp at hlen
  refine ⟨headE ((CT.ids t).drop i) Ptr.null, ?_, ?_⟩
  · unfold rbtree_at
    by_cases hhalf : i < st.size / 2
    · rw [if_pos hhalf, first_spec hwf' f (by omega)]
      show at_scan_fwd st.heap i f f 0 (headE (CT.ids t) Ptr.null)
        = some (headE ((CT.ids t).drop i) Ptr.null)
      exact at_scan_fwd_go hT hnd (by omega) i hlen i 0 [] (CT.ids t) rfl rfl hidsne
        (by omega) f (by omega)
    · rw [if_neg hhalf, last_spec hwf' f (by omega)]
      show at_scan_rev st.heap i f f (st.size - 1) (lastE (CT.ids t) Ptr.null)
        = some (headE ((CT.ids t).drop i) Ptr.null)
      rw [hsize]
      exact at_scan_rev_go hT hnd (by omega) i ((CT.ids t).length - 1 - i)
        (CT.ids t) [] (by simp) hidsne (by omega) f (by omega)
  · unfold rbtree_index_of
    rw [last_spec hwf' f (by omega)]
    show (if lastE (CT.ids t) Ptr.null = headE ((CT.ids t).drop i) Ptr.null
          then some (st.size - 1)
          else (rbtree_first st f).bind (fun fst =>
            index_scan st.heap (headE ((CT.ids t).drop i) Ptr.null) f f 0 fst))
        = some i
    by_cases heq : lastE (CT.ids t) Ptr.null = headE ((CT.ids t).drop i) Ptr.null
    · rw [if_pos heq]
      rw [lastE_eq_headE_drop hidsne] at heq
      have hlast : (CT.ids t).length - 1 < (CT.ids t).length := by omega
      obtain ⟨z1, hz1, hg1⟩ := headE_drop hlast Ptr.null
      obtain ⟨z2, hz2, hg2⟩ := headE_drop hlen Ptr.null
      rw [hz1, hz2] at heq
      have hz12 : z1 = z2 := by simpa using heq
      have hfin : (⟨(CT.ids t).length - 1, hlast⟩ : Fin (CT.ids t).length)
          = ⟨i, hlen⟩ :=
        (List.Nodup.get_inj_iff hnd).mp (by rw [hg1, hg2, hz12])
      have hival : (CT.ids t).length - 1 = i := congrArg Fin.val hfin
      rw [hsize, hival]
    · rw [if_neg heq, first_spec hwf' f (by omega)]
      show index_scan st.heap (headE ((CT.ids t).drop i) Ptr.null) f f 0
          (headE (CT.ids t) Ptr.null) = some i
      exact index_scan_go hT hnd (by omega) i hlen i 0 [] (CT.ids t) rfl rfl hidsne
        (by omega) f (by omega)

/-- Concrete run of the C3 statement on the three-node tree `stThree`: for
each index i ∈ {0, 1, 2}, `rbtree_at` followed by `rbtree_index_of` returns
i again. -/
theorem C3_index_of_at_witness :
    WF stThree ctThree ∧ 1 < stThree.size ∧ CT.count ctThree + 2 ≤ 5 ∧
    (∃ p, rbtree_at stThree 1 5 = some p ∧ rbtree_index_of stThree p 5 = some 1) :=
  ⟨WF_of_wfCheck (by decide), by decide, by decide,
   C3_index_of_at stThree ctThree 1 5 (WF_of_wfCheck (by decide)) (by decide)
     (by decide)⟩

/-! ### Pure lemmas about plugging, recoloring and the red-black predicates -/

theorem color_not_red {c : RBTreeNodeColor} (h : ¬ c = RBTreeNodeColor.red) :
    c = RBTreeNodeColor.black := by cases c <;> simp_all

theorem topColor_plug1 (s : CT) (fr : Frame) : CT.topColor (plug1 s fr) = fr.pc := by
  obtain ⟨d, pid, pc, sib⟩ := fr
  cases d <;> rfl

theorem ids_plug1_left (s : CT) (pid : Nat) (pc : RBTreeNodeColor) (sib : CT) :
    CT.ids (plug1 s ⟨Dir.left, pid, pc, sib⟩) = CT.ids s ++ pid :: CT.ids sib := rfl

theorem ids_plug1_right (s : CT) (pid : Nat) (pc : RBTreeNodeColor) (sib : CT) :
    CT.ids (plug1 s ⟨Dir.right, pid, pc, sib⟩) = CT.ids sib ++ pid :: CT.ids s := rfl

theorem plug_ids (ctx : Ctx) : ∀ s, CT.ids (plug ctx s) = ctxL ctx ++ CT.ids s ++ ctxR ctx := by
  induction ctx with
  | nil => intro s; simp [plug, ctxL, ctxR]
  | cons fr ctx ih =>
    intro s
    obtain ⟨d, pid, pc, sib⟩ := fr
    cases d with
    | left =>
      show CT.ids (plug ctx (plug1 s ⟨Dir.left, pid, pc, sib⟩)) = _
      rw [ih, ids_plug1_left]
      simp [ctxL, ctxR]
    | right =>
      show CT.ids (plug ctx (plug1 s ⟨Dir.right, pid, pc, sib⟩)) = _
      rw [ih, ids_plug1_right]
      simp [ctxL, ctxR]

theorem plug_ids_congr {ctx : Ctx} {s₁ s₂ : CT} (h : CT.ids s₁ = CT.ids s₂) :
    CT.ids (plug ctx s₁) = CT.ids (plug ctx s₂) := by
  rw [plug_ids, plug_ids, h]

theorem ids_recolorRoot (c : RBTreeNodeColor) (t : CT) :
    CT.ids (recolorRoot c t) = CT.ids t := by
  cases t <;> rfl

theorem topColor_recolorRoot {t : CT} (hne : t ≠ CT.nil) (c : RBTreeNodeColor) :
    CT.topColor (recolorRoot c t) = c := by
  cases t with
  | nil => exact absurd rfl hne
  | node l i c' r => rfl

theorem redOk_recolorRoot_black {t : CT} (h : CT.redOk t = true) :
    CT.redOk (recolorRoot RBTreeNodeColor.black t) = true := by
  cases t with
  | nil => rfl
  | node l i c r =>
    simp [CT.redOk, recolorRoot] at h ⊢
    exact ⟨h.1.1, h.1.2⟩

theorem blackHeight_node_iff {l r : CT} {i : Nat} {c : RBTreeNodeColor} {n : Nat} :
    CT.blackHeight (CT.node l i c r) = some n ↔
      ∃ m, CT.blackHeight l = some m ∧ CT.blackHeight r = some m ∧
        n = m + (if c = RBTreeNodeColor.black then 1 else 0) := by
  constructor
  · intro h
    simp only [CT.blackHeight] at h
    cases hl : CT.blackHeight l with
    | none => rw [hl] at h; exact Option.noConfusion h
    | some m =>
      cases hr : CT.blackHeight r with
      | none => rw [hl, hr] at h; exact Option.noConfusion h
      | some m' =>
        rw [hl, hr] at h
        have h' : (if m = m' then
            some (m + (if c = RBTreeNodeColor.black then 1 else 0)) else none) = some n := h
        by_cases hmm : m = m'
        · subst hmm
          rw [if_pos rfl] at h'
          exact ⟨m, rfl, rfl, (Option.some.injEq _ _ ▸ h').symm⟩
        · rw [if_neg hmm] at h'; exact Option.noConfusion h'
  · rintro ⟨m, hl, hr, rfl⟩
    simp only [CT.blackHeight]
    rw [hl, hr]
    simp

theorem bh_recolorRoot_black_of_red {t : CT} {b : Nat}
    (htop : CT.topColor t = RBTreeNodeColor.red) (hbh : CT.blackHeight t = some b) :
    CT.blackHeight (recolorRoot RBTreeNodeColor.black t) = some (b + 1) := by
  cases t with
  | nil => exact absurd htop (by simp [CT.topColor])
  | node l i c r =>
    have hc : c = RBTreeNodeColor.red := htop
    subst hc
    obtain ⟨m, hl, hr, hn⟩ := blackHeight_node_iff.mp hbh
    have hb : b = m := by simpa using hn
    subst hb
    exact blackHeight_node_iff.mpr ⟨b, hl, hr, by simp⟩

theorem bh_red_children {l r : CT} {i : Nat} {b : Nat}
    (h : CT.blackHeight (CT.node l i RBTreeNodeColor.red r) = some b) :
    CT.blackHeight l = some b ∧ CT.blackHeight r = some b := by
  obtain ⟨m, hl, hr, hn⟩ := blackHeight_node_iff.mp h
  have hb : b = m := by simpa using hn
  subst hb
  exact ⟨hl, hr⟩

theorem redOk_node_iff {l r : CT} {i : Nat} {c : RBTreeNodeColor} :
    CT.redOk (CT.node l i c r) = true ↔
      CT.redOk l = true ∧ CT.redOk r = true ∧
        (c = RBTreeNodeColor.red → CT.topColor l = RBTreeNodeColor.black ∧
          CT.topColor r = RBTreeNodeColor.black) := by
  simp only [CT.redOk, Bool.and_eq_true, Bool.or_eq_true, decide_eq_true_eq]
  constructor
  · rintro ⟨⟨h1, h2⟩, h3⟩
    refine ⟨h1, h2, fun hc => ?_⟩
    rcases h3 with h3 | h3
    · rw [h3] at hc; exact absurd hc (by simp)
    · exact h3
  · rintro ⟨h1, h2, h3⟩
    refine ⟨⟨h1, h2⟩, ?_⟩
    cases c with
    | black => exact Or.inl rfl
    | red => exact Or.inr (h3 rfl)

theorem rootBlack_iff_top {t : CT} :
    CT.rootBlack t = true ↔ CT.topColor t = RBTreeNodeColor.black := by
  cases t with
  | nil => simp [CT.rootBlack, CT.topColor]
  | node l i c r => simp [CT.rootBlack, CT.topColor]

/-- Plugging a black-topped, balanced, red-valid subtree into a valid context
yields a red-valid, balanced tree whose root is black (when the context is
non-empty). -/
theorem plug_rb : ∀ (ctx : Ctx) (prev : RBTreeNodeColor) (b : Nat) (u : CT),
    ctxInv prev ctx b → CT.blackHeight u = some b → CT.redOk u = true →
    CT.topColor u = prev →
    CT.redOk (plug ctx u) = true ∧ (CT.blackHeight (plug ctx u)).isSome ∧
      (ctx = [] → CT.topColor (plug ctx u) = prev) ∧
      (ctx ≠ [] → CT.topColor (plug ctx u) = RBTreeNodeColor.black) := by
  intro ctx
  induction ctx with
  | nil =>
    intro prev b u hinv hbh hred htop
    refine ⟨hred, ?_, fun _ => htop, fun hc => absurd rfl hc⟩
    rw [show plug [] u = u from rfl, hbh]
    rfl
  | cons fr ctx ih =>
    obtain ⟨d, pid, pc, sib⟩ := fr
    intro prev b u hinv hbh hred htop
    obtain ⟨hsb, hsr, hrr, hlast, hrest⟩ := hinv
    have hbh1 : CT.blackHeight (plug1 u ⟨d, pid, pc, sib⟩)
        = some (b + Frame.bhInc ⟨d, pid, pc, sib⟩) := by
      cases d
      · exact blackHeight_node_iff.mpr ⟨b, hbh, hsb, rfl⟩
      · exact blackHeight_node_iff.mpr ⟨b, hsb, hbh, rfl⟩
    have hred1 : CT.redOk (plug1 u ⟨d, pid, pc, sib⟩) = true := by
      cases d
      · exact redOk_node_iff.mpr ⟨hred, hsr,
          fun hc => ⟨htop.trans (hrr hc).1, (hrr hc).2⟩⟩
      · exact redOk_node_iff.mpr ⟨hsr, hred,
          fun hc => ⟨(hrr hc).2, htop.trans (hrr hc).1⟩⟩
    have htop1 : CT.topColor (plug1 u ⟨d, pid, pc, sib⟩) = pc :=
      topColor_plug1 u ⟨d, pid, pc, sib⟩
    have hres := ih pc (b + Frame.bhInc ⟨d, pid, pc, sib⟩) (plug1 u ⟨d, pid, pc, sib⟩)
      hrest hbh1 hred1 htop1
    refine ⟨hres.1, hres.2.1, fun hc => absurd hc (by simp), fun _ => ?_⟩
    by_cases hctx : ctx = []
    · subst hctx
      exact (hres.2.2.1 rfl).trans (hlast rfl)
    · exact hres.2.2.2 hctx

theorem rbOk_intro {t : CT} (h1 : CT.rootBlack t = true) (h2 : CT.redOk t = true)
    (h3 : (CT.blackHeight t).isSome) : CT.rbOk t = true := by
  simp [CT.rbOk, h1, h2, h3]

/-- Correctness of the pure insert-repair: under the loop invariant it
produces a red-black-valid tree with the same in-order ids. -/
theorem raiFix_rb : ∀ (n : Nat) (ctx : Ctx), ctx.length ≤ n → ∀ (b : Nat) (s : CT),
    ctxInv RBTreeNodeColor.black ctx b →
    CT.blackHeight s = some b → CT.redOk s = true →
    CT.topColor s = RBTreeNodeColor.red →
    CT.rbOk (raiFix ctx s) = true ∧ CT.ids (raiFix ctx s) = CT.ids (plug ctx s) := by
  intro n
  induction n with
  | zero =>
    intro ctx hlen b s hinv hbh hred htop
    have hc : ctx = [] := List.length_eq_zero.mp (Nat.le_zero.mp hlen)
    subst hc
    have hne : s ≠ CT.nil := by
      intro hc; rw [hc] at htop; exact RBTreeNodeColor.noConfusion htop
    refine ⟨rbOk_intro (rootBlack_iff_top.mpr (topColor_recolorRoot hne _))
      (redOk_recolorRoot_black hred) ?_, ids_recolorRoot _ _⟩
    show (CT.blackHeight (recolorRoot RBTreeNodeColor.black s)).isSome
    rw [bh_recolorRoot_black_of_red htop hbh]
    rfl
  | succ m ih =>
    intro ctx hlen b s hinv hbh hred htop
    match ctx with
    | [] =>
      have hne : s ≠ CT.nil := by
        intro hc; rw [hc] at htop; exact RBTreeNodeColor.noConfusion htop
      refine ⟨rbOk_intro (rootBlack_iff_top.mpr (topColor_recolorRoot hne _))
        (redOk_recolorRoot_black hred) ?_, ids_recolorRoot _ _⟩
      show (CT.blackHeight (recolorRoot RBTreeNodeColor.black s)).isSome
      rw [bh_recolorRoot_black_of_red htop hbh]
      rfl
    | ⟨d, P, pc, β⟩ :: ctx2 =>
      obtain ⟨hsb, hsr, hrr, hlast, hrest⟩ := hinv
      by_cases hpc : pc = RBTreeNodeColor.black
      · -- parent black: the loop returns immediately
        subst hpc
        have hbh1 : CT.blackHeight (plug1 s ⟨d, P, RBTreeNodeColor.black, β⟩)
            = some (b + 1) := by
          cases d
          · exact blackHeight_node_iff.mpr ⟨b, hbh, hsb, by simp⟩
          · exact blackHeight_node_iff.mpr ⟨b, hsb, hbh, by simp⟩
        have hred1 : CT.redOk (plug1 s ⟨d, P, RBTreeNodeColor.black, β⟩) = true := by
          cases d
          · exact redOk_node_iff.mpr ⟨hred, hsr, fun hc => RBTreeNodeColor.noConfusion hc⟩
          · exact redOk_node_iff.mpr ⟨hsr, hred, fun hc => RBTreeNodeColor.noConfusion hc⟩
        have hrest' : ctxInv RBTreeNodeColor.black ctx2 (b + 1) := by
          have : Frame.bhInc ⟨d, P, RBTreeNodeColor.black, β⟩ = 1 := by
            simp [Frame.bhInc]
          rw [this] at hrest
          exact hrest
        have hres := plug_rb ctx2 RBTreeNodeColor.black (b + 1)
          (plug1 s ⟨d, P, RBTreeNodeColor.black, β⟩) hrest' hbh1 hred1
          (topColor_plug1 _ _)
        have hfix : raiFix (⟨d, P, RBTreeNodeColor.black, β⟩ :: ctx2) s
            = plug (⟨d, P, RBTreeNodeColor.black, β⟩ :: ctx2) s := by
          cases ctx2 with
          | nil => rfl
          | cons gfr ctx3 => simp [raiFix]
        refine ⟨?_, by rw [hfix]⟩
        rw [hfix]
        refine rbOk_intro (rootBlack_iff_top.mpr ?_) hres.1 hres.2.1
        by_cases hctx2 : ctx2 = []
        · subst hctx2; exact hres.2.2.1 rfl
        · exact hres.2.2.2 hctx2
      · -- parent red
        have hpc' : pc = RBTreeNodeColor.red := by cases pc <;> simp_all
        subst hpc'
        match ctx2, hrest, hlast, hlen with
        | [], _, hlast, _ => exact absurd (hlast rfl) (by simp)
        | ⟨gd, G, gpc, U⟩ :: ctx3, hrest, _, hlen =>
          simp only [Frame.bhInc, if_neg (show ¬(RBTreeNodeColor.red
            = RBTreeNodeColor.black) by simp), Nat.add_zero] at hrest
          obtain ⟨hUb, hUr, hgrr, hglast, hgrest⟩ := hrest
          have hgblack : gpc = RBTreeNodeColor.black := by
            cases gpc with
            | black => rfl
            | red => exact absurd (hgrr rfl).1 (by simp)
          subst hgblack
          simp only [Frame.bhInc, if_pos rfl] at hgrest
          have hβtop : CT.topColor β = RBTreeNodeColor.black := (hrr rfl).2
          have hsne : s ≠ CT.nil := by
            intro hc; rw [hc] at htop; exact RBTreeNodeColor.noConfusion htop
          have hlen3 : ctx3.length ≤ m := by simp at hlen; omega
          by_cases hU : CT.topColor U = RBTreeNodeColor.red
          · -- uncle red: recolor and recurse at the grandparent
            have hUne : U ≠ CT.nil := by
              intro hc; rw [hc] at hU; exact RBTreeNodeColor.noConfusion hU
            have hstep : raiFix (⟨d, P, RBTreeNodeColor.red, β⟩ ::
                ⟨gd, G, RBTreeNodeColor.black, U⟩ :: ctx3) s
                = raiFix ctx3 (plug1 (plug1 s ⟨d, P, RBTreeNodeColor.black, β⟩)
                  ⟨gd, G, RBTreeNodeColor.red,
                    recolorRoot RBTreeNodeColor.black U⟩) := by
              simp only [raiFix]
              rw [if_neg (by simp), if_pos hU]
            have hbh_in : CT.blackHeight (plug1 s ⟨d, P, RBTreeNodeColor.black, β⟩)
                = some (b + 1) := by
              cases d
              · exact blackHeight_node_iff.mpr ⟨b, hbh, hsb, by simp⟩
              · exact blackHeight_node_iff.mpr ⟨b, hsb, hbh, by simp⟩
            have hred_in : CT.redOk (plug1 s ⟨d, P, RBTreeNodeColor.black, β⟩) = true := by
              cases d
              · exact redOk_node_iff.mpr ⟨hred, hsr, fun hc => RBTreeNodeColor.noConfusion hc⟩
              · exact redOk_node_iff.mpr ⟨hsr, hred, fun hc => RBTreeNodeColor.noConfusion hc⟩
            have hbh_s' : CT.blackHeight (plug1 (plug1 s ⟨d, P, RBTreeNodeColor.black, β⟩)
                ⟨gd, G, RBTreeNodeColor.red, recolorRoot RBTreeNodeColor.black U⟩)
                = some (b + 1) := by
              have hUb2 := bh_recolorRoot_black_of_red hU hUb
              cases gd
              · exact blackHeight_node_iff.mpr ⟨b + 1, hbh_in, hUb2, by simp⟩
              · exact blackHeight_node_iff.mpr ⟨b + 1, hUb2, hbh_in, by simp⟩
            have hred_s' : CT.redOk (plug1 (plug1 s ⟨d, P, RBTreeNodeColor.black, β⟩)
                ⟨gd, G, RBTreeNodeColor.red, recolorRoot RBTreeNodeColor.black U⟩)
                = true := by
              have h1 := redOk_recolorRoot_black hUr
              have h2 : CT.topColor (plug1 s ⟨d, P, RBTreeNodeColor.black, β⟩)
                  = RBTreeNodeColor.black := topColor_plug1 _ _
              have h3 := topColor_recolorRoot hUne RBTreeNodeColor.black
              cases gd
              · exact redOk_node_iff.mpr ⟨hred_in, h1, fun _ => ⟨h2, h3⟩⟩
              · exact redOk_node_iff.mpr ⟨h1, hred_in, fun _ => ⟨h3, h2⟩⟩
            have hres := ih ctx3 hlen3 (b + 1) _ hgrest hbh_s' hred_s'
              (topColor_plug1 _ _)
            refine ⟨by rw [hstep]; exact hres.1, ?_⟩
            rw [hstep, hres.2]
            show _ = CT.ids (plug ctx3 (plug1 (plug1 s ⟨d, P, RBTreeNodeColor.red, β⟩)
              ⟨gd, G, RBTreeNodeColor.black, U⟩))
            refine plug_ids_congr ?_
            cases d <;> cases gd <;>
              simp [plug1, CT.ids, ids_recolorRoot]
          · -- uncle black: terminal rotation cases
            have hU' : CT.topColor U = RBTreeNodeColor.black := by
              cases hUc : CT.topColor U with
              | black => rfl
              | red => exact absurd hUc hU
            have hstep : raiFix (⟨d, P, RBTreeNodeColor.red, β⟩ ::
                ⟨gd, G, RBTreeNodeColor.black, U⟩ :: ctx3) s
                = raiTerm ⟨d, P, RBTreeNodeColor.red, β⟩
                    ⟨gd, G, RBTreeNodeColor.black, U⟩ ctx3 s := by
              simp only [raiFix]
              rw [if_neg (by simp), if_neg hU]
            rw [hstep]
            cases d <;> cases gd
            · -- left-left
              have hstep2 : raiTerm ⟨Dir.left, P, RBTreeNodeColor.red, β⟩
                  ⟨Dir.left, G, RBTreeNodeColor.black, U⟩ ctx3 s
                  = plug ctx3 (CT.node s P RBTreeNodeColor.black
                      (CT.node β G RBTreeNodeColor.red U)) := by
                simp [raiTerm]
              have hbhX : CT.blackHeight (CT.node s P RBTreeNodeColor.black
                  (CT.node β G RBTreeNodeColor.red U)) = some (b + 1) :=
                blackHeight_node_iff.mpr ⟨b, hbh,
                  blackHeight_node_iff.mpr ⟨b, hsb, hUb, by simp⟩, by simp⟩
              have hredX : CT.redOk (CT.node s P RBTreeNodeColor.black
                  (CT.node β G RBTreeNodeColor.red U)) = true :=
                redOk_node_iff.mpr ⟨hred,
                  redOk_node_iff.mpr ⟨hsr, hUr, fun _ => ⟨hβtop, hU'⟩⟩,
                  fun hc => RBTreeNodeColor.noConfusion hc⟩
              have hres := plug_rb ctx3 RBTreeNodeColor.black (b + 1) _ hgrest hbhX hredX rfl
              refine ⟨?_, ?_⟩
              · rw [hstep2]
                refine rbOk_intro (rootBlack_iff_top.mpr ?_) hres.1 hres.2.1
                by_cases hctx3 : ctx3 = []
                · subst hctx3; exact hres.2.2.1 rfl
                · exact hres.2.2.2 hctx3
              · rw [hstep2]
                refine (plug_ids_congr ?_).trans rfl
                simp [CT.ids, plug1]
            · -- left-right
              obtain ⟨sl, x, cx, sr, hseq⟩ : ∃ sl x cx sr, s = CT.node sl x cx sr := by
                cases s with
                | nil => exact absurd rfl hsne
                | node sl x cx sr => exact ⟨sl, x, cx, sr, rfl⟩
              subst hseq
              have hcx : cx = RBTreeNodeColor.red := htop
              subst hcx
              obtain ⟨hbsl, hbsr⟩ := bh_red_children hbh
              obtain ⟨hrsl, hrsr, htops⟩ := redOk_node_iff.mp hred
              have hstep2 : raiTerm ⟨Dir.left, P, RBTreeNodeColor.red, β⟩
                  ⟨Dir.right, G, RBTreeNodeColor.black, U⟩ ctx3
                  (CT.node sl x RBTreeNodeColor.red sr)
                  = plug ctx3 (CT.node (CT.node U G RBTreeNodeColor.red sl) x
                      RBTreeNodeColor.black (CT.node sr P RBTreeNodeColor.red β)) := by
                simp [raiTerm]
              have hbhX : CT.blackHeight (CT.node (CT.node U G RBTreeNodeColor.red sl) x
                  RBTreeNodeColor.black (CT.node sr P RBTreeNodeColor.red β))
                  = some (b + 1) :=
                blackHeight_node_iff.mpr ⟨b,
                  blackHeight_node_iff.mpr ⟨b, hUb, hbsl, by simp⟩,
                  blackHeight_node_iff.mpr ⟨b, hbsr, hsb, by simp⟩, by simp⟩
              have hredX : CT.redOk (CT.node (CT.node U G RBTreeNodeColor.red sl) x
                  RBTreeNodeColor.black (CT.node sr P RBTreeNodeColor.red β)) = true :=
                redOk_node_iff.mpr
                  ⟨redOk_node_iff.mpr ⟨hUr, hrsl, fun _ => ⟨hU', (htops rfl).1⟩⟩,
                   redOk_node_iff.mpr ⟨hrsr, hsr, fun _ => ⟨(htops rfl).2, hβtop⟩⟩,
                   fun hc => RBTreeNodeColor.noConfusion hc⟩
              have hres := plug_rb ctx3 RBTreeNodeColor.black (b + 1) _ hgrest hbhX hredX rfl
              refine ⟨?_, ?_⟩
              · rw [hstep2]
                refine rbOk_intro (rootBlack_iff_top.mpr ?_) hres.1 hres.2.1
                by_cases hctx3 : ctx3 = []
                · subst hctx3; exact hres.2.2.1 rfl
                · exact hres.2.2.2 hctx3
              · rw [hstep2]
                refine (plug_ids_congr ?_).trans rfl
                simp [CT.ids, plug1]
            · -- right-left
              obtain ⟨sl, x, cx, sr, hseq⟩ : ∃ sl x cx sr, s = CT.node sl x cx sr := by
                cases s with
                | nil => exact absurd rfl hsne
                | node sl x cx sr => exact ⟨sl, x, cx, sr, rfl⟩
              subst hseq
              have hcx : cx = RBTreeNodeColor.red := htop
              subst hcx
              obtain ⟨hbsl, hbsr⟩ := bh_red_children hbh
              obtain ⟨hrsl, hrsr, htops⟩ := redOk_node_iff.mp hred
              have hstep2 : raiTerm ⟨Dir.right, P, RBTreeNodeColor.red, β⟩
                  ⟨Dir.left, G, RBTreeNodeColor.black, U⟩ ctx3
                  (CT.node sl x RBTreeNodeColor.red sr)
                  = plug ctx3 (CT.node (CT.node β P RBTreeNodeColor.red sl) x
                      RBTreeNodeColor.black (CT.node sr G RBTreeNodeColor.red U)) := by
                simp [raiTerm]
              have hbhX : CT.blackHeight (CT.node (CT.node β P RBTreeNodeColor.red sl) x
                  RBTreeNodeColor.black (CT.node sr G RBTreeNodeColor.red U))
                  = some (b + 1) :=
                blackHeight_node_iff.mpr ⟨b,
                  blackHeight_node_iff.mpr ⟨b, hsb, hbsl, by simp⟩,
                  blackHeight_node_iff.mpr ⟨b, hbsr, hUb, by simp⟩, by simp⟩
              have hredX : CT.redOk (CT.node (CT.node β P RBTreeNodeColor.red sl) x
                  RBTreeNodeColor.black (CT.node sr G RBTreeNodeColor.red U)) = true :=
                redOk_node_iff.mpr
                  ⟨redOk_node_iff.mpr ⟨hsr, hrsl, fun _ => ⟨hβtop, (htops rfl).1⟩⟩,
                   redOk_node_iff.mpr ⟨hrsr, hUr, fun _ => ⟨(htops rfl).2, hU'⟩⟩,
                   fun hc => RBTreeNodeColor.noConfusion hc⟩
              have hres := plug_rb ctx3 RBTreeNodeColor.black (b + 1) _ hgrest hbhX hredX rfl
              refine ⟨?_, ?_⟩
              · rw [hstep2]
                refine rbOk_intro (rootBlack_iff_top.mpr ?_) hres.1 hres.2.1
                by_cases hctx3 : ctx3 = []
                · subst hctx3; exact hres.2.2.1 rfl
                · exact hres.2.2.2 hctx3
              · rw [hstep2]
                refine (plug_ids_congr ?_).trans rfl
                simp [CT.ids, plug1]
            · -- right-right
              have hstep2 : raiTerm ⟨Dir.right, P, RBTreeNodeColor.red, β⟩
                  ⟨Dir.right, G, RBTreeNodeColor.black, U⟩ ctx3 s
                  = plug ctx3 (CT.node (CT.node U G RBTreeNodeColor.red β) P
                      RBTreeNodeColor.black s) := by
                simp [raiTerm]
              have hbhX : CT.blackHeight (CT.node (CT.node U G RBTreeNodeColor.red β) P
                  RBTreeNodeColor.black s) = some (b + 1) :=
                blackHeight_node_iff.mpr ⟨b,
                  blackHeight_node_iff.mpr ⟨b, hUb, hsb, by simp⟩, hbh, by simp⟩
              have hredX : CT.redOk (CT.node (CT.node U G RBTreeNodeColor.red β) P
                  RBTreeNodeColor.black s) = true :=
                redOk_node_iff.mpr
                  ⟨redOk_node_iff.mpr ⟨hUr, hsr, fun _ => ⟨hU', hβtop⟩⟩, hred,
                   fun hc => RBTreeNodeColor.noConfusion hc⟩
              have hres := plug_rb ctx3 RBTreeNodeColor.black (b + 1) _ hgrest hbhX hredX rfl
              refine ⟨?_, ?_⟩
              · rw [hstep2]
                refine rbOk_intro (rootBlack_iff_top.mpr ?_) hres.1 hres.2.1
                by_cases hctx3 : ctx3 = []
                · subst hctx3; exact hres.2.2.1 rfl
                · exact hres.2.2.2 hctx3
              · rw [hstep2]
                refine (plug_ids_congr ?_).trans rfl
                simp [CT.ids, plug1]


/-! ### Heap-frame lemmas for trees and contexts -/

theorem isTree_mono {h h' : Heap} : ∀ {t : CT} {pp : Ptr},
    (∀ j, j ∈ CT.ids t → hget h' j = hget h j) → IsTree h pp t → IsTree h' pp t := by
  intro t
  induction t with
  | nil => intro pp _ _; exact IsTree.nil pp
  | node l i c r ihl ihr =>
    intro pp hag hT
    cases hT with
    | node _ _ _ _ _ hp hl hr hc tl tr =>
    have hi : hget h' i = hget h i := hag i (by simp [CT.ids])
    exact IsTree.node pp l i c r (by rw [hi]; exact hp) (by rw [hi]; exact hl)
      (by rw [hi]; exact hr) (by rw [hi]; exact hc)
      (ihl (fun j hj => hag j (by simp [CT.ids, hj])) tl)
      (ihr (fun j hj => hag j (by simp [CT.ids, hj])) tr)

theorem isCtx_mono {h h' : Heap} : ∀ {ctx : Ctx} {sp pp : Ptr},
    (∀ j, j ∈ ctxIds ctx → hget h' j = hget h j) → IsCtx h ctx sp pp →
    IsCtx h' ctx sp pp := by
  intro ctx
  induction ctx with
  | nil => intro sp pp _ hC; cases hC; exact IsCtx.nil sp
  | cons fr ctx ih =>
    intro sp pp hag hC
    cases hC with
    | consL _ pid pc sib _ pp' hc hl hr hp hsib hrest =>
      have hi : hget h' pid = hget h pid := hag pid (by simp [ctxIds])
      exact IsCtx.consL ctx pid pc sib sp pp' (by rw [hi]; exact hc)
        (by rw [hi]; exact hl) (by rw [hi]; exact hr) (by rw [hi]; exact hp)
        (isTree_mono (fun j hj => hag j (by simp [ctxIds, hj])) hsib)
        (ih (fun j hj => hag j (by simp [ctxIds, hj])) hrest)
    | consR _ pid pc sib _ pp' hc hl hr hp hsib hrest =>
      have hi : hget h' pid = hget h pid := hag pid (by simp [ctxIds])
      exact IsCtx.consR ctx pid pc sib sp pp' (by rw [hi]; exact hc)
        (by rw [hi]; exact hl) (by rw [hi]; exact hr) (by rw [hi]; exact hp)
        (isTree_mono (fun j hj => hag j (by simp [ctxIds, hj])) hsib)
        (ih (fun j hj => hag j (by simp [ctxIds, hj])) hrest)

theorem mem_ctxIds_iff : ∀ (ctx : Ctx) (j : Nat),
    j ∈ ctxIds ctx ↔ j ∈ ctxL ctx ++ ctxR ctx := by
  intro ctx
  induction ctx with
  | nil => intro j; simp [ctxIds, ctxL, ctxR]
  | cons fr ctx ih =>
    intro j
    obtain ⟨d, pid, pc, sib⟩ := fr
    cases d
    · simp [ctxIds, ctxL, ctxR, ih j]
      tauto
    · simp [ctxIds, ctxL, ctxR, ih j]
      tauto

theorem isTree_plug_split {h : Heap} : ∀ {ctx : Ctx} {s : CT},
    IsTree h Ptr.null (plug ctx s) →
    ∃ pp, IsCtx h ctx (CT.rootPtr s) pp ∧ IsTree h pp s := by
  intro ctx
  induction ctx with
  | nil => intro s hT; exact ⟨Ptr.null, IsCtx.nil _, hT⟩
  | cons fr ctx ih =>
    intro s hT
    obtain ⟨pp1, hC1, hT1⟩ := ih (s := plug1 s fr) hT
    obtain ⟨d, pid, pc, sib⟩ := fr
    cases d with
    | left =>
      cases hT1 with
      | node _ _ _ _ _ hp hl hr hc tl tr =>
        exact ⟨Ptr.node pid, IsCtx.consL ctx pid pc sib _ pp1 hc hl hr hp tr hC1, tl⟩
    | right =>
      cases hT1 with
      | node _ _ _ _ _ hp hl hr hc tl tr =>
        exact ⟨Ptr.node pid, IsCtx.consR ctx pid pc sib _ pp1 hc hl hr hp tl hC1, tr⟩

theorem isTree_plug_join {h : Heap} : ∀ {ctx : Ctx} {s : CT} {pp : Ptr},
    IsCtx h ctx (CT.rootPtr s) pp → IsTree h pp s →
    IsTree h Ptr.null (plug ctx s) := by
  intro ctx
  induction ctx with
  | nil =>
    intro s pp hC hT
    cases hC
    exact hT
  | cons fr ctx ih =>
    intro s pp hC hT
    cases hC with
    | consL _ pid pc sib _ pp' hc hl hr hp hsib hrest =>
      exact ih (s := plug1 s ⟨Dir.left, pid, pc, sib⟩) hrest
        (IsTree.node pp' s pid pc sib hp hl hr hc hT hsib)
    | consR _ pid pc sib _ pp' hc hl hr hp hsib hrest =>
      exact ih (s := plug1 s ⟨Dir.right, pid, pc, sib⟩) hrest
        (IsTree.node pp' sib pid pc s hp hl hr hc hsib hT)

/-! ### Pointwise field-write lemmas and small helpers -/

theorem hget_psetParent_node (h : Heap) (i : Nat) (q : Ptr) (j : Nat) :
    hget (psetParent h (Ptr.node i) q) j
      = if j = i then { hget h i with parent := q } else hget h j := by
  simp [psetParent, pget_node, hget_pset, Ptr.node.injEq]

theorem hget_psetLeft_node (h : Heap) (i : Nat) (q : Ptr) (j : Nat) :
    hget (psetLeft h (Ptr.node i) q) j
      = if j = i then { hget h i with left_child := q } else hget h j := by
  simp [psetLeft, pget_node, hget_pset, Ptr.node.injEq]

theorem hget_psetRight_node (h : Heap) (i : Nat) (q : Ptr) (j : Nat) :
    hget (psetRight h (Ptr.node i) q) j
      = if j = i then { hget h i with right_child := q } else hget h j := by
  simp [psetRight, pget_node, hget_pset, Ptr.node.injEq]

theorem hget_psetColor_node (h : Heap) (i : Nat) (c : RBTreeNodeColor) (j : Nat) :
    hget (psetColor h (Ptr.node i) c) j
      = if j = i then { hget h i with color := c } else hget h j := by
  simp [psetColor, pget_node, hget_pset, Ptr.node.injEq]

theorem color_rootPtr_top {h : Heap} {pp : Ptr} {t : CT} (hT : IsTree h pp t) :
    color h (CT.rootPtr t) = CT.topColor t := by
  cases hT with
  | nil => rfl
  | node _ _ _ _ _ hp hl hr hc tl tr => simpa [color, CT.rootPtr, CT.topColor] using hc

theorem rootPtr_plug1 (s : CT) (fr : Frame) :
    CT.rootPtr (plug1 s fr) = Ptr.node fr.pid := by
  obtain ⟨d, pid, pc, sib⟩ := fr
  cases d <;> rfl

theorem rootPtr_plug_congr : ∀ (ctx : Ctx) {a b : CT}, CT.rootPtr a = CT.rootPtr b →
    CT.rootPtr (plug ctx a) = CT.rootPtr (plug ctx b) := by
  intro ctx
  induction ctx with
  | nil => intro a b h; exact h
  | cons fr ctx ih =>
    intro a b h
    exact ih ((rootPtr_plug1 a fr).trans (rootPtr_plug1 b fr).symm)

theorem rootPtr_recolorRoot (c : RBTreeNodeColor) (t : CT) :
    CT.rootPtr (recolorRoot c t) = CT.rootPtr t := by
  cases t <;> rfl

theorem isTree_psetColor_root {h : Heap} {pp : Ptr} {l r : CT} {i : Nat}
    {c : RBTreeNodeColor} (hT : IsTree h pp (CT.node l i c r))
    (hil : i ∉ CT.ids l) (hir : i ∉ CT.ids r) (c' : RBTreeNodeColor) :
    IsTree (psetColor h (Ptr.node i) c') pp (CT.node l i c' r) := by
  cases hT with
  | node _ _ _ _ _ hp hl hr hc tl tr =>
  have hi : hget (psetColor h (Ptr.node i) c') i = { hget h i with color := c' } := by
    rw [hget_psetColor_node, if_pos rfl]
  refine IsTree.node pp l i c' r (by rw [hi]; exact hp) (by rw [hi]; exact hl)
    (by rw [hi]; exact hr) (by rw [hi]) ?_ ?_
  · refine isTree_mono (fun j hj => ?_) tl
    rw [hget_psetColor_node]
    rw [if_neg (show ¬ j = i from fun hEq => hil (hEq ▸ hj))]
  · refine isTree_mono (fun j hj => ?_) tr
    rw [hget_psetColor_node]
    rw [if_neg (show ¬ j = i from fun hEq => hir (hEq ▸ hj))]

theorem isTree_psetColor_out {h : Heap} {pp : Ptr} {t : CT} {j : Nat}
    (hj : j ∉ CT.ids t) (hT : IsTree h pp t) (c : RBTreeNodeColor) :
    IsTree (psetColor h (Ptr.node j) c) pp t := by
  refine isTree_mono (fun a ha => ?_) hT
  rw [hget_psetColor_node]
  rw [if_neg (show ¬ a = j from fun hEq => hj (hEq ▸ ha))]

theorem isCtx_psetColor_out {h : Heap} {ctx : Ctx} {sp pp : Ptr} {j : Nat}
    (hj : j ∉ ctxIds ctx) (hC : IsCtx h ctx sp pp) (c : RBTreeNodeColor) :
    IsCtx (psetColor h (Ptr.node j) c) ctx sp pp := by
  refine isCtx_mono (fun a ha => ?_) hC
  rw [hget_psetColor_node]
  rw [if_neg (show ¬ a = j from fun hEq => hj (hEq ▸ ha))]

/-- Effect of `transplant st (node p) q` on heap and root, by the three
parent situations of `p`. -/
theorem transplant_effect {K A : Type} (st : St K A) (p : Nat) (q : Ptr) (pp : Ptr)
    (hpar : (hget st.heap p).parent = pp) :
    (pp = Ptr.null →
      transplant st (Ptr.node p) q
        = { st with root := q, heap := (psetParent st.heap q Ptr.null) }) ∧
    (∀ G0, pp = Ptr.node G0 → G0 ≠ p → (hget st.heap G0).left_child = Ptr.node p →
      transplant st (Ptr.node p) q
        = { st with heap := (psetParent (psetLeft st.heap (Ptr.node G0) q) q (Ptr.node G0)) }) ∧
    (∀ G0, pp = Ptr.node G0 → G0 ≠ p → (hget st.heap G0).left_child ≠ Ptr.node p →
      transplant st (Ptr.node p) q
        = { st with heap := (psetParent (psetRight st.heap (Ptr.node G0) q) q (Ptr.node G0)) }) := by
  refine ⟨?_, ?_, ?_⟩
  · intro hnull
    subst hnull
    unfold transplant
    rw [if_pos (show (pget st.heap (Ptr.node p)).parent = Ptr.null from by
      rw [pget_node]; exact hpar)]
    by_cases hq : q ≠ Ptr.null
    · rw [if_pos hq]
      rw [show (pget ({ st with root := q } : St K A).heap (Ptr.node p)).parent
          = Ptr.null from by rw [pget_node]; exact hpar]
    · rw [if_neg hq]
      push_neg at hq
      subst hq
      rfl
  · intro G0 hpp hne hslot
    subst hpp
    unfold transplant
    rw [show (pget st.heap (Ptr.node p)).parent = Ptr.node G0 from by
      rw [pget_node]; exact hpar]
    rw [if_neg (show ¬(Ptr.node G0 = Ptr.null) by simp)]
    rw [if_pos (show Ptr.node p = (pget st.heap (Ptr.node G0)).left_child from by
      rw [pget_node, hslot])]
    by_cases hq : q ≠ Ptr.null
    · rw [if_pos hq]
      rw [show (pget ({ st with heap := psetLeft st.heap (Ptr.node G0) q } : St K A).heap
          (Ptr.node p)).parent = Ptr.node G0 from by
        rw [pget_node, hget_psetLeft_node]
        rw [if_neg (show ¬ p = G0 from fun hEq => hne hEq.symm)]
        exact hpar]
    · rw [if_neg hq]
      push_neg at hq
      subst hq
      rfl
  · intro G0 hpp hne hslot
    subst hpp
    unfold transplant
    rw [show (pget st.heap (Ptr.node p)).parent = Ptr.node G0 from by
      rw [pget_node]; exact hpar]
    rw [if_neg (show ¬(Ptr.node G0 = Ptr.null) by simp)]
    rw [if_neg (show ¬(Ptr.node p = (pget st.heap (Ptr.node G0)).left_child) from by
      rw [pget_node]; exact fun hEq => hslot hEq.symm)]
    by_cases hq : q ≠ Ptr.null
    · rw [if_pos hq]
      rw [show (pget ({ st with heap := psetRight st.heap (Ptr.node G0) q } : St K A).heap
          (Ptr.node p)).parent = Ptr.node G0 from by
        rw [pget_node, hget_psetRight_node]
        rw [if_neg (show ¬ p = G0 from fun hEq => hne hEq.symm)]
        exact hpar]
    · rw [if_neg hq]
      push_neg at hq
      subst hq
      rfl

theorem plug_nodup_parts {ctx : Ctx} {s : CT} (hnd : (CT.ids (plug ctx s)).Nodup) :
    (CT.ids s).Nodup ∧ (∀ j ∈ CT.ids s, j ∉ ctxIds ctx) := by
  rw [plug_ids] at hnd
  constructor
  · exact hnd.of_append_left.of_append_right
  · intro j hj
    rw [mem_ctxIds_iff]
    intro hmem
    rcases List.mem_append.mp hmem with hmm | hmm
    · exact (List.disjoint_of_nodup_append hnd.of_append_left) hmm hj
    · exact (List.disjoint_of_nodup_append hnd)
        (List.mem_append_right _ hj) hmm

/-- Pointwise description of the heap after the post-`transplant` writes of
`rotate_left` at `p` (right child `g`, whose left child pointer is `pb`). -/
theorem rotl_heap_pointwise (h1 : Heap) (p g : Nat) (ppP pp pa pb pc2 : Ptr)
    (cp cg : RBTreeNodeColor) (hpg : p ≠ g)
    (hb : ∀ b0, pb = Ptr.node b0 → b0 ≠ p ∧ b0 ≠ g)
    (hp1 : hget h1 p = ⟨ppP, pa, Ptr.node g, cp⟩)
    (hg1 : hget h1 g = ⟨pp, pb, pc2, cg⟩) :
    ∀ j, hget (psetParent (psetLeft (psetParent
          (psetRight h1 (Ptr.node p) pb) pb (Ptr.node p))
          (Ptr.node g) (Ptr.node p)) (Ptr.node p) (Ptr.node g)) j
      = if j = p then ⟨Ptr.node g, pa, pb, cp⟩
        else if j = g then ⟨pp, Ptr.node p, pc2, cg⟩
        else if Ptr.node j = pb then { hget h1 j with parent := Ptr.node p }
        else hget h1 j := by
  have h2get : ∀ j, hget (psetRight h1 (Ptr.node p) pb) j
      = if j = p then ⟨ppP, pa, pb, cp⟩ else hget h1 j := by
    intro j
    rw [hget_psetRight_node]
    by_cases hj : j = p
    · subst hj; simp [hp1]
    · simp [hj]
  have h3get : ∀ j, hget (psetParent (psetRight h1 (Ptr.node p) pb) pb (Ptr.node p)) j
      = if j = p then ⟨ppP, pa, pb, cp⟩
        else if Ptr.node j = pb then { hget h1 j with parent := Ptr.node p }
        else hget h1 j := by
    intro j
    cases pb with
    | node b0 =>
      rw [hget_psetParent_node]
      by_cases hj : j = b0
      · subst hj
        rw [if_pos rfl, h2get, if_neg (hb j rfl).1, if_neg (hb j rfl).1]
        simp
      · rw [if_neg hj, h2get]
        by_cases hjp : j = p
        · simp [hjp]
        · simp [hjp, Ptr.node.injEq, hj]
    | null =>
      rw [show psetParent (psetRight h1 (Ptr.node p) Ptr.null) Ptr.null
        (Ptr.node p) = psetRight h1 (Ptr.node p) Ptr.null from rfl, h2get]
      by_cases hjp : j = p <;> simp [hjp]
    | poisonParent =>
      rw [show psetParent (psetRight h1 (Ptr.node p) Ptr.poisonParent)
        Ptr.poisonParent (Ptr.node p)
        = psetRight h1 (Ptr.node p) Ptr.poisonParent from rfl, h2get]
      by_cases hjp : j = p <;> simp [hjp]
    | poisonLeftChild =>
      rw [show psetParent (psetRight h1 (Ptr.node p) Ptr.poisonLeftChild)
        Ptr.poisonLeftChild (Ptr.node p)
        = psetRight h1 (Ptr.node p) Ptr.poisonLeftChild from rfl, h2get]
      by_cases hjp : j = p <;> simp [hjp]
    | poisonRightChild =>
      rw [show psetParent (psetRight h1 (Ptr.node p) Ptr.poisonRightChild)
        Ptr.poisonRightChild (Ptr.node p)
        = psetRight h1 (Ptr.node p) Ptr.poisonRightChild from rfl, h2get]
      by_cases hjp : j = p <;> simp [hjp]
  have h4get : ∀ j, hget (psetLeft (psetParent (psetRight h1 (Ptr.node p) pb) pb
      (Ptr.node p)) (Ptr.node g) (Ptr.node p)) j
      = if j = g then ⟨pp, Ptr.node p, pc2, cg⟩
        else if j = p then ⟨ppP, pa, pb, cp⟩
        else if Ptr.node j = pb then { hget h1 j with parent := Ptr.node p }
        else hget h1 j := by
    intro j
    rw [hget_psetLeft_node]
    by_cases hj : j = g
    · subst hj
      rw [if_pos rfl, if_pos rfl, h3get,
        if_neg (show ¬ j = p from fun hc => hpg hc.symm),
        if_neg (show ¬ Ptr.node j = pb from fun hc => (hb j hc.symm).2 rfl)]
      simp [hg1]
    · rw [if_neg hj, if_neg hj, h3get]
  intro j
  rw [hget_psetParent_node]
  by_cases hj : j = p
  · subst hj
    rw [if_pos rfl, h4get, if_neg (show ¬ j = g from hpg), if_pos rfl, if_pos rfl]
  · rw [if_neg hj, h4get]
    by_cases hjg : j = g
    · simp [hjg, show g ≠ p from fun hc => hj (hjg ▸ hc)]
    · simp [hjg, hj]

theorem rbnode_ext {v : RBTreeNode} {a b c : Ptr} {d : RBTreeNodeColor}
    (h1 : v.parent = a) (h2 : v.left_child = b) (h3 : v.right_child = c)
    (h4 : v.color = d) : v = ⟨a, b, c, d⟩ := by
  cases v
  simp_all

/-- `rotate_left` as transplant followed by the four link writes. -/
theorem rotate_left_eq {K A : Type} (st st1 : St K A) (p g : Nat) (pb : Ptr)
    (hpg : p ≠ g)
    (hrc : (pget st.heap (Ptr.node p)).right_child = Ptr.node g)
    (htp : transplant st (Ptr.node p) (Ptr.node g) = st1)
    (hgl : (hget st1.heap g).left_child = pb) :
    rotate_left st (Ptr.node p)
      = { st1 with heap := (psetParent (psetLeft (psetParent
          (psetRight st1.heap (Ptr.node p) pb) pb (Ptr.node p))
          (Ptr.node g) (Ptr.node p)) (Ptr.node p) (Ptr.node g)) } := by
  unfold rotate_left
  dsimp only
  rw [hrc, htp]
  rw [show (pget st1.heap (Ptr.node g)).left_child = pb from by
    rw [pget_node]; exact hgl]
  rw [show (pget ({ st1 with heap := (psetRight st1.heap (Ptr.node p) pb) } : St K A).heap
      (Ptr.node g)).left_child = pb from by
    rw [pget_node, hget_psetRight_node]
    rw [if_neg (show ¬ g = p from fun hc => hpg hc.symm)]
    exact hgl]
  by_cases hpb : pb ≠ Ptr.null
  · rw [if_pos hpb]
  · rw [if_neg hpb]
    push_neg at hpb
    subst hpb
    rfl

theorem ctxIds_perm : ∀ (ctx : Ctx), (ctxIds ctx).Perm (ctxL ctx ++ ctxR ctx) := by
  intro ctx
  induction ctx with
  | nil => simp [ctxIds, ctxL, ctxR]
  | cons fr ctx ih =>
    obtain ⟨d, pid, pc, sib⟩ := fr
    cases d
    · show ((pid :: CT.ids sib) ++ ctxIds ctx).Perm _
      refine ((ih.append_left _).trans ?_)
      show ((pid :: CT.ids sib) ++ (ctxL ctx ++ ctxR ctx)).Perm
        (ctxL ctx ++ ((pid :: CT.ids sib) ++ ctxR ctx))
      rw [← List.append_assoc, ← List.append_assoc]
      exact (show List.Perm ((pid :: CT.ids sib) ++ ctxL ctx)
        (ctxL ctx ++ (pid :: CT.ids sib)) from List.perm_append_comm).append_right _
    · show ((pid :: CT.ids sib) ++ ctxIds ctx).Perm _
      refine ((ih.append_left _).trans ?_)
      show ((pid :: CT.ids sib) ++ (ctxL ctx ++ ctxR ctx)).Perm
        ((ctxL ctx ++ (CT.ids sib ++ [pid])) ++ ctxR ctx)
      have h1 : ((pid :: CT.ids sib) ++ (ctxL ctx ++ ctxR ctx)).Perm
          (((pid :: CT.ids sib) ++ ctxL ctx) ++ ctxR ctx) := by
        rw [List.append_assoc]
      refine h1.trans ?_
      refine List.Perm.append_right _ ?_
      have h2 : ((pid :: CT.ids sib) ++ ctxL ctx).Perm
          (ctxL ctx ++ (pid :: CT.ids sib)) := List.perm_append_comm
      refine h2.trans (List.Perm.append_left _ ?_)
      have h3 : (pid :: CT.ids sib).Perm (CT.ids sib ++ [pid]) := by
        simpa using (show List.Perm ([pid] ++ CT.ids sib) (CT.ids sib ++ [pid])
          from List.perm_append_comm)
      exact h3

theorem plug_nodup_ctxIds {ctx : Ctx} {s : CT}
    (hnd : (CT.ids (plug ctx s)).Nodup) : (ctxIds ctx).Nodup := by
  rw [plug_ids] at hnd
  refine (ctxIds_perm ctx).nodup_iff.mpr ?_
  have h1 : (ctxL ctx ++ (CT.ids s ++ ctxR ctx)).Nodup := by
    rw [← List.append_assoc]
    exact hnd
  have h2 : (ctxL ctx).Nodup := h1.of_append_left
  have h3 : (ctxR ctx).Nodup := h1.of_append_right.of_append_right
  rw [List.nodup_append]
  refine ⟨h2, h3, ?_⟩
  intro a ha ha2
  exact (List.disjoint_of_nodup_append h1) ha (List.mem_append_right _ ha2)

/-- Rebuild the rotated subtree from the pointwise heap description of a left
rotation. -/
theorem rotl_rebuild {hOld h1 HF : Heap} {p g : Nat} {Al Bl Cl : CT}
    {cp cg : RBTreeNodeColor} {PP : Ptr}
    (hpt : ∀ j, hget HF j
      = if j = p then ⟨Ptr.node g, CT.rootPtr Al, CT.rootPtr Bl, cp⟩
        else if j = g then ⟨PP, Ptr.node p, CT.rootPtr Cl, cg⟩
        else if Ptr.node j = CT.rootPtr Bl then { hget h1 j with parent := Ptr.node p }
        else hget h1 j)
    (hag : ∀ j, j ∈ CT.ids (CT.node Al p cp (CT.node Bl g cg Cl)) →
      j ≠ p → j ≠ g → hget h1 j = hget hOld j)
    (tA : IsTree hOld (Ptr.node p) Al)
    (tB : IsTree hOld (Ptr.node g) Bl)
    (tC : IsTree hOld (Ptr.node g) Cl)
    (hndT : (CT.ids (CT.node Al p cp (CT.node Bl g cg Cl))).Nodup) :
    IsTree HF PP (CT.node (CT.node Al p cp Bl) g cg Cl) := by
  obtain ⟨hndA, hndR, hpA, hpR, hAR⟩ := nodup_node hndT
  obtain ⟨hndB, hndC, hgB, hgC, hBC⟩ := nodup_node hndR
  have hgmem : g ∈ CT.ids (CT.node Bl g cg Cl) := by simp [CT.ids]
  have hpg' : p ≠ g := fun hEq => hpR (hEq ▸ hgmem)
  have hgA : g ∉ CT.ids Al := fun hmem => hAR g hmem hgmem
  have hHFp : hget HF p = ⟨Ptr.node g, CT.rootPtr Al, CT.rootPtr Bl, cp⟩ := by
    rw [hpt p, if_pos rfl]
  have hHFg : hget HF g = ⟨PP, Ptr.node p, CT.rootPtr Cl, cg⟩ := by
    rw [hpt g, if_neg (show ¬ g = p from fun hc => hpg' hc.symm), if_pos rfl]
  have hAagree : ∀ j, j ∈ CT.ids Al → hget HF j = hget hOld j := by
    intro j hj
    have hjp : j ≠ p := fun hEq => hpA (hEq ▸ hj)
    have hjg : j ≠ g := fun hEq => hgA (hEq ▸ hj)
    have hjB : Ptr.node j ≠ CT.rootPtr Bl := by
      intro hEq
      have : j ∈ CT.ids Bl := rootPtr_mem hEq.symm
      exact hAR j hj (by simp [CT.ids, this])
    rw [hpt j, if_neg hjp, if_neg hjg, if_neg hjB]
    exact hag j (by simp [CT.ids, hj]) hjp hjg
  have hCagree : ∀ j, j ∈ CT.ids Cl → hget HF j = hget hOld j := by
    intro j hj
    have hjR : j ∈ CT.ids (CT.node Bl g cg Cl) := by
      simp only [CT.ids, List.mem_append, List.mem_cons]
      tauto
    have hjp : j ≠ p := fun hEq => hpR (hEq ▸ hjR)
    have hjg : j ≠ g := fun hEq => hgC (hEq ▸ hj)
    have hjB : Ptr.node j ≠ CT.rootPtr Bl := by
      intro hEq
      have hmem : j ∈ CT.ids Bl := rootPtr_mem hEq.symm
      exact hBC j hmem hj
    rw [hpt j, if_neg hjp, if_neg hjg, if_neg hjB]
    exact hag j (by simp [CT.ids, hj]) hjp hjg
  have hBtree : IsTree HF (Ptr.node p) Bl := by
    cases tB with
    | nil => exact IsTree.nil _
    | node _ bl b0 bc br hp2 hl2 hr2 hc2 tbl tbr =>
      have hb0B : b0 ∈ CT.ids (CT.node bl b0 bc br) := by simp [CT.ids]
      have hb0R : b0 ∈ CT.ids (CT.node (CT.node bl b0 bc br) g cg Cl) := by
        simp only [CT.ids, List.mem_append, List.mem_cons] at hb0B ⊢
        tauto
      have hb0p : b0 ≠ p := fun hEq => hpR (hEq ▸ hb0R)
      have hb0g : b0 ≠ g := fun hEq => hgB (hEq ▸ hb0B)
      obtain ⟨hndbl, hndbr, hb0l, hb0r, hblbr⟩ := nodup_node hndB
      have hb0rec : hget HF b0 = { hget hOld b0 with parent := Ptr.node p } := by
        rw [hpt b0, if_neg hb0p, if_neg hb0g,
          if_pos (show Ptr.node b0 = CT.rootPtr (CT.node bl b0 bc br) from rfl),
          hag b0 (by simp [CT.ids]) hb0p hb0g]
      have hsubagree : ∀ j, j ∈ CT.ids bl ∨ j ∈ CT.ids br → hget HF j = hget hOld j := by
        intro j hj
        have hjmem : j ∈ CT.ids (CT.node bl b0 bc br) := by
          simp only [CT.ids, List.mem_append, List.mem_cons]
          tauto
        have hjR : j ∈ CT.ids (CT.node (CT.node bl b0 bc br) g cg Cl) := by
          simp only [CT.ids, List.mem_append, List.mem_cons] at hjmem ⊢
          tauto
        have hjp : j ≠ p := fun hEq => hpR (hEq ▸ hjR)
        have hjg : j ≠ g := fun hEq => hgB (hEq ▸ hjmem)
        have hjb0 : Ptr.node j ≠ CT.rootPtr (CT.node bl b0 bc br) := by
          simp only [CT.rootPtr, ne_eq, Ptr.node.injEq]
          rcases hj with hj | hj
          · exact fun hEq => hb0l (hEq ▸ hj)
          · exact fun hEq => hb0r (hEq ▸ hj)
        rw [hpt j, if_neg hjp, if_neg hjg, if_neg hjb0]
        refine hag j ?_ hjp hjg
        simp only [CT.ids, List.mem_append, List.mem_cons] at hjR ⊢
        tauto
      refine IsTree.node _ bl b0 bc br ?_ ?_ ?_ ?_ ?_ ?_
      · rw [hb0rec]
      · rw [hb0rec]; exact hl2
      · rw [hb0rec]; exact hr2
      · rw [hb0rec]; exact hc2
      · exact isTree_mono (fun j hj => hsubagree j (Or.inl hj)) tbl
      · exact isTree_mono (fun j hj => hsubagree j (Or.inr hj)) tbr
  refine IsTree.node PP (CT.node Al p cp Bl) g cg Cl ?_ ?_ ?_ ?_ ?_ ?_
  · rw [hHFg]
  · rw [hHFg]; rfl
  · rw [hHFg]
  · rw [hHFg]
  · refine IsTree.node (Ptr.node g) Al p cp Bl ?_ ?_ ?_ ?_ ?_ ?_
    · rw [hHFp]
    · rw [hHFp]
    · rw [hHFp]
    · rw [hHFp]
    · exact isTree_mono hAagree tA
    · exact hBtree
  · exact isTree_mono hCagree tC

/-- Full effect of `rotate_left` at `p` (right child `g`) inside a context:
the heap then realizes the rotated subtree in the same context, the root
field updates exactly when the context is empty, and the scalar fields are
unchanged. -/
theorem rotate_left_effect {K A : Type} (st : St K A) (ctx : Ctx) (pp : Ptr)
    (Al Bl Cl : CT) (p g : Nat) (cp cg : RBTreeNodeColor)
    (hC : IsCtx st.heap ctx (Ptr.node p) pp)
    (hT : IsTree st.heap pp (CT.node Al p cp (CT.node Bl g cg Cl)))
    (hroot : st.root = CT.rootPtr (plug ctx (CT.node Al p cp (CT.node Bl g cg Cl))))
    (hnd : (CT.ids (plug ctx (CT.node Al p cp (CT.node Bl g cg Cl)))).Nodup) :
    IsCtx (rotate_left st (Ptr.node p)).heap ctx (Ptr.node g) pp ∧
    IsTree (rotate_left st (Ptr.node p)).heap pp
      (CT.node (CT.node Al p cp Bl) g cg Cl) ∧
    (rotate_left st (Ptr.node p)).root
      = CT.rootPtr (plug ctx (CT.node (CT.node Al p cp Bl) g cg Cl)) ∧
    (rotate_left st (Ptr.node p)).compare = st.compare ∧
    (rotate_left st (Ptr.node p)).collide = st.collide ∧
    (rotate_left st (Ptr.node p)).auxiliary_data = st.auxiliary_data ∧
    (rotate_left st (Ptr.node p)).size = st.size := by
  obtain ⟨hndT, hdisj⟩ := plug_nodup_parts hnd
  have hndCtx := plug_nodup_ctxIds hnd
  cases hT with
  | node _ _ _ _ _ hpP hlP hrP hcP tA tG =>
  cases tG with
  | node _ _ _ _ _ hpg2 hlg hrg hcg tB tC =>
  obtain ⟨hndA, hndR, hpA, hpR, hAR⟩ := nodup_node hndT
  obtain ⟨hndB, hndC, hgB, hgC, hBC⟩ := nodup_node hndR
  have hgmem : g ∈ CT.ids (CT.node Bl g cg Cl) := by simp [CT.ids]
  have hpg' : p ≠ g := fun hEq => hpR (hEq ▸ hgmem)
  have hpT : p ∈ CT.ids (CT.node Al p cp (CT.node Bl g cg Cl)) := by simp [CT.ids]
  have hgT : g ∈ CT.ids (CT.node Al p cp (CT.node Bl g cg Cl)) := by
    simp [CT.ids]
  have hprec : hget st.heap p = ⟨pp, CT.rootPtr Al, Ptr.node g, cp⟩ :=
    rbnode_ext hpP hlP (hrP.trans rfl) hcP
  have hgrec : hget st.heap g = ⟨Ptr.node p, CT.rootPtr Bl, CT.rootPtr Cl, cg⟩ :=
    rbnode_ext hpg2 hlg hrg hcg
  have hb : ∀ b0, CT.rootPtr Bl = Ptr.node b0 → b0 ≠ p ∧ b0 ≠ g := by
    intro b0 hb0
    have hmem : b0 ∈ CT.ids Bl := rootPtr_mem hb0
    refine ⟨fun hEq => hpR ?_, fun hEq => hgB (hEq ▸ hmem)⟩
    subst hEq
    simp only [CT.ids, List.mem_append, List.mem_cons]
    tauto
  have hbT : ∀ b0, CT.rootPtr Bl = Ptr.node b0 →
      b0 ∈ CT.ids (CT.node Al p cp (CT.node Bl g cg Cl)) := by
    intro b0 hb0
    have hmem : b0 ∈ CT.ids Bl := rootPtr_mem hb0
    simp only [CT.ids, List.mem_append, List.mem_cons]
    tauto
  have hrc : (pget st.heap (Ptr.node p)).right_child = Ptr.node g := by
    rw [pget_node]
    exact hrP.trans rfl
  cases hC with
  | nil =>
    have hst1 := (transplant_effect st p (Ptr.node g) Ptr.null hpP).1 rfl
    have hg1 : hget (psetParent st.heap (Ptr.node g) Ptr.null) g
        = ⟨Ptr.null, CT.rootPtr Bl, CT.rootPtr Cl, cg⟩ := by
      rw [hget_psetParent_node, if_pos rfl, hgrec]
    have hp1 : hget (psetParent st.heap (Ptr.node g) Ptr.null) p
        = ⟨Ptr.null, CT.rootPtr Al, Ptr.node g, cp⟩ := by
      rw [hget_psetParent_node, if_neg hpg', hprec]
    have heq := rotate_left_eq st
      { st with root := Ptr.node g, heap := (psetParent st.heap (Ptr.node g) Ptr.null) }
      p g (CT.rootPtr Bl) hpg' hrc hst1
      (by show (hget (psetParent st.heap (Ptr.node g) Ptr.null) g).left_child = _
          rw [hg1])
    have hpt := rotl_heap_pointwise (psetParent st.heap (Ptr.node g) Ptr.null) p g
      Ptr.null Ptr.null (CT.rootPtr Al) (CT.rootPtr Bl) (CT.rootPtr Cl) cp cg
      hpg' hb hp1 hg1
    have hag : ∀ j, j ∈ CT.ids (CT.node Al p cp (CT.node Bl g cg Cl)) →
        j ≠ p → j ≠ g →
        hget (psetParent st.heap (Ptr.node g) Ptr.null) j = hget st.heap j := by
      intro j _ _ hjg
      rw [hget_psetParent_node, if_neg hjg]
    have hTnew := rotl_rebuild hpt hag tA tB tC hndT
    rw [heq]
    exact ⟨IsCtx.nil _, hTnew, rfl, rfl, rfl, rfl, rfl⟩
  | consL ctx' G0 pc0 sib0 _ pp' hc0 hl0 hr0 hp0 hsib0 hrest =>
    have hG0mem : G0 ∈ ctxIds (⟨Dir.left, G0, pc0, sib0⟩ :: ctx') := by
      simp [ctxIds]
    have hpG0 : G0 ≠ p := fun hEq => hdisj p hpT (hEq ▸ hG0mem)
    have hgG0 : g ≠ G0 := fun hEq => hdisj g hgT (hEq ▸ hG0mem)
    have hst1 := (transplant_effect st p (Ptr.node g) (Ptr.node G0) hpP).2.1 G0 rfl
      hpG0 hl0
    have hg1 : hget (psetParent (psetLeft st.heap (Ptr.node G0) (Ptr.node g))
        (Ptr.node g) (Ptr.node G0)) g
        = ⟨Ptr.node G0, CT.rootPtr Bl, CT.rootPtr Cl, cg⟩ := by
      rw [hget_psetParent_node, if_pos rfl, hget_psetLeft_node, if_neg hgG0, hgrec]
    have hp1 : hget (psetParent (psetLeft st.heap (Ptr.node G0) (Ptr.node g))
        (Ptr.node g) (Ptr.node G0)) p
        = ⟨Ptr.node G0, CT.rootPtr Al, Ptr.node g, cp⟩ := by
      rw [hget_psetParent_node, if_neg hpg', hget_psetLeft_node,
        if_neg (show ¬ p = G0 from fun hEq => hpG0 hEq.symm), hprec]
    have heq := rotate_left_eq st
      { st with heap := (psetParent (psetLeft st.heap (Ptr.node G0) (Ptr.node g))
          (Ptr.node g) (Ptr.node G0)) }
      p g (CT.rootPtr Bl) hpg' hrc hst1
      (by show (hget (psetParent (psetLeft st.heap (Ptr.node G0) (Ptr.node g))
            (Ptr.node g) (Ptr.node G0)) g).left_child = _
          rw [hg1])
    have hpt := rotl_heap_pointwise _ p g (Ptr.node G0) (Ptr.node G0)
      (CT.rootPtr Al) (CT.rootPtr Bl) (CT.rootPtr Cl) cp cg hpg' hb hp1 hg1
    have hag : ∀ j, j ∈ CT.ids (CT.node Al p cp (CT.node Bl g cg Cl)) →
        j ≠ p → j ≠ g →
        hget (psetParent (psetLeft st.heap (Ptr.node G0) (Ptr.node g))
          (Ptr.node g) (Ptr.node G0)) j = hget st.heap j := by
      intro j hjmem _ hjg
      have hjG0 : j ≠ G0 := fun hEq => hdisj j hjmem (hEq ▸ hG0mem)
      rw [hget_psetParent_node, if_neg hjg, hget_psetLeft_node, if_neg hjG0]
    have hTnew := rotl_rebuild hpt hag tA tB tC hndT
    -- untouched part of the context
    obtain ⟨hG0nin, hndtail⟩ := List.nodup_cons.mp (show (G0 :: (CT.ids sib0
        ++ ctxIds ctx')).Nodup from hndCtx)
    have hagOut : ∀ j, j ∈ CT.ids sib0 ++ ctxIds ctx' →
        hget (psetParent (psetLeft (psetParent
          (psetRight (psetParent (psetLeft st.heap (Ptr.node G0) (Ptr.node g))
            (Ptr.node g) (Ptr.node G0)) (Ptr.node p) (CT.rootPtr Bl))
          (CT.rootPtr Bl) (Ptr.node p)) (Ptr.node g) (Ptr.node p))
          (Ptr.node p) (Ptr.node g)) j = hget st.heap j := by
      intro j hjmem
      have hjin : j ∈ ctxIds (⟨Dir.left, G0, pc0, sib0⟩ :: ctx') := by
        simp only [ctxIds, List.mem_cons, List.mem_append] at hjmem ⊢
        tauto
      have hjp : j ≠ p := fun hEq => hdisj p hpT (hEq ▸ hjin)
      have hjg : j ≠ g := fun hEq => hdisj g hgT (hEq ▸ hjin)
      have hjG0 : j ≠ G0 := fun hEq => hG0nin (hEq ▸ hjmem)
      have hjB : Ptr.node j ≠ CT.rootPtr Bl := by
        intro hEq
        exact hdisj j (hbT j hEq.symm) hjin
      rw [hpt j, if_neg hjp, if_neg hjg, if_neg hjB,
        hget_psetParent_node, if_neg hjg, hget_psetLeft_node, if_neg hjG0]
    have hG0F : hget (psetParent (psetLeft (psetParent
        (psetRight (psetParent (psetLeft st.heap (Ptr.node G0) (Ptr.node g))
          (Ptr.node g) (Ptr.node G0)) (Ptr.node p) (CT.rootPtr Bl))
        (CT.rootPtr Bl) (Ptr.node p)) (Ptr.node g) (Ptr.node p))
        (Ptr.node p) (Ptr.node g)) G0
        = { hget st.heap G0 with left_child := Ptr.node g } := by
      have hG0B : Ptr.node G0 ≠ CT.rootPtr Bl := by
        intro hEq
        exact hdisj G0 (hbT G0 hEq.symm) hG0mem
      rw [hpt G0, if_neg hpG0, if_neg (show ¬ G0 = g from fun hEq => hgG0 hEq.symm),
        if_neg hG0B, hget_psetParent_node,
        if_neg (show ¬ G0 = g from fun hEq => hgG0 hEq.symm),
        hget_psetLeft_node, if_pos rfl]
    have hCnew : IsCtx (psetParent (psetLeft (psetParent
        (psetRight (psetParent (psetLeft st.heap (Ptr.node G0) (Ptr.node g))
          (Ptr.node g) (Ptr.node G0)) (Ptr.node p) (CT.rootPtr Bl))
        (CT.rootPtr Bl) (Ptr.node p)) (Ptr.node g) (Ptr.node p))
        (Ptr.node p) (Ptr.node g))
        (⟨Dir.left, G0, pc0, sib0⟩ :: ctx') (Ptr.node g) (Ptr.node G0) := by
      refine IsCtx.consL ctx' G0 pc0 sib0 (Ptr.node g) pp' ?_ ?_ ?_ ?_ ?_ ?_
      · rw [hG0F]; exact hc0
      · rw [hG0F]
      · rw [hG0F]; exact hr0
      · rw [hG0F]; exact hp0
      · exact isTree_mono (fun j hj => hagOut j (List.mem_append_left _ hj)) hsib0
      · exact isCtx_mono (fun j hj => hagOut j (List.mem_append_right _ hj)) hrest
    rw [heq]
    refine ⟨hCnew, hTnew, ?_, rfl, rfl, rfl, rfl⟩
    show st.root = _
    rw [hroot]
    show CT.rootPtr (plug ctx' (plug1 (CT.node Al p cp (CT.node Bl g cg Cl))
      ⟨Dir.left, G0, pc0, sib0⟩)) = CT.rootPtr (plug ctx'
      (plug1 (CT.node (CT.node Al p cp Bl) g cg Cl) ⟨Dir.left, G0, pc0, sib0⟩))
    exact rootPtr_plug_congr ctx' ((rootPtr_plug1 _ _).trans (rootPtr_plug1 _ _).symm)
  | consR ctx' G0 pc0 sib0 _ pp' hc0 hl0 hr0 hp0 hsib0 hrest =>
    have hG0mem : G0 ∈ ctxIds (⟨Dir.right, G0, pc0, sib0⟩ :: ctx') := by
      simp [ctxIds]
    have hpG0 : G0 ≠ p := fun hEq => hdisj p hpT (hEq ▸ hG0mem)
    have hgG0 : g ≠ G0 := fun hEq => hdisj g hgT (hEq ▸ hG0mem)
    have hslotne : (hget st.heap G0).left_child ≠ Ptr.node p := by
      rw [hl0]
      intro hEq
      have hmem : p ∈ CT.ids sib0 := rootPtr_mem hEq
      exact hdisj p hpT (by simp only [ctxIds, List.mem_cons, List.mem_append]; tauto)
    have hst1 := (transplant_effect st p (Ptr.node g) (Ptr.node G0) hpP).2.2 G0 rfl
      hpG0 hslotne
    have hg1 : hget (psetParent (psetRight st.heap (Ptr.node G0) (Ptr.node g))
        (Ptr.node g) (Ptr.node G0)) g
        = ⟨Ptr.node G0, CT.rootPtr Bl, CT.rootPtr Cl, cg⟩ := by
      rw [hget_psetParent_node, if_pos rfl, hget_psetRight_node, if_neg hgG0, hgrec]
    have hp1 : hget (psetParent (psetRight st.heap (Ptr.node G0) (Ptr.node g))
        (Ptr.node g) (Ptr.node G0)) p
        = ⟨Ptr.node G0, CT.rootPtr Al, Ptr.node g, cp⟩ := by
      rw [hget_psetParent_node, if_neg hpg', hget_psetRight_node,
        if_neg (show ¬ p = G0 from fun hEq => hpG0 hEq.symm), hprec]
    have heq := rotate_left_eq st
      { st with heap := (psetParent (psetRight st.heap (Ptr.node G0) (Ptr.node g))
          (Ptr.node g) (Ptr.node G0)) }
      p g (CT.rootPtr Bl) hpg' hrc hst1
      (by show (hget (psetParent (psetRight st.heap (Ptr.node G0) (Ptr.node g))
            (Ptr.node g) (Ptr.node G0)) g).left_child = _
          rw [hg1])
    have hpt := rotl_heap_pointwise _ p g (Ptr.node G0) (Ptr.node G0)
      (CT.rootPtr Al) (CT.rootPtr Bl) (CT.rootPtr Cl) cp cg hpg' hb hp1 hg1
    have hag : ∀ j, j ∈ CT.ids (CT.node Al p cp (CT.node Bl g cg Cl)) →
        j ≠ p → j ≠ g →
        hget (psetParent (psetRight st.heap (Ptr.node G0) (Ptr.node g))
          (Ptr.node g) (Ptr.node G0)) j = hget st.heap j := by
      intro j hjmem _ hjg
      have hjG0 : j ≠ G0 := fun hEq => hdisj j hjmem (hEq ▸ hG0mem)
      rw [hget_psetParent_node, if_neg hjg, hget_psetRight_node, if_neg hjG0]
    have hTnew := rotl_rebuild hpt hag tA tB tC hndT
    obtain ⟨hG0nin, hndtail⟩ := List.nodup_cons.mp (show (G0 :: (CT.ids sib0
        ++ ctxIds ctx')).Nodup from hndCtx)
    have hagOut : ∀ j, j ∈ CT.ids sib0 ++ ctxIds ctx' →
        hget (psetParent (psetLeft (psetParent
          (psetRight (psetParent (psetRight st.heap (Ptr.node G0) (Ptr.node g))
            (Ptr.node g) (Ptr.node G0)) (Ptr.node p) (CT.rootPtr Bl))
          (CT.rootPtr Bl) (Ptr.node p)) (Ptr.node g) (Ptr.node p))
          (Ptr.node p) (Ptr.node g)) j = hget st.heap j := by
      intro j hjmem
      have hjin : j ∈ ctxIds (⟨Dir.right, G0, pc0, sib0⟩ :: ctx') := by
        simp only [ctxIds, List.mem_cons, List.mem_append] at hjmem ⊢
        tauto
      have hjp : j ≠ p := fun hEq => hdisj p hpT (hEq ▸ hjin)
      have hjg : j ≠ g := fun hEq => hdisj g hgT (hEq ▸ hjin)
      have hjG0 : j ≠ G0 := fun hEq => hG0nin (hEq ▸ hjmem)
      have hjB : Ptr.node j ≠ CT.rootPtr Bl := by
        intro hEq
        exact hdisj j (hbT j hEq.symm) hjin
      rw [hpt j, if_neg hjp, if_neg hjg, if_neg hjB,
        hget_psetParent_node, if_neg hjg, hget_psetRight_node, if_neg hjG0]
    have hG0F : hget (psetParent (psetLeft (psetParent
        (psetRight (psetParent (psetRight st.heap (Ptr.node G0) (Ptr.node g))
          (Ptr.node g) (Ptr.node G0)) (Ptr.node p) (CT.rootPtr Bl))
        (CT.rootPtr Bl) (Ptr.node p)) (Ptr.node g) (Ptr.node p))
        (Ptr.node p) (Ptr.node g)) G0
        = { hget st.heap G0 with right_child := Ptr.node g } := by
      have hG0B : Ptr.node G0 ≠ CT.rootPtr Bl := by
        intro hEq
        exact hdisj G0 (hbT G0 hEq.symm) hG0mem
      rw [hpt G0, if_neg hpG0, if_neg (show ¬ G0 = g from fun hEq => hgG0 hEq.symm),
        if_neg hG0B, hget_psetParent_node,
        if_neg (show ¬ G0 = g from fun hEq => hgG0 hEq.symm),
        hget_psetRight_node, if_pos rfl]
    have hCnew : IsCtx (psetParent (psetLeft (psetParent
        (psetRight (psetParent (psetRight st.heap (Ptr.node G0) (Ptr.node g))
          (Ptr.node g) (Ptr.node G0)) (Ptr.node p) (CT.rootPtr Bl))
        (CT.rootPtr Bl) (Ptr.node p)) (Ptr.node g) (Ptr.node p))
        (Ptr.node p) (Ptr.node g))
        (⟨Dir.right, G0, pc0, sib0⟩ :: ctx') (Ptr.node g) (Ptr.node G0) := by
      refine IsCtx.consR ctx' G0 pc0 sib0 (Ptr.node g) pp' ?_ ?_ ?_ ?_ ?_ ?_
      · rw [hG0F]; exact hc0
      · rw [hG0F]; exact hl0
      · rw [hG0F]
      · rw [hG0F]; exact hp0
      · exact isTree_mono (fun j hj => hagOut j (List.mem_append_left _ hj)) hsib0
      · exact isCtx_mono (fun j hj => hagOut j (List.mem_append_right _ hj)) hrest
    rw [heq]
    refine ⟨hCnew, hTnew, ?_, rfl, rfl, rfl, rfl⟩
    show st.root = _
    rw [hroot]
    show CT.rootPtr (plug ctx' (plug1 (CT.node Al p cp (CT.node Bl g cg Cl))
      ⟨Dir.right, G0, pc0, sib0⟩)) = CT.rootPtr (plug ctx'
      (plug1 (CT.node (CT.node Al p cp Bl) g cg Cl) ⟨Dir.right, G0, pc0, sib0⟩))
    exact rootPtr_plug_congr ctx' ((rootPtr_plug1 _ _).trans (rootPtr_plug1 _ _).symm)

theorem rotr_heap_pointwise (h1 : Heap) (g p : Nat) (ppG pp pa pb pc2 : Ptr)
    (cg cp : RBTreeNodeColor) (hgp : g ≠ p)
    (hb : ∀ b0, pb = Ptr.node b0 → b0 ≠ g ∧ b0 ≠ p)
    (hg1 : hget h1 g = ⟨ppG, Ptr.node p, pc2, cg⟩)
    (hp1 : hget h1 p = ⟨pp, pa, pb, cp⟩) :
    ∀ j, hget (psetParent (psetRight (psetParent
          (psetLeft h1 (Ptr.node g) pb) pb (Ptr.node g))
          (Ptr.node p) (Ptr.node g)) (Ptr.node g) (Ptr.node p)) j
      = if j = g then ⟨Ptr.node p, pb, pc2, cg⟩
        else if j = p then ⟨pp, pa, Ptr.node g, cp⟩
        else if Ptr.node j = pb then { hget h1 j with parent := Ptr.node g }
        else hget h1 j := by
  have h2get : ∀ j, hget (psetLeft h1 (Ptr.node g) pb) j
      = if j = g then ⟨ppG, pb, pc2, cg⟩ else hget h1 j := by
    intro j
    rw [hget_psetLeft_node]
    by_cases hj : j = g
    · subst hj; simp [hg1]
    · simp [hj]
  have h3get : ∀ j, hget (psetParent (psetLeft h1 (Ptr.node g) pb) pb (Ptr.node g)) j
      = if j = g then ⟨ppG, pb, pc2, cg⟩
        else if Ptr.node j = pb then { hget h1 j with parent := Ptr.node g }
        else hget h1 j := by
    intro j
    cases pb with
    | node b0 =>
      rw [hget_psetParent_node]
      by_cases hj : j = b0
      · subst hj
        rw [if_pos rfl, h2get, if_neg (hb j rfl).1, if_neg (hb j rfl).1]
        simp
      · rw [if_neg hj, h2get]
        by_cases hjg : j = g
        · simp [hjg]
        · simp [hjg, Ptr.node.injEq, hj]
    | null =>
      rw [show psetParent (psetLeft h1 (Ptr.node g) Ptr.null) Ptr.null
        (Ptr.node g) = psetLeft h1 (Ptr.node g) Ptr.null from rfl, h2get]
      by_cases hjg : j = g <;> simp [hjg]
    | poisonParent =>
      rw [show psetParent (psetLeft h1 (Ptr.node g) Ptr.poisonParent)
        Ptr.poisonParent (Ptr.node g)
        = psetLeft h1 (Ptr.node g) Ptr.poisonParent from rfl, h2get]
      by_cases hjg : j = g <;> simp [hjg]
    | poisonLeftChild =>
      rw [show psetParent (psetLeft h1 (Ptr.node g) Ptr.poisonLeftChild)
        Ptr.poisonLeftChild (Ptr.node g)
        = psetLeft h1 (Ptr.node g) Ptr.poisonLeftChild from rfl, h2get]
      by_cases hjg : j = g <;> simp [hjg]
    | poisonRightChild =>
      rw [show psetParent (psetLeft h1 (Ptr.node g) Ptr.poisonRightChild)
        Ptr.poisonRightChild (Ptr.node g)
        = psetLeft h1 (Ptr.node g) Ptr.poisonRightChild from rfl, h2get]
      by_cases hjg : j = g <;> simp [hjg]
  have h4get : ∀ j, hget (psetRight (psetParent (psetLeft h1 (Ptr.node g) pb) pb
      (Ptr.node g)) (Ptr.node p) (Ptr.node g)) j
      = if j = p then ⟨pp, pa, Ptr.node g, cp⟩
        else if j = g then ⟨ppG, pb, pc2, cg⟩
        else if Ptr.node j = pb then { hget h1 j with parent := Ptr.node g }
        else hget h1 j := by
    intro j
    rw [hget_psetRight_node]
    by_cases hj : j = p
    · subst hj
      rw [if_pos rfl, if_pos rfl, h3get,
        if_neg (show ¬ j = g from fun hc => hgp hc.symm),
        if_neg (show ¬ Ptr.node j = pb from fun hc => (hb j hc.symm).2 rfl)]
      simp [hp1]
    · rw [if_neg hj, if_neg hj, h3get]
  intro j
  rw [hget_psetParent_node]
  by_cases hj : j = g
  · subst hj
    rw [if_pos rfl, h4get, if_neg (show ¬ j = p from hgp), if_pos rfl, if_pos rfl]
  · rw [if_neg hj, h4get]
    by_cases hjp : j = p
    · simp [hjp, show p ≠ g from fun hc => hj (hjp ▸ hc)]
    · simp [hjp, hj]

/-- `rotate_right` as transplant followed by the four link writes. -/
theorem rotate_right_eq {K A : Type} (st st1 : St K A) (g p : Nat) (pb : Ptr)
    (hgp : g ≠ p)
    (hlc : (pget st.heap (Ptr.node g)).left_child = Ptr.node p)
    (htp : transplant st (Ptr.node g) (Ptr.node p) = st1)
    (hpr : (hget st1.heap p).right_child = pb) :
    rotate_right st (Ptr.node g)
      = { st1 with heap := (psetParent (psetRight (psetParent
          (psetLeft st1.heap (Ptr.node g) pb) pb (Ptr.node g))
          (Ptr.node p) (Ptr.node g)) (Ptr.node g) (Ptr.node p)) } := by
  unfold rotate_right
  dsimp only
  rw [hlc, htp]
  rw [show (pget st1.heap (Ptr.node p)).right_child = pb from by
    rw [pget_node]; exact hpr]
  rw [show (pget ({ st1 with heap := (psetLeft st1.heap (Ptr.node g) pb) } : St K A).heap
      (Ptr.node p)).right_child = pb from by
    rw [pget_node, hget_psetLeft_node]
    rw [if_neg (show ¬ p = g from fun hc => hgp hc.symm)]
    exact hpr]
  by_cases hpb : pb ≠ Ptr.null
  · rw [if_pos hpb]
  · rw [if_neg hpb]
    push_neg at hpb
    subst hpb
    rfl

/-- Rebuild the rotated subtree from the pointwise heap description of a right
rotation. -/
theorem rotr_rebuild {hOld h1 HF : Heap} {g p : Nat} {Al Bl Cl : CT}
    {cg cp : RBTreeNodeColor} {PP : Ptr}
    (hpt : ∀ j, hget HF j
      = if j = g then ⟨Ptr.node p, CT.rootPtr Bl, CT.rootPtr Cl, cg⟩
        else if j = p then ⟨PP, CT.rootPtr Al, Ptr.node g, cp⟩
        else if Ptr.node j = CT.rootPtr Bl then { hget h1 j with parent := Ptr.node g }
        else hget h1 j)
    (hag : ∀ j, j ∈ CT.ids (CT.node (CT.node Al p cp Bl) g cg Cl) →
      j ≠ g → j ≠ p → hget h1 j = hget hOld j)
    (tA : IsTree hOld (Ptr.node p) Al)
    (tB : IsTree hOld (Ptr.node p) Bl)
    (tC : IsTree hOld (Ptr.node g) Cl)
    (hndT : (CT.ids (CT.node (CT.node Al p cp Bl) g cg Cl)).Nodup) :
    IsTree HF PP (CT.node Al p cp (CT.node Bl g cg Cl)) := by
  obtain ⟨hndL, hndC, hgL, hgC, hLC⟩ := nodup_node hndT
  obtain ⟨hndA, hndB, hpA, hpB, hAB⟩ := nodup_node hndL
  have hpmem : p ∈ CT.ids (CT.node Al p cp Bl) := by simp [CT.ids]
  have hgp' : g ≠ p := fun hEq => hgL (hEq ▸ hpmem)
  have hpC : p ∉ CT.ids Cl := hLC p hpmem
  have hHFg : hget HF g = ⟨Ptr.node p, CT.rootPtr Bl, CT.rootPtr Cl, cg⟩ := by
    rw [hpt g, if_pos rfl]
  have hHFp : hget HF p = ⟨PP, CT.rootPtr Al, Ptr.node g, cp⟩ := by
    rw [hpt p, if_neg (show ¬ p = g from fun hc => hgp' hc.symm), if_pos rfl]
  have hAagree : ∀ j, j ∈ CT.ids Al → hget HF j = hget hOld j := by
    intro j hj
    have hjL : j ∈ CT.ids (CT.node Al p cp Bl) := by
      simp only [CT.ids, List.mem_append, List.mem_cons]
      tauto
    have hjp : j ≠ p := fun hEq => hpA (hEq ▸ hj)
    have hjg : j ≠ g := fun hEq => hgL (hEq ▸ hjL)
    have hjB : Ptr.node j ≠ CT.rootPtr Bl := by
      intro hEq
      have : j ∈ CT.ids Bl := rootPtr_mem hEq.symm
      exact hAB j hj this
    rw [hpt j, if_neg hjg, if_neg hjp, if_neg hjB]
    refine hag j ?_ hjg hjp
    simp only [CT.ids, List.mem_append, List.mem_cons] at hjL ⊢
    tauto
  have hCagree : ∀ j, j ∈ CT.ids Cl → hget HF j = hget hOld j := by
    intro j hj
    have hjg : j ≠ g := fun hEq => hgC (hEq ▸ hj)
    have hjp : j ≠ p := fun hEq => hpC (hEq ▸ hj)
    have hjB : Ptr.node j ≠ CT.rootPtr Bl := by
      intro hEq
      have hmem : j ∈ CT.ids Bl := rootPtr_mem hEq.symm
      have hmemL : j ∈ CT.ids (CT.node Al p cp Bl) := by
        simp only [CT.ids, List.mem_append, List.mem_cons]
        tauto
      exact hLC j hmemL hj
    rw [hpt j, if_neg hjg, if_neg hjp, if_neg hjB]
    refine hag j ?_ hjg hjp
    simp only [CT.ids, List.mem_append, List.mem_cons]
    tauto
  have hBtree : IsTree HF (Ptr.node g) Bl := by
    cases tB with
    | nil => exact IsTree.nil _
    | node _ bl b0 bc br hp2 hl2 hr2 hc2 tbl tbr =>
      have hb0B : b0 ∈ CT.ids (CT.node bl b0 bc br) := by simp [CT.ids]
      have hb0L : b0 ∈ CT.ids (CT.node Al p cp (CT.node bl b0 bc br)) := by
        simp only [CT.ids, List.mem_append, List.mem_cons] at hb0B ⊢
        tauto
      have hb0p : b0 ≠ p := fun hEq => hpB (hEq ▸ hb0B)
      have hb0g : b0 ≠ g := fun hEq => hgL (hEq ▸ hb0L)
      obtain ⟨hndbl, hndbr, hb0l, hb0r, hblbr⟩ := nodup_node hndB
      have hb0rec : hget HF b0 = { hget hOld b0 with parent := Ptr.node g } := by
        rw [hpt b0, if_neg hb0g, if_neg hb0p,
          if_pos (show Ptr.node b0 = CT.rootPtr (CT.node bl b0 bc br) from rfl)]
        rw [hag b0 (by
          simp only [CT.ids, List.mem_append, List.mem_cons] at hb0L ⊢
          tauto) hb0g hb0p]
      have hsubagree : ∀ j, j ∈ CT.ids bl ∨ j ∈ CT.ids br → hget HF j = hget hOld j := by
        intro j hj
        have hjmem : j ∈ CT.ids (CT.node bl b0 bc br) := by
          simp only [CT.ids, List.mem_append, List.mem_cons]
          tauto
        have hjL : j ∈ CT.ids (CT.node Al p cp (CT.node bl b0 bc br)) := by
          simp only [CT.ids, List.mem_append, List.mem_cons] at hjmem ⊢
          tauto
        have hjp : j ≠ p := fun hEq => hpB (hEq ▸ hjmem)
        have hjg : j ≠ g := fun hEq => hgL (hEq ▸ hjL)
        have hjb0 : Ptr.node j ≠ CT.rootPtr (CT.node bl b0 bc br) := by
          simp only [CT.rootPtr, ne_eq, Ptr.node.injEq]
          rcases hj with hj | hj
          · exact fun hEq => hb0l (hEq ▸ hj)
          · exact fun hEq => hb0r (hEq ▸ hj)
        rw [hpt j, if_neg hjg, if_neg hjp, if_neg hjb0]
        refine hag j ?_ hjg hjp
        simp only [CT.ids, List.mem_append, List.mem_cons] at hjL ⊢
        tauto
      refine IsTree.node _ bl b0 bc br ?_ ?_ ?_ ?_ ?_ ?_
      · rw [hb0rec]
      · rw [hb0rec]; exact hl2
      · rw [hb0rec]; exact hr2
      · rw [hb0rec]; exact hc2
      · exact isTree_mono (fun j hj => hsubagree j (Or.inl hj)) tbl
      · exact isTree_mono (fun j hj => hsubagree j (Or.inr hj)) tbr
  refine IsTree.node PP Al p cp (CT.node Bl g cg Cl) ?_ ?_ ?_ ?_ ?_ ?_
  · rw [hHFp]
  · rw [hHFp]
  · rw [hHFp]; rfl
  · rw [hHFp]
  · exact isTree_mono hAagree tA
  · refine IsTree.node (Ptr.node p) Bl g cg Cl ?_ ?_ ?_ ?_ ?_ ?_
    · rw [hHFg]
    · rw [hHFg]
    · rw [hHFg]
    · rw [hHFg]
    · exact hBtree
    · exact isTree_mono hCagree tC

/-- Full effect of `rotate_right` at `g` (left child `p`) inside a context:
the heap then realizes the rotated subtree in the same context, the root
field updates exactly when the context is empty, and the scalar fields are
unchanged. -/
theorem rotate_right_effect {K A : Type} (st : St K A) (ctx : Ctx) (pp : Ptr)
    (Al Bl Cl : CT) (p g : Nat) (cp cg : RBTreeNodeColor)
    (hC : IsCtx st.heap ctx (Ptr.node g) pp)
    (hT : IsTree st.heap pp (CT.node (CT.node Al p cp Bl) g cg Cl))
    (hroot : st.root = CT.rootPtr (plug ctx (CT.node (CT.node Al p cp Bl) g cg Cl)))
    (hnd : (CT.ids (plug ctx (CT.node (CT.node Al p cp Bl) g cg Cl))).Nodup) :
    IsCtx (rotate_right st (Ptr.node g)).heap ctx (Ptr.node p) pp ∧
    IsTree (rotate_right st (Ptr.node g)).heap pp
      (CT.node Al p cp (CT.node Bl g cg Cl)) ∧
    (rotate_right st (Ptr.node g)).root
      = CT.rootPtr (plug ctx (CT.node Al p cp (CT.node Bl g cg Cl))) ∧
    (rotate_right st (Ptr.node g)).compare = st.compare ∧
    (rotate_right st (Ptr.node g)).collide = st.collide ∧
    (rotate_right st (Ptr.node g)).auxiliary_data = st.auxiliary_data ∧
    (rotate_right st (Ptr.node g)).size = st.size := by
  obtain ⟨hndT, hdisj⟩ := plug_nodup_parts hnd
  have hndCtx := plug_nodup_ctxIds hnd
  cases hT with
  | node _ _ _ _ _ hpG hlG hrG hcG tL tC =>
  cases tL with
  | node _ _ _ _ _ hpP hlP hrP hcP tA tB =>
  obtain ⟨hndL, hndC2, hgL, hgC, hLC⟩ := nodup_node hndT
  obtain ⟨hndA, hndB, hpA, hpB, hAB⟩ := nodup_node hndL
  have hpmem : p ∈ CT.ids (CT.node Al p cp Bl) := by simp [CT.ids]
  have hgp' : g ≠ p := fun hEq => hgL (hEq ▸ hpmem)
  have hgT : g ∈ CT.ids (CT.node (CT.node Al p cp Bl) g cg Cl) := by simp [CT.ids]
  have hpT : p ∈ CT.ids (CT.node (CT.node Al p cp Bl) g cg Cl) := by
    simp only [CT.ids, List.mem_append, List.mem_cons] at hpmem ⊢
    tauto
  have hgrec : hget st.heap g = ⟨pp, Ptr.node p, CT.rootPtr Cl, cg⟩ :=
    rbnode_ext hpG (hlG.trans rfl) hrG hcG
  have hprec : hget st.heap p = ⟨Ptr.node g, CT.rootPtr Al, CT.rootPtr Bl, cp⟩ :=
    rbnode_ext hpP hlP hrP hcP
  have hb : ∀ b0, CT.rootPtr Bl = Ptr.node b0 → b0 ≠ g ∧ b0 ≠ p := by
    intro b0 hb0
    have hmem : b0 ∈ CT.ids Bl := rootPtr_mem hb0
    have hmemL : b0 ∈ CT.ids (CT.node Al p cp Bl) := by
      simp only [CT.ids, List.mem_append, List.mem_cons]
      tauto
    exact ⟨fun hEq => hgL (hEq ▸ hmemL), fun hEq => hpB (hEq ▸ hmem)⟩
  have hbT : ∀ b0, CT.rootPtr Bl = Ptr.node b0 →
      b0 ∈ CT.ids (CT.node (CT.node Al p cp Bl) g cg Cl) := by
    intro b0 hb0
    have hmem : b0 ∈ CT.ids Bl := rootPtr_mem hb0
    simp only [CT.ids, List.mem_append, List.mem_cons]
    tauto
  have hlc : (pget st.heap (Ptr.node g)).left_child = Ptr.node p := by
    rw [pget_node]
    exact hlG.trans rfl
  cases hC with
  | nil =>
    have hst1 := (transplant_effect st g (Ptr.node p) Ptr.null hpG).1 rfl
    have hg1 : hget (psetParent st.heap (Ptr.node p) Ptr.null) g
        = ⟨Ptr.null, Ptr.node p, CT.rootPtr Cl, cg⟩ := by
      rw [hget_psetParent_node, if_neg hgp', hgrec]
    have hp1 : hget (psetParent st.heap (Ptr.node p) Ptr.null) p
        = ⟨Ptr.null, CT.rootPtr Al, CT.rootPtr Bl, cp⟩ := by
      rw [hget_psetParent_node, if_pos rfl, hprec]
    have heq := rotate_right_eq st
      { st with root := Ptr.node p, heap := (psetParent st.heap (Ptr.node p) Ptr.null) }
      g p (CT.rootPtr Bl) hgp' hlc hst1
      (by show (hget (psetParent st.heap (Ptr.node p) Ptr.null) p).right_child = _
          rw [hp1])
    have hpt := rotr_heap_pointwise (psetParent st.heap (Ptr.node p) Ptr.null) g p
      Ptr.null Ptr.null (CT.rootPtr Al) (CT.rootPtr Bl) (CT.rootPtr Cl) cg cp
      hgp' hb hg1 hp1
    have hag : ∀ j, j ∈ CT.ids (CT.node (CT.node Al p cp Bl) g cg Cl) →
        j ≠ g → j ≠ p →
        hget (psetParent st.heap (Ptr.node p) Ptr.null) j = hget st.heap j := by
      intro j _ _ hjp
      rw [hget_psetParent_node, if_neg hjp]
    have hTnew := rotr_rebuild hpt hag tA tB tC hndT
    rw [heq]
    exact ⟨IsCtx.nil _, hTnew, rfl, rfl, rfl, rfl, rfl⟩
  | consL ctx' G0 pc0 sib0 _ pp' hc0 hl0 hr0 hp0 hsib0 hrest =>
    have hG0mem : G0 ∈ ctxIds (⟨Dir.left, G0, pc0, sib0⟩ :: ctx') := by
      simp [ctxIds]
    have hG0g : G0 ≠ g := fun hEq => hdisj g hgT (hEq ▸ hG0mem)
    have hG0p : G0 ≠ p := fun hEq => hdisj p hpT (hEq ▸ hG0mem)
    have hst1 := (transplant_effect st g (Ptr.node p) (Ptr.node G0) hpG).2.1 G0 rfl
      hG0g hl0
    have hg1 : hget (psetParent (psetLeft st.heap (Ptr.node G0) (Ptr.node p))
        (Ptr.node p) (Ptr.node G0)) g
        = ⟨Ptr.node G0, Ptr.node p, CT.rootPtr Cl, cg⟩ := by
      rw [hget_psetParent_node, if_neg hgp', hget_psetLeft_node,
        if_neg (show ¬ g = G0 from fun hEq => hG0g hEq.symm), hgrec]
    have hp1 : hget (psetParent (psetLeft st.heap (Ptr.node G0) (Ptr.node p))
        (Ptr.node p) (Ptr.node G0)) p
        = ⟨Ptr.node G0, CT.rootPtr Al, CT.rootPtr Bl, cp⟩ := by
      rw [hget_psetParent_node, if_pos rfl, hget_psetLeft_node,
        if_neg (show ¬ p = G0 from fun hEq => hG0p hEq.symm), hprec]
    have heq := rotate_right_eq st
      { st with heap := (psetParent (psetLeft st.heap (Ptr.node G0) (Ptr.node p))
          (Ptr.node p) (Ptr.node G0)) }
      g p (CT.rootPtr Bl) hgp' hlc hst1
      (by show (hget (psetParent (psetLeft st.heap (Ptr.node G0) (Ptr.node p))
            (Ptr.node p) (Ptr.node G0)) p).right_child = _
          rw [hp1])
    have hpt := rotr_heap_pointwise _ g p (Ptr.node G0) (Ptr.node G0)
      (CT.rootPtr Al) (CT.rootPtr Bl) (CT.rootPtr Cl) cg cp hgp' hb hg1 hp1
    have hag : ∀ j, j ∈ CT.ids (CT.node (CT.node Al p cp Bl) g cg Cl) →
        j ≠ g → j ≠ p →
        hget (psetParent (psetLeft st.heap (Ptr.node G0) (Ptr.node p))
          (Ptr.node p) (Ptr.node G0)) j = hget st.heap j := by
      intro j hjmem _ hjp
      have hjG0 : j ≠ G0 := fun hEq => hdisj j hjmem (hEq ▸ hG0mem)
      rw [hget_psetParent_node, if_neg hjp, hget_psetLeft_node, if_neg hjG0]
    have hTnew := rotr_rebuild hpt hag tA tB tC hndT
    obtain ⟨hG0nin, hndtail⟩ := List.nodup_cons.mp (show (G0 :: (CT.ids sib0
        ++ ctxIds ctx')).Nodup from hndCtx)
    have hagOut : ∀ j, j ∈ CT.ids sib0 ++ ctxIds ctx' →
        hget (psetParent (psetRight (psetParent
          (psetLeft (psetParent (psetLeft st.heap (Ptr.node G0) (Ptr.node p))
            (Ptr.node p) (Ptr.node G0)) (Ptr.node g) (CT.rootPtr Bl))
          (CT.rootPtr Bl) (Ptr.node g)) (Ptr.node p) (Ptr.node g))
          (Ptr.node g) (Ptr.node p)) j = hget st.heap j := by
      intro j hjmem
      have hjin : j ∈ ctxIds (⟨Dir.left, G0, pc0, sib0⟩ :: ctx') := by
        simp only [ctxIds, List.mem_cons, List.mem_append] at hjmem ⊢
        tauto
      have hjp : j ≠ p := fun hEq => hdisj p hpT (hEq ▸ hjin)
      have hjg : j ≠ g := fun hEq => hdisj g hgT (hEq ▸ hjin)
      have hjG0 : j ≠ G0 := fun hEq => hG0nin (hEq ▸ hjmem)
      have hjB : Ptr.node j ≠ CT.rootPtr Bl := by
        intro hEq
        exact hdisj j (hbT j hEq.symm) hjin
      rw [hpt j, if_neg hjg, if_neg hjp, if_neg hjB,
        hget_psetParent_node, if_neg hjp, hget_psetLeft_node, if_neg hjG0]
    have hG0F : hget (psetParent (psetRight (psetParent
        (psetLeft (psetParent (psetLeft st.heap (Ptr.node G0) (Ptr.node p))
          (Ptr.node p) (Ptr.node G0)) (Ptr.node g) (CT.rootPtr Bl))
        (CT.rootPtr Bl) (Ptr.node g)) (Ptr.node p) (Ptr.node g))
        (Ptr.node g) (Ptr.node p)) G0
        = { hget st.heap G0 with left_child := Ptr.node p } := by
      have hG0B : Ptr.node G0 ≠ CT.rootPtr Bl := by
        intro hEq
        exact hdisj G0 (hbT G0 hEq.symm) hG0mem
      rw [hpt G0, if_neg hG0g, if_neg hG0p, if_neg hG0B,
        hget_psetParent_node, if_neg hG0p, hget_psetLeft_node, if_pos rfl]
    have hCnew : IsCtx (psetParent (psetRight (psetParent
        (psetLeft (psetParent (psetLeft st.heap (Ptr.node G0) (Ptr.node p))
          (Ptr.node p) (Ptr.node G0)) (Ptr.node g) (CT.rootPtr Bl))
        (CT.rootPtr Bl) (Ptr.node g)) (Ptr.node p) (Ptr.node g))
        (Ptr.node g) (Ptr.node p))
        (⟨Dir.left, G0, pc0, sib0⟩ :: ctx') (Ptr.node p) (Ptr.node G0) := by
      refine IsCtx.consL ctx' G0 pc0 sib0 (Ptr.node p) pp' ?_ ?_ ?_ ?_ ?_ ?_
      · rw [hG0F]; exact hc0
      · rw [hG0F]
      · rw [hG0F]; exact hr0
      · rw [hG0F]; exact hp0
      · exact isTree_mono (fun j hj => hagOut j (List.mem_append_left _ hj)) hsib0
      · exact isCtx_mono (fun j hj => hagOut j (List.mem_append_right _ hj)) hrest
    rw [heq]
    refine ⟨hCnew, hTnew, ?_, rfl, rfl, rfl, rfl⟩
    show st.root = _
    rw [hroot]
    show CT.rootPtr (plug ctx' (plug1 (CT.node (CT.node Al p cp Bl) g cg Cl)
      ⟨Dir.left, G0, pc0, sib0⟩)) = CT.rootPtr (plug ctx'
      (plug1 (CT.node Al p cp (CT.node Bl g cg Cl)) ⟨Dir.left, G0, pc0, sib0⟩))
    exact rootPtr_plug_congr ctx' ((rootPtr_plug1 _ _).trans (rootPtr_plug1 _ _).symm)
  | consR ctx' G0 pc0 sib0 _ pp' hc0 hl0 hr0 hp0 hsib0 hrest =>
    have hG0mem : G0 ∈ ctxIds (⟨Dir.right, G0, pc0, sib0⟩ :: ctx') := by
      simp [ctxIds]
    have hG0g : G0 ≠ g := fun hEq => hdisj g hgT (hEq ▸ hG0mem)
    have hG0p : G0 ≠ p := fun hEq => hdisj p hpT (hEq ▸ hG0mem)
    have hslotne : (hget st.heap G0).left_child ≠ Ptr.node g := by
      rw [hl0]
      intro hEq
      have hmem : g ∈ CT.ids sib0 := rootPtr_mem hEq
      exact hdisj g hgT (by simp only [ctxIds, List.mem_cons, List.mem_append]; tauto)
    have hst1 := (transplant_effect st g (Ptr.node p) (Ptr.node G0) hpG).2.2 G0 rfl
      hG0g hslotne
    have hg1 : hget (psetParent (psetRight st.heap (Ptr.node G0) (Ptr.node p))
        (Ptr.node p) (Ptr.node G0)) g
        = ⟨Ptr.node G0, Ptr.node p, CT.rootPtr Cl, cg⟩ := by
      rw [hget_psetParent_node, if_neg hgp', hget_psetRight_node,
        if_neg (show ¬ g = G0 from fun hEq => hG0g hEq.symm), hgrec]
    have hp1 : hget (psetParent (psetRight st.heap (Ptr.node G0) (Ptr.node p))
        (Ptr.node p) (Ptr.node G0)) p
        = ⟨Ptr.node G0, CT.rootPtr Al, CT.rootPtr Bl, cp⟩ := by
      rw [hget_psetParent_node, if_pos rfl, hget_psetRight_node,
        if_neg (show ¬ p = G0 from fun hEq => hG0p hEq.symm), hprec]
    have heq := rotate_right_eq st
      { st with heap := (psetParent (psetRight st.heap (Ptr.node G0) (Ptr.node p))
          (Ptr.node p) (Ptr.node G0)) }
      g p (CT.rootPtr Bl) hgp' hlc hst1
      (by show (hget (psetParent (psetRight st.heap (Ptr.node G0) (Ptr.node p))
            (Ptr.node p) (Ptr.node G0)) p).right_child = _
          rw [hp1])
    have hpt := rotr_heap_pointwise _ g p (Ptr.node G0) (Ptr.node G0)
      (CT.rootPtr Al) (CT.rootPtr Bl) (CT.rootPtr Cl) cg cp hgp' hb hg1 hp1
    have hag : ∀ j, j ∈ CT.ids (CT.node (CT.node Al p cp Bl) g cg Cl) →
        j ≠ g → j ≠ p →
        hget (psetParent (psetRight st.heap (Ptr.node G0) (Ptr.node p))
          (Ptr.node p) (Ptr.node G0)) j = hget st.heap j := by
      intro j hjmem _ hjp
      have hjG0 : j ≠ G0 := fun hEq => hdisj j hjmem (hEq ▸ hG0mem)
      rw [hget_psetParent_node, if_neg hjp, hget_psetRight_node, if_neg hjG0]
    have hTnew := rotr_rebuild hpt hag tA tB tC hndT
    obtain ⟨hG0nin, hndtail⟩ := List.nodup_cons.mp (show (G0 :: (CT.ids sib0
        ++ ctxIds ctx')).Nodup from hndCtx)
    have hagOut : ∀ j, j ∈ CT.ids sib0 ++ ctxIds ctx' →
        hget (psetParent (psetRight (psetParent
          (psetLeft (psetParent (psetRight st.heap (Ptr.node G0) (Ptr.node p))
            (Ptr.node p) (Ptr.node G0)) (Ptr.node g) (CT.rootPtr Bl))
          (CT.rootPtr Bl) (Ptr.node g)) (Ptr.node p) (Ptr.node g))
          (Ptr.node g) (Ptr.node p)) j = hget st.heap j := by
      intro j hjmem
      have hjin : j ∈ ctxIds (⟨Dir.right, G0, pc0, sib0⟩ :: ctx') := by
        simp only [ctxIds, List.mem_cons, List.mem_append] at hjmem ⊢
        tauto
      have hjp : j ≠ p := fun hEq => hdisj p hpT (hEq ▸ hjin)
      have hjg : j ≠ g := fun hEq => hdisj g hgT (hEq ▸ hjin)
      have hjG0 : j ≠ G0 := fun hEq => hG0nin (hEq ▸ hjmem)
      have hjB : Ptr.node j ≠ CT.rootPtr Bl := by
        intro hEq
        exact hdisj j (hbT j hEq.symm) hjin
      rw [hpt j, if_neg hjg, if_neg hjp, if_neg hjB,
        hget_psetParent_node, if_neg hjp, hget_psetRight_node, if_neg hjG0]
    have hG0F : hget (psetParent (psetRight (psetParent
        (psetLeft (psetParent (psetRight st.heap (Ptr.node G0) (Ptr.node p))
          (Ptr.node p) (Ptr.node G0)) (Ptr.node g) (CT.rootPtr Bl))
        (CT.rootPtr Bl) (Ptr.node g)) (Ptr.node p) (Ptr.node g))
        (Ptr.node g) (Ptr.node p)) G0
        = { hget st.heap G0 with right_child := Ptr.node p } := by
      have hG0B : Ptr.node G0 ≠ CT.rootPtr Bl := by
        intro hEq
        exact hdisj G0 (hbT G0 hEq.symm) hG0mem
      rw [hpt G0, if_neg hG0g, if_neg hG0p, if_neg hG0B,
        hget_psetParent_node, if_neg hG0p, hget_psetRight_node, if_pos rfl]
    have hCnew : IsCtx (psetParent (psetRight (psetParent
        (psetLeft (psetParent (psetRight st.heap (Ptr.node G0) (Ptr.node p))
          (Ptr.node p) (Ptr.node G0)) (Ptr.node g) (CT.rootPtr Bl))
        (CT.rootPtr Bl) (Ptr.node g)) (Ptr.node p) (Ptr.node g))
        (Ptr.node g) (Ptr.node p))
        (⟨Dir.right, G0, pc0, sib0⟩ :: ctx') (Ptr.node p) (Ptr.node G0) := by
      refine IsCtx.consR ctx' G0 pc0 sib0 (Ptr.node p) pp' ?_ ?_ ?_ ?_ ?_ ?_
      · rw [hG0F]; exact hc0
      · rw [hG0F]; exact hl0
      · rw [hG0F]
      · rw [hG0F]; exact hp0
      · exact isTree_mono (fun j hj => hagOut j (List.mem_append_left _ hj)) hsib0
      · exact isCtx_mono (fun j hj => hagOut j (List.mem_append_right _ hj)) hrest
    rw [heq]
    refine ⟨hCnew, hTnew, ?_, rfl, rfl, rfl, rfl⟩
    show st.root = _
    rw [hroot]
    show CT.rootPtr (plug ctx' (plug1 (CT.node (CT.node Al p cp Bl) g cg Cl)
      ⟨Dir.right, G0, pc0, sib0⟩)) = CT.rootPtr (plug ctx'
      (plug1 (CT.node Al p cp (CT.node Bl g cg Cl)) ⟨Dir.right, G0, pc0, sib0⟩))
    exact rootPtr_plug_congr ctx' ((rootPtr_plug1 _ _).trans (rootPtr_plug1 _ _).symm)

theorem hget_psetColor_parent (h : Heap) (q : Ptr) (c : RBTreeNodeColor) (j : Nat) :
    (hget (psetColor h q c) j).parent = (hget h j).parent := by
  cases q with
  | node i =>
    rw [hget_psetColor_node]
    by_cases hj : j = i
    · subst hj; simp
    · simp [hj]
  | null => rfl
  | poisonParent => rfl
  | poisonLeftChild => rfl
  | poisonRightChild => rfl

theorem hget_psetColor_left (h : Heap) (q : Ptr) (c : RBTreeNodeColor) (j : Nat) :
    (hget (psetColor h q c) j).left_child = (hget h j).left_child := by
  cases q with
  | node i =>
    rw [hget_psetColor_node]
    by_cases hj : j = i
    · subst hj; simp
    · simp [hj]
  | null => rfl
  | poisonParent => rfl
  | poisonLeftChild => rfl
  | poisonRightChild => rfl

theorem hget_psetColor_right (h : Heap) (q : Ptr) (c : RBTreeNodeColor) (j : Nat) :
    (hget (psetColor h q c) j).right_child = (hget h j).right_child := by
  cases q with
  | node i =>
    rw [hget_psetColor_node]
    by_cases hj : j = i
    · subst hj; simp
    · simp [hj]
  | null => rfl
  | poisonParent => rfl
  | poisonLeftChild => rfl
  | poisonRightChild => rfl

theorem pget_psetColor_parent (h : Heap) (q : Ptr) (c : RBTreeNodeColor) (z : Ptr) :
    (pget (psetColor h q c) z).parent = (pget h z).parent := by
  cases z with
  | node i => exact hget_psetColor_parent h q c i
  | null => rfl
  | poisonParent => rfl
  | poisonLeftChild => rfl
  | poisonRightChild => rfl

theorem pget_psetColor_left (h : Heap) (q : Ptr) (c : RBTreeNodeColor) (z : Ptr) :
    (pget (psetColor h q c) z).left_child = (pget h z).left_child := by
  cases z with
  | node i => exact hget_psetColor_left h q c i
  | null => rfl
  | poisonParent => rfl
  | poisonLeftChild => rfl
  | poisonRightChild => rfl

theorem pget_psetColor_right (h : Heap) (q : Ptr) (c : RBTreeNodeColor) (z : Ptr) :
    (pget (psetColor h q c) z).right_child = (pget h z).right_child := by
  cases z with
  | node i => exact hget_psetColor_right h q c i
  | null => rfl
  | poisonParent => rfl
  | poisonLeftChild => rfl
  | poisonRightChild => rfl

theorem grandparent_psetColor (h : Heap) (q : Ptr) (c : RBTreeNodeColor) (z : Ptr) :
    grandparent (psetColor h q c) z = grandparent h z := by
  unfold grandparent
  simp only [pget_psetColor_parent]

theorem sibling_psetColor (h : Heap) (q : Ptr) (c : RBTreeNodeColor) (z : Ptr) :
    sibling (psetColor h q c) z = sibling h z := by
  unfold sibling
  simp only [pget_psetColor_parent, pget_psetColor_left, pget_psetColor_right]

theorem uncle_psetColor (h : Heap) (q : Ptr) (c : RBTreeNodeColor) (z : Ptr) :
    uncle (psetColor h q c) z = uncle h z := by
  unfold uncle
  rw [sibling_psetColor, pget_psetColor_parent]

/-- Insert-repair step: focus is the root (parent NULL). -/
theorem rai_go_step_root {K A : Type} (fuel : Nat) (st : St K A) (x : Ptr)
    (h : (pget st.heap x).parent = Ptr.null) :
    rai_go (fuel+1) st x
      = some { st with heap := (psetColor st.heap x RBTreeNodeColor.black) } := by
  simp only [rai_go]
  rw [if_pos h]

/-- Insert-repair step: parent is black, nothing to do. -/
theorem rai_go_step_black {K A : Type} (fuel : Nat) (st : St K A) (x : Ptr) (P : Nat)
    (hP : (pget st.heap x).parent = Ptr.node P)
    (hPc : (hget st.heap P).color = RBTreeNodeColor.black) :
    rai_go (fuel+1) st x = some st := by
  simp only [rai_go]
  rw [if_neg (show ¬ (pget st.heap x).parent = Ptr.null from by rw [hP]; simp),
    if_pos (show color st.heap (pget st.heap x).parent = RBTreeNodeColor.black from by
      rw [hP]
      exact hPc)]

/-- Insert-repair step: red uncle, recolor and recurse at the grandparent. -/
theorem rai_go_step_uncle_red {K A : Type} (fuel : Nat) (st : St K A) (x : Ptr) (P : Nat) (U G : Ptr)
    (hP : (pget st.heap x).parent = Ptr.node P)
    (hPc : (hget st.heap P).color = RBTreeNodeColor.red)
    (hU : uncle st.heap x = U)
    (hUc : color st.heap U = RBTreeNodeColor.red)
    (hG : grandparent st.heap x = G) :
    rai_go (fuel+1) st x
      = rai_go fuel
          { st with heap := (psetColor (psetColor (psetColor st.heap (Ptr.node P)
              RBTreeNodeColor.black) U RBTreeNodeColor.black) G RBTreeNodeColor.red) }
          G := by
  simp only [rai_go]
  rw [if_neg (show ¬ (pget st.heap x).parent = Ptr.null from by rw [hP]; simp),
    if_neg (show ¬ color st.heap (pget st.heap x).parent = RBTreeNodeColor.black from by
      rw [hP]
      show (hget st.heap P).color = RBTreeNodeColor.black → False
      rw [hPc]
      intro hcon
      exact RBTreeNodeColor.noConfusion hcon),
    if_pos (show color st.heap (uncle st.heap x) = RBTreeNodeColor.red from by
      rw [hU, hUc])]
  rw [hP]
  rw [show uncle (psetColor st.heap (Ptr.node P) RBTreeNodeColor.black) x = U from by
    rw [uncle_psetColor, hU]]
  rw [show grandparent (psetColor (psetColor st.heap (Ptr.node P) RBTreeNodeColor.black)
      U RBTreeNodeColor.black) x = G from by
    rw [grandparent_psetColor, grandparent_psetColor, hG]]
  rw [show grandparent (psetColor (psetColor (psetColor st.heap (Ptr.node P)
      RBTreeNodeColor.black) U RBTreeNodeColor.black) G RBTreeNodeColor.red) x = G from by
    rw [grandparent_psetColor, grandparent_psetColor, grandparent_psetColor, hG]]

/-- Insert-repair step: terminal left-left case. -/
theorem rai_go_step_LL {K A : Type} (fuel : Nat) (st : St K A) (x : Ptr) (P G : Nat)
    (hP : (pget st.heap x).parent = Ptr.node P)
    (hPc : (hget st.heap P).color = RBTreeNodeColor.red)
    (hUc : color st.heap (uncle st.heap x) ≠ RBTreeNodeColor.red)
    (hPl : (pget st.heap (Ptr.node P)).left_child = x)
    (hPr : (pget st.heap (Ptr.node P)).right_child ≠ x)
    (hPG : (pget st.heap (Ptr.node P)).parent = Ptr.node G)
    (hGl : (pget st.heap (Ptr.node G)).left_child = Ptr.node P)
    (hGr : (pget st.heap (Ptr.node G)).right_child ≠ Ptr.node P) :
    rai_go (fuel+1) st x
      = some (rotate_right
          { st with heap := (psetColor (psetColor st.heap (Ptr.node P)
              RBTreeNodeColor.black) (Ptr.node G) RBTreeNodeColor.red) }
          (Ptr.node G)) := by
  have hgp : grandparent st.heap x = Ptr.node G := by
    unfold grandparent
    rw [hP, hPG]
  simp only [rai_go]
  rw [if_neg (show ¬ (pget st.heap x).parent = Ptr.null from by rw [hP]; simp),
    if_neg (show ¬ color st.heap (pget st.heap x).parent = RBTreeNodeColor.black from by
      rw [hP]
      show (hget st.heap P).color = RBTreeNodeColor.black → False
      rw [hPc]
      intro hcon
      exact RBTreeNodeColor.noConfusion hcon),
    if_neg hUc]
  rw [if_neg (show ¬ (x = (pget st.heap (pget st.heap x).parent).right_child ∧
      (pget st.heap x).parent = (pget st.heap (grandparent st.heap x)).left_child) from by
    intro hcon
    rw [hP] at hcon
    exact hPr hcon.1.symm)]
  rw [if_neg (show ¬ (x = (pget st.heap (pget st.heap x).parent).left_child ∧
      (pget st.heap x).parent = (pget st.heap (grandparent st.heap x)).right_child) from by
    intro hcon
    rw [hP, hgp] at hcon
    exact hGr hcon.2.symm)]
  rw [hP]
  rw [show grandparent (psetColor st.heap (Ptr.node P) RBTreeNodeColor.black) x
      = Ptr.node G from by rw [grandparent_psetColor, hgp]]
  rw [if_pos (show x = (pget (psetColor (psetColor st.heap (Ptr.node P)
        RBTreeNodeColor.black) (Ptr.node G) RBTreeNodeColor.red)
        (pget (psetColor (psetColor st.heap (Ptr.node P) RBTreeNodeColor.black)
          (Ptr.node G) RBTreeNodeColor.red) x).parent).left_child ∧
      (pget (psetColor (psetColor st.heap (Ptr.node P) RBTreeNodeColor.black)
        (Ptr.node G) RBTreeNodeColor.red) x).parent
        = (pget (psetColor (psetColor st.heap (Ptr.node P) RBTreeNodeColor.black)
          (Ptr.node G) RBTreeNodeColor.red)
          (grandparent (psetColor (psetColor st.heap (Ptr.node P)
            RBTreeNodeColor.black) (Ptr.node G) RBTreeNodeColor.red) x)).left_child from by
    constructor
    · rw [pget_psetColor_parent, pget_psetColor_parent, hP, pget_psetColor_left,
        pget_psetColor_left, hPl]
    · rw [pget_psetColor_parent, pget_psetColor_parent, hP,
        grandparent_psetColor, grandparent_psetColor, hgp,
        pget_psetColor_left, pget_psetColor_left, hGl])]
  rw [show grandparent (psetColor (psetColor st.heap (Ptr.node P)
      RBTreeNodeColor.black) (Ptr.node G) RBTreeNodeColor.red) x = Ptr.node G from by
    rw [grandparent_psetColor, grandparent_psetColor, hgp]]

/-- Insert-repair step: terminal right-right case. -/
theorem rai_go_step_RR {K A : Type} (fuel : Nat) (st : St K A) (x : Ptr) (P G : Nat)
    (hP : (pget st.heap x).parent = Ptr.node P)
    (hPc : (hget st.heap P).color = RBTreeNodeColor.red)
    (hUc : color st.heap (uncle st.heap x) ≠ RBTreeNodeColor.red)
    (hPr : (pget st.heap (Ptr.node P)).right_child = x)
    (hPl : (pget st.heap (Ptr.node P)).left_child ≠ x)
    (hPG : (pget st.heap (Ptr.node P)).parent = Ptr.node G)
    (hGr : (pget st.heap (Ptr.node G)).right_child = Ptr.node P)
    (hGl : (pget st.heap (Ptr.node G)).left_child ≠ Ptr.node P) :
    rai_go (fuel+1) st x
      = some (rotate_left
          { st with heap := (psetColor (psetColor st.heap (Ptr.node P)
              RBTreeNodeColor.black) (Ptr.node G) RBTreeNodeColor.red) }
          (Ptr.node G)) := by
  have hgp : grandparent st.heap x = Ptr.node G := by
    unfold grandparent
    rw [hP, hPG]
  simp only [rai_go]
  rw [if_neg (show ¬ (pget st.heap x).parent = Ptr.null from by rw [hP]; simp),
    if_neg (show ¬ color st.heap (pget st.heap x).parent = RBTreeNodeColor.black from by
      rw [hP]
      show (hget st.heap P).color = RBTreeNodeColor.black → False
      rw [hPc]
      intro hcon
      exact RBTreeNodeColor.noConfusion hcon),
    if_neg hUc]
  rw [if_neg (show ¬ (x = (pget st.heap (pget st.heap x).parent).right_child ∧
      (pget st.heap x).parent = (pget st.heap (grandparent st.heap x)).left_child) from by
    intro hcon
    rw [hP, hgp] at hcon
    exact hGl hcon.2.symm)]
  rw [if_neg (show ¬ (x = (pget st.heap (pget st.heap x).parent).left_child ∧
      (pget st.heap x).parent = (pget st.heap (grandparent st.heap x)).right_child) from by
    intro hcon
    rw [hP] at hcon
    exact hPl hcon.1.symm)]
  rw [hP]
  rw [show grandparent (psetColor st.heap (Ptr.node P) RBTreeNodeColor.black) x
      = Ptr.node G from by rw [grandparent_psetColor, hgp]]
  rw [if_neg (show ¬ (x = (pget (psetColor (psetColor st.heap (Ptr.node P)
        RBTreeNodeColor.black) (Ptr.node G) RBTreeNodeColor.red)
        (pget (psetColor (psetColor st.heap (Ptr.node P) RBTreeNodeColor.black)
          (Ptr.node G) RBTreeNodeColor.red) x).parent).left_child ∧
      (pget (psetColor (psetColor st.heap (Ptr.node P) RBTreeNodeColor.black)
        (Ptr.node G) RBTreeNodeColor.red) x).parent
        = (pget (psetColor (psetColor st.heap (Ptr.node P) RBTreeNodeColor.black)
          (Ptr.node G) RBTreeNodeColor.red)
          (grandparent (psetColor (psetColor st.heap (Ptr.node P)
            RBTreeNodeColor.black) (Ptr.node G) RBTreeNodeColor.red) x)).left_child) from by
    intro hcon
    obtain ⟨h1, _⟩ := hcon
    rw [pget_psetColor_parent, pget_psetColor_parent, hP, pget_psetColor_left,
      pget_psetColor_left] at h1
    exact hPl h1.symm)]
  rw [show grandparent (psetColor (psetColor st.heap (Ptr.node P)
      RBTreeNodeColor.black) (Ptr.node G) RBTreeNodeColor.red) x = Ptr.node G from by
    rw [grandparent_psetColor, grandparent_psetColor, hgp]]

/-- Insert-repair step: terminal right-of-left case. -/
theorem rai_go_step_LR {K A : Type} (fuel : Nat) (st : St K A) (x nf : Ptr) (P G : Nat)
    (hP : (pget st.heap x).parent = Ptr.node P)
    (hPc : (hget st.heap P).color = RBTreeNodeColor.red)
    (hUc : color st.heap (uncle st.heap x) ≠ RBTreeNodeColor.red)
    (hPr : (pget st.heap (Ptr.node P)).right_child = x)
    (hPG : (pget st.heap (Ptr.node P)).parent = Ptr.node G)
    (hGl : (pget st.heap (Ptr.node G)).left_child = Ptr.node P)
    (hRl : (pget (rotate_left st (Ptr.node P)).heap x).left_child = nf)
    (hnfP : (pget (rotate_left st (Ptr.node P)).heap nf).parent = x)
    (hxG : (pget (rotate_left st (Ptr.node P)).heap x).parent = Ptr.node G)
    (hGl2 : (pget (rotate_left st (Ptr.node P)).heap (Ptr.node G)).left_child = x) :
    rai_go (fuel+1) st x
      = some (rotate_right
          { rotate_left st (Ptr.node P) with
            heap := (psetColor (psetColor (rotate_left st (Ptr.node P)).heap x
              RBTreeNodeColor.black) (Ptr.node G) RBTreeNodeColor.red) }
          (Ptr.node G)) := by
  have hgp : grandparent st.heap x = Ptr.node G := by
    unfold grandparent
    rw [hP, hPG]
  simp only [rai_go]
  rw [if_neg (show ¬ (pget st.heap x).parent = Ptr.null from by rw [hP]; simp),
    if_neg (show ¬ color st.heap (pget st.heap x).parent = RBTreeNodeColor.black from by
      rw [hP]
      show (hget st.heap P).color = RBTreeNodeColor.black → False
      rw [hPc]
      intro hcon
      exact RBTreeNodeColor.noConfusion hcon),
    if_neg hUc]
  rw [if_pos (show x = (pget st.heap (pget st.heap x).parent).right_child ∧
      (pget st.heap x).parent = (pget st.heap (grandparent st.heap x)).left_child from by
    rw [hP, hgp]
    exact ⟨hPr.symm, hGl.symm⟩)]
  rw [hP, hRl]
  rw [show (pget (rotate_left st (Ptr.node P)).heap nf).parent = x from hnfP]
  rw [show grandparent (psetColor (rotate_left st (Ptr.node P)).heap x
      RBTreeNodeColor.black) nf = Ptr.node G from by
    rw [grandparent_psetColor]
    unfold grandparent
    rw [hnfP, hxG]]
  rw [if_pos (show nf = (pget (psetColor (psetColor (rotate_left st (Ptr.node P)).heap x
        RBTreeNodeColor.black) (Ptr.node G) RBTreeNodeColor.red)
        (pget (psetColor (psetColor (rotate_left st (Ptr.node P)).heap x
          RBTreeNodeColor.black) (Ptr.node G) RBTreeNodeColor.red) nf).parent).left_child ∧
      (pget (psetColor (psetColor (rotate_left st (Ptr.node P)).heap x
        RBTreeNodeColor.black) (Ptr.node G) RBTreeNodeColor.red) nf).parent
        = (pget (psetColor (psetColor (rotate_left st (Ptr.node P)).heap x
          RBTreeNodeColor.black) (Ptr.node G) RBTreeNodeColor.red)
          (grandparent (psetColor (psetColor (rotate_left st (Ptr.node P)).heap x
            RBTreeNodeColor.black) (Ptr.node G) RBTreeNodeColor.red) nf)).left_child from by
    constructor
    · rw [pget_psetColor_parent, pget_psetColor_parent, hnfP, pget_psetColor_left,
        pget_psetColor_left, hRl]
    · have hgnf : grandparent (rotate_left st (Ptr.node P)).heap nf = Ptr.node G := by
        unfold grandparent
        rw [hnfP, hxG]
      rw [pget_psetColor_parent, pget_psetColor_parent, hnfP,
        grandparent_psetColor, grandparent_psetColor, hgnf,
        pget_psetColor_left, pget_psetColor_left, hGl2])]
  rw [show grandparent (psetColor (psetColor (rotate_left st (Ptr.node P)).heap x
      RBTreeNodeColor.black) (Ptr.node G) RBTreeNodeColor.red) nf = Ptr.node G from by
    rw [grandparent_psetColor, grandparent_psetColor]
    unfold grandparent
    rw [hnfP, hxG]]

/-- Insert-repair step: terminal left-of-right case. -/
theorem rai_go_step_RL {K A : Type} (fuel : Nat) (st : St K A) (x nf : Ptr) (P G : Nat)
    (hP : (pget st.heap x).parent = Ptr.node P)
    (hPc : (hget st.heap P).color = RBTreeNodeColor.red)
    (hUc : color st.heap (uncle st.heap x) ≠ RBTreeNodeColor.red)
    (hPl : (pget st.heap (Ptr.node P)).left_child = x)
    (hPr : (pget st.heap (Ptr.node P)).right_child ≠ x)
    (hPG : (pget st.heap (Ptr.node P)).parent = Ptr.node G)
    (hGr : (pget st.heap (Ptr.node G)).right_child = Ptr.node P)
    (hGl : (pget st.heap (Ptr.node G)).left_child ≠ Ptr.node P)
    (hRr : (pget (rotate_right st (Ptr.node P)).heap x).right_child = nf)
    (hnfP : (pget (rotate_right st (Ptr.node P)).heap nf).parent = x)
    (hxG : (pget (rotate_right st (Ptr.node P)).heap x).parent = Ptr.node G)
    (hxl : (pget (rotate_right st (Ptr.node P)).heap x).left_child ≠ nf) :
    rai_go (fuel+1) st x
      = some (rotate_left
          { rotate_right st (Ptr.node P) with
            heap := (psetColor (psetColor (rotate_right st (Ptr.node P)).heap x
              RBTreeNodeColor.black) (Ptr.node G) RBTreeNodeColor.red) }
          (Ptr.node G)) := by
  have hgp : grandparent st.heap x = Ptr.node G := by
    unfold grandparent
    rw [hP, hPG]
  simp only [rai_go]
  rw [if_neg (show ¬ (pget st.heap x).parent = Ptr.null from by rw [hP]; simp),
    if_neg (show ¬ color st.heap (pget st.heap x).parent = RBTreeNodeColor.black from by
      rw [hP]
      show (hget st.heap P).color = RBTreeNodeColor.black → False
      rw [hPc]
      intro hcon
      exact RBTreeNodeColor.noConfusion hcon),
    if_neg hUc]
  rw [if_neg (show ¬ (x = (pget st.heap (pget st.heap x).parent).right_child ∧
      (pget st.heap x).parent = (pget st.heap (grandparent st.heap x)).left_child) from by
    intro hcon
    rw [hP] at hcon
    exact hPr hcon.1.symm)]
  rw [if_pos (show x = (pget st.heap (pget st.heap x).parent).left_child ∧
      (pget st.heap x).parent = (pget st.heap (grandparent st.heap x)).right_child from by
    rw [hP, hgp]
    exact ⟨hPl.symm, hGr.symm⟩)]
  rw [hP, hRr]
  rw [show (pget (rotate_right st (Ptr.node P)).heap nf).parent = x from hnfP]
  rw [show grandparent (psetColor (rotate_right st (Ptr.node P)).heap x
      RBTreeNodeColor.black) nf = Ptr.node G from by
    rw [grandparent_psetColor]
    unfold grandparent
    rw [hnfP, hxG]]
  rw [if_neg (show ¬ (nf = (pget (psetColor (psetColor (rotate_right st (Ptr.node P)).heap x
        RBTreeNodeColor.black) (Ptr.node G) RBTreeNodeColor.red)
        (pget (psetColor (psetColor (rotate_right st (Ptr.node P)).heap x
          RBTreeNodeColor.black) (Ptr.node G) RBTreeNodeColor.red) nf).parent).left_child ∧
      (pget (psetColor (psetColor (rotate_right st (Ptr.node P)).heap x
        RBTreeNodeColor.black) (Ptr.node G) RBTreeNodeColor.red) nf).parent
        = (pget (psetColor (psetColor (rotate_right st (Ptr.node P)).heap x
          RBTreeNodeColor.black) (Ptr.node G) RBTreeNodeColor.red)
          (grandparent (psetColor (psetColor (rotate_right st (Ptr.node P)).heap x
            RBTreeNodeColor.black) (Ptr.node G) RBTreeNodeColor.red) nf)).left_child) from by
    intro hcon
    obtain ⟨h1, _⟩ := hcon
    rw [pget_psetColor_parent, pget_psetColor_parent, hnfP, pget_psetColor_left,
      pget_psetColor_left] at h1
    exact hxl h1.symm)]
  rw [show grandparent (psetColor (psetColor (rotate_right st (Ptr.node P)).heap x
      RBTreeNodeColor.black) (Ptr.node G) RBTreeNodeColor.red) nf = Ptr.node G from by
    rw [grandparent_psetColor, grandparent_psetColor]
    unfold grandparent
    rw [hnfP, hxG]]

theorem ctxInv_prev_black : ∀ {c : RBTreeNodeColor} {ctx : Ctx} {b : Nat},
    ctxInv c ctx b → ctxInv RBTreeNodeColor.black ctx b := by
  intro c ctx b h
  cases ctx with
  | nil => trivial
  | cons fr ctx =>
    obtain ⟨h1, h2, h3, h4, h5⟩ := h
    exact ⟨h1, h2, fun hred => ⟨rfl, (h3 hred).2⟩, h4, h5⟩

theorem rootPtr_eq_node {s : CT} {x : Nat} (h : CT.rootPtr s = Ptr.node x) :
    ∃ sl c sr, s = CT.node sl x c sr := by
  cases s with
  | nil => exact absurd h (by simp [CT.rootPtr])
  | node l i c r =>
    simp only [CT.rootPtr, Ptr.node.injEq] at h
    exact ⟨l, c, r, by rw [h]⟩

theorem isTree_node_fields {h : Heap} {pp : Ptr} {l : CT} {i : Nat}
    {c : RBTreeNodeColor} {r : CT} (hT : IsTree h pp (CT.node l i c r)) :
    (hget h i).parent = pp ∧ (hget h i).left_child = CT.rootPtr l ∧
    (hget h i).right_child = CT.rootPtr r ∧ (hget h i).color = c ∧
    IsTree h (Ptr.node i) l ∧ IsTree h (Ptr.node i) r := by
  cases hT with
  | node _ _ _ _ _ hp hl hr hc tl tr => exact ⟨hp, hl, hr, hc, tl, tr⟩

theorem isCtx_consL_fields {h : Heap} {ctx : Ctx} {pid : Nat} {pc : RBTreeNodeColor}
    {sib : CT} {sp pp : Ptr} (hC : IsCtx h (⟨Dir.left, pid, pc, sib⟩ :: ctx) sp pp) :
    pp = Ptr.node pid ∧ (hget h pid).color = pc ∧ (hget h pid).left_child = sp ∧
    (hget h pid).right_child = CT.rootPtr sib ∧
    ∃ pp', (hget h pid).parent = pp' ∧ IsTree h (Ptr.node pid) sib ∧
      IsCtx h ctx (Ptr.node pid) pp' := by
  cases hC with
  | consL _ _ _ _ _ pp' hc hl hr hp hsib hrest =>
    exact ⟨rfl, hc, hl, hr, pp', hp, hsib, hrest⟩

theorem isCtx_consR_fields {h : Heap} {ctx : Ctx} {pid : Nat} {pc : RBTreeNodeColor}
    {sib : CT} {sp pp : Ptr} (hC : IsCtx h (⟨Dir.right, pid, pc, sib⟩ :: ctx) sp pp) :
    pp = Ptr.node pid ∧ (hget h pid).color = pc ∧
    (hget h pid).left_child = CT.rootPtr sib ∧ (hget h pid).right_child = sp ∧
    ∃ pp', (hget h pid).parent = pp' ∧ IsTree h (Ptr.node pid) sib ∧
      IsCtx h ctx (Ptr.node pid) pp' := by
  cases hC with
  | consR _ _ _ _ _ pp' hc hl hr hp hsib hrest =>
    exact ⟨rfl, hc, hl, hr, pp', hp, hsib, hrest⟩

/-- Base case of the insert-repair refinement: the focus is the whole tree. -/
theorem rai_go_refines_nil {K A : Type} (st : St K A) (s : CT) (x : Nat)
    (hroot : CT.rootPtr s = Ptr.node x)
    (hT : IsTree st.heap Ptr.null s)
    (hRoot : st.root = CT.rootPtr s)
    (hNd : (CT.ids s).Nodup)
    (fuel : Nat) (hfuel : 0 < fuel) :
    ∃ st', rai_go fuel st (Ptr.node x) = some st' ∧
      IsTree st'.heap Ptr.null (recolorRoot RBTreeNodeColor.black s) ∧
      st'.root = CT.rootPtr (recolorRoot RBTreeNodeColor.black s) ∧
      st'.compare = st.compare ∧ st'.collide = st.collide ∧
      st'.auxiliary_data = st.auxiliary_data ∧ st'.size = st.size := by
  obtain ⟨f, rfl⟩ : ∃ g, fuel = g + 1 := ⟨fuel - 1, by omega⟩
  obtain ⟨sl, c, sr, rfl⟩ := rootPtr_eq_node hroot
  obtain ⟨hp, hl, hr, hc, tl, tr⟩ := isTree_node_fields hT
  obtain ⟨hndl, hndr, hxl, hxr, _⟩ := nodup_node hNd
  refine ⟨_, rai_go_step_root f st (Ptr.node x) (by rw [pget_node]; exact hp),
    ?_, ?_, rfl, rfl, rfl, rfl⟩
  · exact isTree_psetColor_root hT hxl hxr _
  · rw [hRoot]
    rfl

theorem mem_ids_plug1 {j : Nat} (s : CT) (fr : Frame) :
    j ∈ CT.ids (plug1 s fr) ↔ j = fr.pid ∨ j ∈ CT.ids s ∨ j ∈ CT.ids fr.sib := by
  obtain ⟨d, pid, pc, sib⟩ := fr
  cases d <;> simp [plug1, CT.ids, List.mem_append, List.mem_cons] <;> tauto

theorem nodup_plug1 {s : CT} {fr : Frame} (h : (CT.ids (plug1 s fr)).Nodup) :
    (CT.ids s).Nodup ∧ (CT.ids fr.sib).Nodup ∧ fr.pid ∉ CT.ids s ∧
    fr.pid ∉ CT.ids fr.sib ∧ ∀ a ∈ CT.ids s, a ∉ CT.ids fr.sib := by
  obtain ⟨d, pid, pc, sib⟩ := fr
  cases d
  · exact nodup_node h
  · obtain ⟨h1, h2, h3, h4, h5⟩ := nodup_node h
    exact ⟨h2, h1, h4, h3, fun a haS haSib => h5 a haSib haS⟩

/-- Assemble a one-frame plug as a heap tree from the frame node's record. -/
theorem isTree_plug1_frame {h : Heap} {fr : Frame} {s : CT} {pp' : Ptr}
    (hp : (hget h fr.pid).parent = pp')
    (hc : (hget h fr.pid).color = fr.pc)
    (hl : (hget h fr.pid).left_child
        = (match fr.dir with | Dir.left => CT.rootPtr s | Dir.right => CT.rootPtr fr.sib))
    (hr : (hget h fr.pid).right_child
        = (match fr.dir with | Dir.left => CT.rootPtr fr.sib | Dir.right => CT.rootPtr s))
    (hs : IsTree h (Ptr.node fr.pid) s)
    (hsib : IsTree h (Ptr.node fr.pid) fr.sib) :
    IsTree h pp' (plug1 s fr) := by
  obtain ⟨d, pid, pc, sib⟩ := fr
  cases d
  · exact IsTree.node pp' s pid pc sib hp hl hr hc hs hsib
  · exact IsTree.node pp' sib pid pc s hp hl hr hc hsib hs

/-- Unified field projection for a context's innermost frame. -/
theorem isCtx_cons_fields {h : Heap} {fr : Frame} {ctx : Ctx} {sp pp : Ptr}
    (hC : IsCtx h (fr :: ctx) sp pp) :
    pp = Ptr.node fr.pid ∧ (hget h fr.pid).color = fr.pc ∧
    (hget h fr.pid).left_child
      = (match fr.dir with | Dir.left => sp | Dir.right => CT.rootPtr fr.sib) ∧
    (hget h fr.pid).right_child
      = (match fr.dir with | Dir.left => CT.rootPtr fr.sib | Dir.right => sp) ∧
    ∃ pp', (hget h fr.pid).parent = pp' ∧ IsTree h (Ptr.node fr.pid) fr.sib ∧
      IsCtx h ctx (Ptr.node fr.pid) pp' := by
  cases hC with
  | consL _ _ _ _ _ pp' hc hl hr hp hsib hrest =>
    exact ⟨rfl, hc, hl, hr, pp', hp, hsib, hrest⟩
  | consR _ _ _ _ _ pp' hc hl hr hp hsib hrest =>
    exact ⟨rfl, hc, hl, hr, pp', hp, hsib, hrest⟩

/-- The uncle pointer of the focus is the root of the grandparent frame's
sibling subtree. -/
theorem uncle_eq {h : Heap} {x P G : Nat} (gd : Dir) {gsib : CT}
    (hxp : (hget h x).parent = Ptr.node P)
    (hPp : (hget h P).parent = Ptr.node G)
    (hGl : (hget h G).left_child
      = (match gd with | Dir.left => Ptr.node P | Dir.right => CT.rootPtr gsib))
    (hGr : (hget h G).right_child
      = (match gd with | Dir.left => CT.rootPtr gsib | Dir.right => Ptr.node P))
    (hne : Ptr.node P ≠ CT.rootPtr gsib) :
    uncle h (Ptr.node x) = CT.rootPtr gsib := by
  unfold uncle sibling
  rw [pget_node, hxp, pget_node, hPp, pget_node]
  cases gd with
  | left =>
    have hGl2 : (hget h G).left_child = Ptr.node P := hGl
    have hGr2 : (hget h G).right_child = CT.rootPtr gsib := hGr
    rw [hGl2, if_pos rfl, hGr2]
  | right =>
    have hGl2 : (hget h G).left_child = CT.rootPtr gsib := hGl
    rw [hGl2, if_neg hne]

end CDSA
